import Mathlib

/-! Search server: a shallow embedding of `src/main.cpp`.

The C++ class `SearchServer` keeps three containers: `stop_words_`
(`set<string>`), `word_to_document_freqs_` (`map<string, map<int, double>>`)
and `documents_` (`map<int, DocumentData>`).

Modelling choices.

* `std::string` is `List Char`; `std::set`/`std::map` are key-sorted lists
  (iteration order of the C++ containers is ascending key order, which is the
  list order here).
* `double` is an arbitrary linearly ordered field `R` together with a function
  `log : R → R`; instantiating `R := ℝ` and `log := Real.log` gives exact real
  arithmetic, and rounding is not modelled.
* `int` is `Int`.  The accumulation `rating_sum += rating` wraps modulo `2^32`.
  Containers are finite lists whose sizes are taken to fit in `int`, so the
  conversions of `size()` to `int` and to `double` are exact.
* `map::at` throws `std::out_of_range`; fallible functions return `Except`.
* `std::sort` is a library routine; it enters as a parameter `StdSort`
  carrying the library contract.
-/

set_option linter.unusedSectionVars false

namespace SearchServer

/-- The type `std::string`, as a list of characters. -/
abbrev Str := List Char

/-- The constant `MAX_RESULT_DOCUMENT_COUNT`. -/
def MAX_RESULT_DOCUMENT_COUNT : Nat := 5

/-- The only exception the engine can raise: `std::out_of_range` from `map::at`. -/
inductive Exception where
  | out_of_range
deriving DecidableEq, Repr

/-- Two's complement reading of an integer as a 32-bit `int`. -/
def wrap32 (x : Int) : Int := (x + 2147483648) % 4294967296 - 2147483648

/-- The values representable in a 32-bit `int`. -/
def isInt32 (x : Int) : Prop := -2147483648 ≤ x ∧ x ≤ 2147483647

/-! ## `std::map` and `std::set` as key-sorted lists -/

namespace StdMap

variable {K V : Type} [LinearOrder K]

/-- The lookup underlying `count`, `at` and `operator[]`. -/
def find? : List (K × V) → K → Option V
  | [], _ => none
  | (k', v) :: m, k => if k = k' then some v else find? m k

/-- The member `map::count(k)`. -/
def count (m : List (K × V)) (k : K) : Nat :=
  match find? m k with
  | some _ => 1
  | none => 0

/-- The member `map::at(k)`, which throws `std::out_of_range` on a missing key. -/
def at_ (m : List (K × V)) (k : K) : Except Exception V :=
  match find? m k with
  | some v => .ok v
  | none => .error .out_of_range

/-- The statement `m[k] = f (m[k])`, where `operator[]` first value-initialises a
missing entry to `d`. -/
def upsert (k : K) (d : V) (f : V → V) : List (K × V) → List (K × V)
  | [] => [(k, f d)]
  | (k', v) :: m =>
    if k = k' then (k', f v) :: m
    else if k < k' then (k, f d) :: (k', v) :: m
    else (k', v) :: upsert k d f m

/-- The member `map::emplace(k, v)`: inserts only when the key is absent. -/
def emplace (k : K) (v : V) : List (K × V) → List (K × V)
  | [] => [(k, v)]
  | (k', v') :: m =>
    if k = k' then (k', v') :: m
    else if k < k' then (k, v) :: (k', v') :: m
    else (k', v') :: emplace k v m

/-- The member `map::erase(k)`. -/
def erase (k : K) : List (K × V) → List (K × V)
  | [] => []
  | (k', v) :: m => if k = k' then m else (k', v) :: erase k m

/-- The keys of a map, in iteration order. -/
def keys (m : List (K × V)) : List K := m.map Prod.fst

/-- A map is well formed when its keys strictly increase. -/
def WF (m : List (K × V)) : Prop := (keys m).Pairwise (fun a b => a < b)

end StdMap

namespace StdSet

variable {K : Type} [LinearOrder K]

/-- The member `set::insert(k)`. -/
def insert (k : K) : List K → List K
  | [] => [k]
  | k' :: s =>
    if k = k' then k' :: s
    else if k < k' then k :: k' :: s
    else k' :: insert k s

/-- The member `set::count(k)`. -/
def count (s : List K) (k : K) : Nat := if k ∈ s then 1 else 0

end StdSet

/-! ## Free functions and plain data -/

/-- The loop of `SplitIntoWords`: `words` and `word` are the two local variables. -/
def SplitIntoWords.loop : List Char → List Str → Str → List Str
  | [], words, word => if word ≠ [] then words ++ [word] else words
  | c :: text, words, word =>
    if c = ' ' then
      if word ≠ [] then SplitIntoWords.loop text (words ++ [word]) []
      else SplitIntoWords.loop text words word
    else SplitIntoWords.loop text words (word ++ [c])

/-- The function `SplitIntoWords`. -/
def SplitIntoWords (text : Str) : List Str := SplitIntoWords.loop text [] []

/-- The struct `Document`. -/
structure Document (R : Type) where
  id : Int
  relevance : R
  rating : Int

/-- The enum `DocumentStatus`. -/
inductive DocumentStatus where
  | ACTUAL
  | IRRELEVANT
  | BANNED
  | REMOVED
deriving DecidableEq, Repr

/-- The struct `SearchServer::DocumentData`. -/
structure DocumentData where
  rating : Int
  status : DocumentStatus
deriving DecidableEq, Repr

/-- The struct `SearchServer::QueryWord`. -/
structure QueryWord where
  data : Str
  is_minus : Bool
  is_stop : Bool
deriving DecidableEq, Repr

/-- The struct `SearchServer::Query`. -/
structure Query where
  plus_words : List Str
  minus_words : List Str
deriving DecidableEq, Repr

/-- The type of the `document_predicate` argument. -/
abbrev DocumentPredicate := Int → DocumentStatus → Int → Bool

/-- The static member `ComputeAverageRating`; `/` on `int` truncates toward zero. -/
def ComputeAverageRating (ratings : List Int) : Int :=
  if ratings = [] then 0
  else
    let rating_sum := ratings.foldl (fun rating_sum rating => wrap32 (rating_sum + rating)) 0
    Int.tdiv rating_sum (ratings.length : Int)

end SearchServer

/-- The data members of the class `SearchServer`. -/
structure SearchServer (R : Type) where
  stop_words_ : List SearchServer.Str
  word_to_document_freqs_ : List (SearchServer.Str × List (Int × R))
  documents_ : List (Int × SearchServer.DocumentData)

namespace SearchServer

variable {R : Type} [LinearOrderedField R]

/-- A freshly constructed server. -/
def empty : SearchServer R := ⟨[], [], []⟩

/-- The member `SetStopWords`. -/
def SetStopWords (srv : SearchServer R) (text : Str) : SearchServer R :=
  { srv with
    stop_words_ := (SplitIntoWords text).foldl (fun s word => StdSet.insert word s) srv.stop_words_ }

/-- The member `IsStopWord`. -/
def IsStopWord (srv : SearchServer R) (word : Str) : Bool :=
  decide (StdSet.count srv.stop_words_ word > 0)

/-- The member `SplitIntoWordsNoStop`. -/
def SplitIntoWordsNoStop (srv : SearchServer R) (text : Str) : List Str :=
  (SplitIntoWords text).foldl
    (fun words word => if !srv.IsStopWord word then words ++ [word] else words) []

/-- The posting update `word_to_document_freqs_[word][document_id] += inv_word_count`. -/
def addPosting (document_id : Int) (inv_word_count : R)
    (freqs : List (Str × List (Int × R))) (word : Str) : List (Str × List (Int × R)) :=
  StdMap.upsert word []
    (fun postings => StdMap.upsert document_id 0 (fun x => x + inv_word_count) postings) freqs

/-- The member `AddDocument`.  For a text without non-stop words `inv_word_count` is
never used, since the loop body does not run. -/
def AddDocument (srv : SearchServer R) (document_id : Int) (document : Str)
    (status : DocumentStatus) (ratings : List Int) : SearchServer R :=
  let words := srv.SplitIntoWordsNoStop document
  let inv_word_count : R := 1 / (words.length : R)
  { srv with
    word_to_document_freqs_ :=
      words.foldl (addPosting document_id inv_word_count) srv.word_to_document_freqs_
    documents_ :=
      StdMap.emplace document_id ⟨ComputeAverageRating ratings, status⟩ srv.documents_ }

/-- The member `GetDocumentCount`: `documents_.size()` returned as `int`. -/
def GetDocumentCount (srv : SearchServer R) : Int :=
  (srv.documents_.length : Int)

/-- The member `ParseQueryWord`. -/
def ParseQueryWord (srv : SearchServer R) (text : Str) : QueryWord :=
  match text with
  | '-' :: rest => ⟨rest, true, srv.IsStopWord rest⟩
  | _ => ⟨text, false, srv.IsStopWord text⟩

/-- The body of the loop of `ParseQuery`. -/
def ParseQuery.step (srv : SearchServer R) (query : Query) (word : Str) : Query :=
  let query_word := srv.ParseQueryWord word
  if !query_word.is_stop then
    if query_word.is_minus then
      { query with minus_words := StdSet.insert query_word.data query.minus_words }
    else
      { query with plus_words := StdSet.insert query_word.data query.plus_words }
  else query

/-- The member `ParseQuery`. -/
def ParseQuery (srv : SearchServer R) (text : Str) : Query :=
  (SplitIntoWords text).foldl (ParseQuery.step srv) ⟨[], []⟩

/-- The member `ComputeWordInverseDocumentFreq`. -/
def ComputeWordInverseDocumentFreq (log : R → R) (srv : SearchServer R) (word : Str) :
    Except Exception R :=
  match StdMap.at_ srv.word_to_document_freqs_ word with
  | .error e => .error e
  | .ok postings => .ok (log ((srv.GetDocumentCount : R) * 1 / (postings.length : R)))

/-- The inner loop of the plus-word pass of `FindAllDocuments`, over the postings of
one word. -/
def FindAllDocuments.accumulate (srv : SearchServer R) (document_predicate : DocumentPredicate)
    (inverse_document_freq : R) :
    List (Int × R) → List (Int × R) → Except Exception (List (Int × R))
  | [], document_to_relevance => .ok document_to_relevance
  | (document_id, term_freq) :: postings, document_to_relevance =>
    match StdMap.at_ srv.documents_ document_id with
    | .error e => .error e
    | .ok data =>
      if document_predicate document_id data.status data.rating then
        FindAllDocuments.accumulate srv document_predicate inverse_document_freq postings
          (StdMap.upsert document_id 0 (fun x => x + term_freq * inverse_document_freq)
            document_to_relevance)
      else
        FindAllDocuments.accumulate srv document_predicate inverse_document_freq postings
          document_to_relevance

/-- The loop of `FindAllDocuments` over `query.plus_words`. -/
def FindAllDocuments.plusLoop (log : R → R) (srv : SearchServer R)
    (document_predicate : DocumentPredicate) :
    List Str → List (Int × R) → Except Exception (List (Int × R))
  | [], document_to_relevance => .ok document_to_relevance
  | word :: words, document_to_relevance =>
    if StdMap.count srv.word_to_document_freqs_ word = 0 then
      FindAllDocuments.plusLoop log srv document_predicate words document_to_relevance
    else
      match ComputeWordInverseDocumentFreq log srv word with
      | .error e => .error e
      | .ok inverse_document_freq =>
        match StdMap.at_ srv.word_to_document_freqs_ word with
        | .error e => .error e
        | .ok postings =>
          match FindAllDocuments.accumulate srv document_predicate inverse_document_freq
              postings document_to_relevance with
          | .error e => .error e
          | .ok document_to_relevance' =>
            FindAllDocuments.plusLoop log srv document_predicate words document_to_relevance'

/-- The loop of `FindAllDocuments` over `query.minus_words`. -/
def FindAllDocuments.minusLoop (srv : SearchServer R) :
    List Str → List (Int × R) → Except Exception (List (Int × R))
  | [], document_to_relevance => .ok document_to_relevance
  | word :: words, document_to_relevance =>
    if StdMap.count srv.word_to_document_freqs_ word = 0 then
      FindAllDocuments.minusLoop srv words document_to_relevance
    else
      match StdMap.at_ srv.word_to_document_freqs_ word with
      | .error e => .error e
      | .ok postings =>
        FindAllDocuments.minusLoop srv words
          (postings.foldl (fun acc posting => StdMap.erase posting.1 acc) document_to_relevance)

/-- The final loop of `FindAllDocuments`, which builds `matched_documents`. -/
def FindAllDocuments.collect (srv : SearchServer R) :
    List (Int × R) → Except Exception (List (Document R))
  | [] => .ok []
  | (document_id, relevance) :: rest =>
    match StdMap.at_ srv.documents_ document_id with
    | .error e => .error e
    | .ok data =>
      match FindAllDocuments.collect srv rest with
      | .error e => .error e
      | .ok matched_documents => .ok (⟨document_id, relevance, data.rating⟩ :: matched_documents)

/-- The member `FindAllDocuments`. -/
def FindAllDocuments (log : R → R) (srv : SearchServer R) (query : Query)
    (document_predicate : DocumentPredicate) : Except Exception (List (Document R)) :=
  match FindAllDocuments.plusLoop log srv document_predicate query.plus_words [] with
  | .error e => .error e
  | .ok document_to_relevance =>
    match FindAllDocuments.minusLoop srv query.minus_words document_to_relevance with
    | .error e => .error e
    | .ok document_to_relevance' => FindAllDocuments.collect srv document_to_relevance'

/-- The lambda handed to `sort` in `FindTopDocuments`. -/
def comparator (lhs rhs : Document R) : Bool :=
  if |lhs.relevance - rhs.relevance| < 1 / 1000000 then
    decide (lhs.rating > rhs.rating)
  else
    decide (lhs.relevance > rhs.relevance)

/-- The requirement `Compare` of the C++ standard: `comp` is a strict weak ordering
on the elements of `l`. -/
def StrictWeakOn {α : Type} (comp : α → α → Bool) (l : List α) : Prop :=
  (∀ a ∈ l, comp a a = false) ∧
  (∀ a ∈ l, ∀ b ∈ l, ∀ c ∈ l, comp a b = true → comp b c = true → comp a c = true) ∧
  (∀ a ∈ l, ∀ b ∈ l, ∀ c ∈ l,
    (comp a b = false ∧ comp b a = false) → (comp b c = false ∧ comp c b = false) →
    (comp a c = false ∧ comp c a = false))

/-- The library routine `std::sort(first, last, comp)` with its contract: the result
is always a rearrangement of the input, and when `comp` is a strict weak ordering on
the input no element is ordered before one that precedes it.  The relative order of
equivalent elements is left to the implementation. -/
structure StdSort (α : Type) where
  sort : (α → α → Bool) → List α → List α
  perm : ∀ (comp : α → α → Bool) (l : List α), (sort comp l).Perm l
  sorted : ∀ (comp : α → α → Bool) (l : List α), StrictWeakOn comp l →
    (sort comp l).Pairwise (fun a b => comp b a = false)

/-- The member template `FindTopDocuments(raw_query, document_predicate)`. -/
def FindTopDocuments (S : StdSort (Document R)) (log : R → R) (srv : SearchServer R)
    (raw_query : Str) (document_predicate : DocumentPredicate) :
    Except Exception (List (Document R)) :=
  let query := srv.ParseQuery raw_query
  match FindAllDocuments log srv query document_predicate with
  | .error e => .error e
  | .ok matched_documents =>
    let matched_documents := S.sort comparator matched_documents
    if matched_documents.length > MAX_RESULT_DOCUMENT_COUNT then
      .ok (matched_documents.take MAX_RESULT_DOCUMENT_COUNT)
    else
      .ok matched_documents

/-- The member `FindTopDocuments(raw_query, given_status)`; the source defaults
`given_status` to `ACTUAL`. -/
def FindTopDocumentsByStatus (S : StdSort (Document R)) (log : R → R) (srv : SearchServer R)
    (raw_query : Str) (given_status : DocumentStatus) : Except Exception (List (Document R)) :=
  FindTopDocuments S log srv raw_query (fun _ status _ => decide (status = given_status))

/-- The first loop of `MatchDocument`, over `query.plus_words`. -/
def MatchDocument.plusLoop (srv : SearchServer R) (document_id : Int) :
    List Str → List Str → Except Exception (List Str)
  | [], matched_words => .ok matched_words
  | word :: words, matched_words =>
    if StdMap.count srv.word_to_document_freqs_ word = 0 then
      MatchDocument.plusLoop srv document_id words matched_words
    else
      match StdMap.at_ srv.word_to_document_freqs_ word with
      | .error e => .error e
      | .ok postings =>
        if StdMap.count postings document_id ≠ 0 then
          MatchDocument.plusLoop srv document_id words (matched_words ++ [word])
        else
          MatchDocument.plusLoop srv document_id words matched_words

/-- The second loop of `MatchDocument`, over `query.minus_words`; a hit clears
`matched_words` and leaves the loop. -/
def MatchDocument.minusLoop (srv : SearchServer R) (document_id : Int) :
    List Str → List Str → Except Exception (List Str)
  | [], matched_words => .ok matched_words
  | word :: words, matched_words =>
    if StdMap.count srv.word_to_document_freqs_ word = 0 then
      MatchDocument.minusLoop srv document_id words matched_words
    else
      match StdMap.at_ srv.word_to_document_freqs_ word with
      | .error e => .error e
      | .ok postings =>
        if StdMap.count postings document_id ≠ 0 then .ok []
        else MatchDocument.minusLoop srv document_id words matched_words

/-- The member `MatchDocument`. -/
def MatchDocument (srv : SearchServer R) (raw_query : Str) (document_id : Int) :
    Except Exception (List Str × DocumentStatus) :=
  let query := srv.ParseQuery raw_query
  match MatchDocument.plusLoop srv document_id query.plus_words [] with
  | .error e => .error e
  | .ok matched_words =>
    match MatchDocument.minusLoop srv document_id query.minus_words matched_words with
    | .error e => .error e
    | .ok matched_words' =>
      match StdMap.at_ srv.documents_ document_id with
      | .error e => .error e
      | .ok data => .ok (matched_words', data.status)

/-- One call of the public mutating interface. -/
inductive Call where
  | SetStopWords (text : Str)
  | AddDocument (document_id : Int) (document : Str) (status : DocumentStatus)
      (ratings : List Int)

/-- The effect of one call on the server. -/
def step (srv : SearchServer R) : Call → SearchServer R
  | .SetStopWords text => srv.SetStopWords text
  | .AddDocument document_id document status ratings =>
    srv.AddDocument document_id document status ratings

/-- The server reached from a freshly constructed one by a sequence of calls. -/
def run (calls : List Call) : SearchServer R := calls.foldl step empty

end SearchServer

namespace SearchServer

/-- Insertion of `x` into a list kept in `comp` order, behind the elements that
do not come after it. -/
def insertionSort.ins {α : Type} (comp : α → α → Bool) (x : α) : List α → List α
  | [] => [x]
  | y :: ys => if comp x y then x :: y :: ys else y :: insertionSort.ins comp x ys

/-- Insertion sort, one admissible implementation of `std::sort`. -/
def insertionSort.run {α : Type} (comp : α → α → Bool) : List α → List α
  | [] => []
  | x :: xs => insertionSort.ins comp x (insertionSort.run comp xs)

/-- Insertion sort meets the contract of `std::sort`. -/
def insertionSort (α : Type) : StdSort α where
  sort := insertionSort.run
  perm := by
    intro comp l
    have hins : ∀ (x : α) (ys : List α), (insertionSort.ins comp x ys).Perm (x :: ys) := by
      intro x ys
      induction ys with
      | nil => exact List.Perm.refl _
      | cons y ys ih =>
        unfold insertionSort.ins
        split_ifs
        · exact List.Perm.refl _
        · exact ((List.Perm.cons y ih).trans (List.Perm.swap x y ys))
    induction l with
    | nil => exact List.Perm.refl _
    | cons x xs ih => exact (hins x _).trans (List.Perm.cons x ih)
  sorted := by
    intro comp l hswo
    obtain ⟨hirr, htr, heq⟩ := hswo
    have hins : ∀ (x : α) (ys : List α), (insertionSort.ins comp x ys).Perm (x :: ys) := by
      intro x ys
      induction ys with
      | nil => exact List.Perm.refl _
      | cons y ys ih =>
        unfold insertionSort.ins
        split_ifs
        · exact List.Perm.refl _
        · exact ((List.Perm.cons y ih).trans (List.Perm.swap x y ys))
    have hrun : ∀ xs : List α, (insertionSort.run comp xs).Perm xs := by
      intro xs
      induction xs with
      | nil => exact List.Perm.refl _
      | cons x xs ih => exact (hins x _).trans (List.Perm.cons x ih)
    -- negative transitivity on the elements of `l`
    have hneg : ∀ a ∈ l, ∀ b ∈ l, ∀ c ∈ l, comp a b = false → comp b c = false →
        comp a c = false := by
      intro a ha b hb c hc hab hbc
      by_contra hac
      have hac : comp a c = true := by simpa using hac
      have hcb : comp c b = false := by
        by_contra h
        have h : comp c b = true := by simpa using h
        rw [htr a ha c hc b hb hac h] at hab
        exact Bool.noConfusion hab
      have hba : comp b a = false := by
        by_contra h
        have h : comp b a = true := by simpa using h
        rw [htr b hb a ha c hc h hac] at hbc
        exact Bool.noConfusion hbc
      have := (heq a ha b hb c hc ⟨hab, hba⟩ ⟨hbc, hcb⟩).1
      rw [this] at hac
      exact Bool.noConfusion hac
    have hsort : ∀ (x : α) (ys : List α), x ∈ l → (∀ y ∈ ys, y ∈ l) →
        ys.Pairwise (fun a b => comp b a = false) →
        (insertionSort.ins comp x ys).Pairwise (fun a b => comp b a = false) := by
      intro x ys hx
      induction ys with
      | nil => intro _ _; simp [insertionSort.ins]
      | cons y ys ih =>
        intro hys hp
        rw [List.pairwise_cons] at hp
        have hy : y ∈ l := hys y (List.mem_cons_self _ _)
        have hys' : ∀ z ∈ ys, z ∈ l := fun z hz => hys z (List.mem_cons_of_mem _ hz)
        unfold insertionSort.ins
        split_ifs with hxy
        · refine List.pairwise_cons.2 ⟨?_, List.pairwise_cons.2 hp⟩
          have hyx : comp y x = false := by
            by_contra h
            have h : comp y x = true := by simpa using h
            have := htr x hx y hy x hx hxy h
            rw [hirr x hx] at this
            exact Bool.noConfusion this
          intro z hz
          rcases List.mem_cons.1 hz with hz | hz
          · rw [hz]; exact hyx
          · exact hneg z (hys' z hz) y hy x hx (hp.1 z hz) hyx
        · have hxy : comp x y = false := by simpa using hxy
          refine List.pairwise_cons.2 ⟨?_, ih hys' hp.2⟩
          intro z hz
          rcases List.mem_cons.1 ((hins x ys).subset hz) with hz | hz
          · rw [hz]; exact hxy
          · exact hp.1 z hz
    have hmain : ∀ xs : List α, (∀ x ∈ xs, x ∈ l) →
        (insertionSort.run comp xs).Pairwise (fun a b => comp b a = false) := by
      intro xs
      induction xs with
      | nil => intro _; exact List.Pairwise.nil
      | cons x xs ih =>
        intro hxs
        have hxs' : ∀ z ∈ xs, z ∈ l := fun z hz => hxs z (List.mem_cons_of_mem _ hz)
        exact hsort x _ (hxs x (List.mem_cons_self _ _))
          (fun y hy => hxs' y ((hrun xs).subset hy)) (ih hxs')
    exact hmain l (fun x hx => hx)

end SearchServer

namespace SearchServer

variable {R : Type} [LinearOrderedField R]

/-! ## Vocabulary of the specification -/

/-- Whether the index holds a posting for `document_id` under `word`. -/
def hasPosting (srv : SearchServer R) (word : Str) (document_id : Int) : Bool :=
  match StdMap.find? srv.word_to_document_freqs_ word with
  | some postings => (StdMap.find? postings document_id).isSome
  | none => false

/-- The value stored in a two-level postings map for `document_id` under `word`. -/
def postingAt (freqs : List (Str × List (Int × R))) (word : Str) (document_id : Int) :
    Option R :=
  match StdMap.find? freqs word with
  | some postings => StdMap.find? postings document_id
  | none => none

/-- The term frequency stored for `document_id` under `word`, if there is a posting. -/
def termFreq? (srv : SearchServer R) (word : Str) (document_id : Int) : Option R :=
  postingAt srv.word_to_document_freqs_ word document_id

/-- The number of postings under `word` (the document frequency of the word). -/
def documentFreq (srv : SearchServer R) (word : Str) : Nat :=
  match StdMap.find? srv.word_to_document_freqs_ word with
  | some postings => postings.length
  | none => 0

end SearchServer

namespace SearchServer

variable {R : Type} [LinearOrderedField R]

/-- The structural invariant of the index: the three containers are key-sorted, stop
words are well-formed words, no posting list is empty, and every document id that
occurs in a posting has a metadata entry. -/
structure Inv (srv : SearchServer R) : Prop where
  stop_sorted : srv.stop_words_.Pairwise (fun a b => a < b)
  stop_words : ∀ s ∈ srv.stop_words_, s ≠ [] ∧ ' ' ∉ s
  freqs_wf : StdMap.WF srv.word_to_document_freqs_
  postings_wf : ∀ p ∈ srv.word_to_document_freqs_, StdMap.WF p.2
  postings_ne : ∀ p ∈ srv.word_to_document_freqs_, p.2 ≠ []
  documents_wf : StdMap.WF srv.documents_
  posting_ids : ∀ p ∈ srv.word_to_document_freqs_, ∀ q ∈ p.2, q.1 ∈ StdMap.keys srv.documents_

end SearchServer

namespace SearchServer

variable {R : Type} [LinearOrderedField R]

/-- The value of `document_predicate` on a stored document (false for an id without
metadata). -/
def predAt (srv : SearchServer R) (document_predicate : DocumentPredicate)
    (document_id : Int) : Bool :=
  match StdMap.find? srv.documents_ document_id with
  | some data => document_predicate document_id data.status data.rating
  | none => false

/-- The rating stored for a document (`0` for an id without metadata). -/
def storedRating (srv : SearchServer R) (document_id : Int) : Int :=
  match StdMap.find? srv.documents_ document_id with
  | some data => data.rating
  | none => 0

/-- The inverse document frequency `ln(N / df)` of a word, with `N` the value of
`GetDocumentCount` and `df` the number of postings under the word. -/
def idf (log : R → R) (srv : SearchServer R) (word : Str) : R :=
  log ((srv.GetDocumentCount : R) * 1 / (documentFreq srv word : R))

/-- The contribution of one plus word to the relevance entry of one document. -/
def bump (log : R → R) (srv : SearchServer R) (document_predicate : DocumentPredicate)
    (document_id : Int) (cur : Option R) (word : Str) : Option R :=
  match termFreq? srv word document_id with
  | some term_freq =>
    if predAt srv document_predicate document_id then
      some (cur.getD 0 + term_freq * idf log srv word)
    else cur
  | none => cur

/-- The entry of `document_to_relevance` for a document at the end of
`FindAllDocuments`, if there is one. -/
def relevance? (log : R → R) (srv : SearchServer R) (query : Query)
    (document_predicate : DocumentPredicate) (document_id : Int) : Option R :=
  if query.minus_words.any (fun w => hasPosting srv w document_id) then none
  else query.plus_words.foldl (bump log srv document_predicate document_id) none

/-- The three conditions under which a stored document matches a query: a posting under
some plus word, the predicate accepts it, and no posting under any minus word. -/
def isMatch (srv : SearchServer R) (query : Query) (document_predicate : DocumentPredicate)
    (document_id : Int) (data : DocumentData) : Bool :=
  query.plus_words.any (fun w => hasPosting srv w document_id) &&
    document_predicate document_id data.status data.rating &&
    !query.minus_words.any (fun w => hasPosting srv w document_id)

/-- The stored documents that match a query. -/
def matchingDocuments (srv : SearchServer R) (query : Query)
    (document_predicate : DocumentPredicate) : List (Int × DocumentData) :=
  srv.documents_.filter (fun p => isMatch srv query document_predicate p.1 p.2)

/-- The `Document` built for an entry of `document_to_relevance`. -/
def toDocument (srv : SearchServer R) (entry : Int × R) : Document R :=
  ⟨entry.1, entry.2, storedRating srv entry.1⟩

end SearchServer

namespace SearchServer

/-- The document ids passed to `AddDocument` in a sequence of calls. -/
def insertedIds : List Call → List Int
  | [] => []
  | .SetStopWords _ :: calls => insertedIds calls
  | .AddDocument document_id _ _ _ :: calls => document_id :: insertedIds calls

end SearchServer

namespace SearchServer

variable {R : Type} [LinearOrderedField R]

/-- The documents inserted by a sequence of calls that starts with the stop words `stops`
configured: each id with the words of its text that were not stop words when it was
inserted. -/
def insertedDocs : List Str → List Call → List (Int × List Str)
  | _, [] => []
  | stops, .SetStopWords text :: calls => insertedDocs (stops ++ SplitIntoWords text) calls
  | stops, .AddDocument document_id document _ _ :: calls =>
    (document_id, (SplitIntoWords document).filter (fun w => decide (w ∉ stops))) ::
      insertedDocs stops calls

/-- The term frequency of the specification: occurrences of `word` among the words of a
document, over the number of those words. -/
def tfSpec (R : Type) [LinearOrderedField R] (word : Str) (words : List Str) : R :=
  (List.count word words : R) / (words.length : R)

/-- The document frequency of the specification: how many inserted documents contain
`word`. -/
def dfSpec (word : Str) (docs : List (Int × List Str)) : Nat :=
  (docs.filter (fun d => decide (word ∈ d.2))).length

end SearchServer

namespace SearchServer

variable {R : Type} [LinearOrderedField R]

/-- The order the specification claims for a result: of any two positions, the earlier
document has the strictly larger relevance when the relevances differ by at least `1e-6`,
and a rating at least as large when they differ by less. -/
def SortedByRelevance (result : List (Document R)) : Prop :=
  result.Pairwise (fun a b =>
    (¬ |a.relevance - b.relevance| < 1 / 1000000 ∧ a.relevance > b.relevance) ∨
      (|a.relevance - b.relevance| < 1 / 1000000 ∧ a.rating ≥ b.rating))

/-- The relation "the relevances differ by less than `1e-6`" is transitive on a list of
documents. -/
def TieTransitive (l : List (Document R)) : Prop :=
  ∀ a ∈ l, ∀ b ∈ l, ∀ c ∈ l,
    |a.relevance - b.relevance| < 1 / 1000000 → |b.relevance - c.relevance| < 1 / 1000000 →
      |a.relevance - c.relevance| < 1 / 1000000

end SearchServer

namespace SearchServer

/-! ## Concrete inputs -/

/-- The index of the test `TestMatchDocToRequest`: one document, `"cat in the city"`. -/
def catCityCalls : List Call :=
  [.AddDocument 42 "cat in the city".toList .ACTUAL [1]]

end SearchServer

namespace SearchServer

/-- An index whose only stop word starts with a minus sign, holding one document
`"cat"`. -/
def dashStopCalls : List Call :=
  [.SetStopWords "-cat".toList, .AddDocument 1 "cat".toList .ACTUAL [1]]

/-- The second index of the test `TestExcludeStopWordsFromAddedDocumentContent`: stop
words `"in the"`, one document `"cat in the city"`. -/
def stopWordCalls : List Call :=
  [.SetStopWords "in the".toList, .AddDocument 42 "cat in the city".toList .ACTUAL [1, 2, 3]]

end SearchServer

namespace SearchServer

/-- The index of the test `TestCalcRelevance`. -/
def calcRelevanceCalls : List Call :=
  [.AddDocument 42 "The cat in the city".toList .ACTUAL [1],
   .AddDocument 43 "The cat in the".toList .ACTUAL [1],
   .AddDocument 44 "The cat in".toList .ACTUAL [1],
   .AddDocument 45 "The".toList .ACTUAL [1]]

end SearchServer

namespace SearchServer

/-- The text made of `n` copies of `" x"`. -/
def filler : Nat → Str
  | 0 => []
  | n + 1 => ' ' :: 'x' :: filler n

/-- Three documents that hold `cat` once among 600, 601 and 602 words, with ratings 1, 2
and 3, and a fourth document without `cat`. -/
def nearTieCalls : List Call :=
  [.AddDocument 1 ("cat".toList ++ filler 599) .ACTUAL [1],
   .AddDocument 2 ("cat".toList ++ filler 600) .ACTUAL [2],
   .AddDocument 3 ("cat".toList ++ filler 601) .ACTUAL [3],
   .AddDocument 4 "dog".toList .ACTUAL [1]]

end SearchServer

namespace SearchServer

/-- Two documents with the same text and different ratings, and a third document that
does not hold their word. -/
def equalTextCalls : List Call :=
  [.AddDocument 1 "cat".toList .ACTUAL [1],
   .AddDocument 2 "cat".toList .ACTUAL [5],
   .AddDocument 3 "dog".toList .ACTUAL [1]]

end SearchServer

namespace SearchServer

/-! ## Texts built from words and spaces -/

/-- A run of `n` spaces. -/
def spaces (n : Nat) : Str := List.replicate n ' '

/-- The words `ws` written one after the other, the gap after the `i`-th word holding
one space and `gaps[i]` further ones (a single space where `gaps` runs out). -/
def joinSpaced : List Str → List Nat → Str
  | [], _ => []
  | [w], _ => w
  | w :: w' :: ws, [] => w ++ spaces 1 ++ joinSpaced (w' :: ws) []
  | w :: w' :: ws, g :: gaps => w ++ spaces (g + 1) ++ joinSpaced (w' :: ws) gaps

end SearchServer

namespace SearchServer

/-! ## Further concrete inputs -/

/-- The index of the test `TestAddDocument`. -/
def addDocumentCalls : List Call :=
  [.AddDocument 42 "cat in the city".toList .ACTUAL [1],
   .AddDocument 43 "dog was found".toList .ACTUAL [1]]

/-- One document `"cat"` with status `ACTUAL` and ratings `[1]`. -/
def firstInsertCalls : List Call :=
  [.AddDocument 1 "cat".toList .ACTUAL [1]]

/-- The same id inserted twice, with different texts, statuses and ratings. -/
def repeatedIdCalls : List Call :=
  [.AddDocument 1 "cat".toList .ACTUAL [1], .AddDocument 1 "dog".toList .BANNED [5]]

/-- One document with the ratings `[-1, -2]`. -/
def negativeRatingCalls : List Call :=
  [.AddDocument 1 "cat".toList .ACTUAL [-1, -2]]

end SearchServer

namespace SearchServer

/-- One document whose text holds a word that starts with a minus sign. -/
def dashTermCalls : List Call :=
  [.AddDocument 1 "cat -dog".toList .ACTUAL [1]]

/-- The id 1 inserted first with status `BANNED`, then again with status `ACTUAL`. -/
def bannedThenActualCalls : List Call :=
  [.AddDocument 1 "dog".toList .BANNED [1], .AddDocument 1 "cat".toList .ACTUAL [1]]

end SearchServer

namespace SearchServer

/-- Stop words `"in the"`, the document `"cat in the city"` and a document made of stop
words only. -/
def onlyStopWordsCalls : List Call :=
  [.SetStopWords "in the".toList,
   .AddDocument 42 "cat in the city".toList .ACTUAL [1],
   .AddDocument 43 "in the".toList .ACTUAL [1]]

end SearchServer

namespace SearchServer

/-- The four documents of the example of the specification, with ids 1 to 4. -/
def sortExampleBase : List Call :=
  [.AddDocument 1 "cat in the city".toList .ACTUAL [1],
   .AddDocument 2 "cat in the".toList .ACTUAL [1],
   .AddDocument 3 "cat in".toList .ACTUAL [1],
   .AddDocument 4 "the".toList .ACTUAL [1]]

/-- The insertion of documents, each given by an id and a text, with status `ACTUAL` and
ratings `[1]`. -/
def singleWordCalls (others : List (Int × Str)) : List Call :=
  others.map (fun p => .AddDocument p.1 p.2 .ACTUAL [1])

/-- The ten single-word documents of the test `TestSortByRelevance`, with ids 5 to 14. -/
def sortExampleOthers : List (Int × Str) :=
  [(5, "generation".toList), (6, "bake".toList), (7, "quarrel".toList), (8, "ferry".toList),
   (9, "biscuit".toList), (10, "table".toList), (11, "bother".toList),
   (12, "guideline".toList), (13, "duty".toList), (14, "first".toList)]

end SearchServer

namespace SearchServer

/-- An index of two documents that share the word `cat`: `"cat"` and `"cat dog"`. -/
def sharedTermCalls : List Call :=
  [.AddDocument 1 "cat".toList .ACTUAL [1], .AddDocument 2 "cat dog".toList .ACTUAL [2]]

end SearchServer

namespace SearchServer

/-! ## Facts about the container model -/

namespace StdMap

variable {K V : Type} [LinearOrder K]

theorem WF_nil : WF ([] : List (K × V)) := List.Pairwise.nil

theorem WF_cons {p : K × V} {m : List (K × V)} :
    WF (p :: m) ↔ (∀ k ∈ keys m, p.1 < k) ∧ WF m := by
  simp [WF, keys, List.pairwise_cons]

theorem find?_eq_none {m : List (K × V)} {k : K} : find? m k = none ↔ k ∉ keys m := by
  induction m with
  | nil => simp [find?, keys]
  | cons p m ih =>
    obtain ⟨k', v⟩ := p
    by_cases h : k = k'
    · simp [find?, keys, h]
    · simp only [find?, h, if_false, ih, keys, List.map_cons, List.mem_cons, false_or]

theorem find?_isSome {m : List (K × V)} {k : K} : (find? m k).isSome ↔ k ∈ keys m := by
  rw [← not_iff_not, ← find?_eq_none]
  cases find? m k <;> simp

theorem mem_of_find? {m : List (K × V)} {k : K} {v : V} (h : find? m k = some v) :
    (k, v) ∈ m := by
  induction m with
  | nil => simp [find?] at h
  | cons p m ih =>
    obtain ⟨k', v'⟩ := p
    by_cases hk : k = k'
    · simp [find?, hk] at h
      simp [hk, h]
    · simp only [find?, hk, if_false] at h
      exact List.mem_cons_of_mem _ (ih h)

theorem find?_of_mem {m : List (K × V)} (hm : WF m) {k : K} {v : V} (h : (k, v) ∈ m) :
    find? m k = some v := by
  induction m with
  | nil => simp at h
  | cons p m ih =>
    obtain ⟨k', v'⟩ := p
    rw [WF_cons] at hm
    rcases List.mem_cons.1 h with h | h
    · cases h
      simp [find?]
    · have hk : k ∈ keys m := List.mem_map.2 ⟨(k, v), h, rfl⟩
      have : k' < k := hm.1 k hk
      simp [find?, ne_of_gt this, ih hm.2 h]

theorem count_eq_zero {m : List (K × V)} {k : K} : count m k = 0 ↔ k ∉ keys m := by
  rw [← find?_eq_none]
  unfold count
  cases find? m k <;> simp

theorem count_ne_zero {m : List (K × V)} {k : K} : count m k ≠ 0 ↔ k ∈ keys m := by
  rw [Ne, count_eq_zero, not_not]

theorem at_eq_ok {m : List (K × V)} {k : K} {v : V} : at_ m k = .ok v ↔ find? m k = some v := by
  unfold at_
  cases find? m k <;> simp

theorem at_eq_error {m : List (K × V)} {k : K} {e : Exception} :
    at_ m k = .error e ↔ k ∉ keys m := by
  rw [← find?_eq_none]
  unfold at_
  cases e
  cases find? m k <;> simp

theorem keys_upsert (k : K) (d : V) (f : V → V) (m : List (K × V)) (x : K) :
    x ∈ keys (upsert k d f m) ↔ x = k ∨ x ∈ keys m := by
  induction m with
  | nil => simp [upsert, keys]
  | cons p m ih =>
    obtain ⟨k', v⟩ := p
    unfold upsert
    split_ifs with h1 h2
    · subst h1
      simp [keys]
    · simp [keys]
    · have := ih
      simp only [keys, List.map_cons, List.mem_cons] at this ⊢
      rw [this]
      tauto

theorem WF_upsert (k : K) (d : V) (f : V → V) {m : List (K × V)} (hm : WF m) :
    WF (upsert k d f m) := by
  induction m with
  | nil => simp [upsert, WF, keys]
  | cons p m ih =>
    obtain ⟨k', v⟩ := p
    rw [WF_cons] at hm
    unfold upsert
    split_ifs with h1 h2
    · rw [WF_cons]
      exact hm
    · rw [WF_cons]
      refine ⟨?_, WF_cons.2 hm⟩
      intro x hx
      simp only [keys, List.map_cons, List.mem_cons] at hx
      rcases hx with hx | hx
      · rw [hx]; exact h2
      · exact lt_trans h2 (hm.1 x hx)
    · rw [WF_cons]
      refine ⟨?_, ih hm.2⟩
      intro x hx
      rcases (keys_upsert k d f m x).1 hx with hx | hx
      · rw [hx]
        exact lt_of_le_of_ne (not_lt.1 h2) (Ne.symm h1)
      · exact hm.1 x hx

theorem find?_upsert (k : K) (d : V) (f : V → V) {m : List (K × V)} (hm : WF m) (x : K) :
    find? (upsert k d f m) x = if x = k then some (f ((find? m k).getD d)) else find? m x := by
  induction m with
  | nil =>
    by_cases hx : x = k <;> simp [upsert, find?, hx]
  | cons p m ih =>
    obtain ⟨k', v⟩ := p
    rw [WF_cons] at hm
    by_cases h1 : k = k'
    · subst h1
      by_cases hx : x = k <;> simp [upsert, find?, hx]
    · by_cases h2 : k < k'
      · have hnone : find? m k = none := by
          rw [find?_eq_none]
          intro hk
          exact absurd (hm.1 k hk) (not_lt_of_gt h2)
        by_cases hx : x = k
        · subst hx
          simp [upsert, find?, h1, h2, hnone]
        · simp [upsert, find?, h1, h2, hx]
      · by_cases hx : x = k'
        · subst hx
          have hxk : ¬ x = k := fun h => h1 h.symm
          simp [upsert, find?, h1, h2, hxk]
        · by_cases hxk : x = k
          · subst hxk
            simp [upsert, find?, h1, h2, ih hm.2]
          · simp [upsert, find?, h1, h2, hx, hxk, ih hm.2]

theorem emplace_eq_upsert (k : K) (v : V) (m : List (K × V)) :
    emplace k v m = upsert k v (fun x => x) m := by
  induction m with
  | nil => rfl
  | cons p m ih =>
    obtain ⟨k', v'⟩ := p
    simp only [emplace, upsert, ih]

theorem keys_erase_sublist (k : K) (m : List (K × V)) : (keys (erase k m)).Sublist (keys m) := by
  induction m with
  | nil => simp [erase, keys]
  | cons p m ih =>
    obtain ⟨k', v⟩ := p
    unfold erase
    split_ifs with h
    · simp [keys]
    · simpa [keys] using ih

theorem WF_erase (k : K) {m : List (K × V)} (hm : WF m) : WF (erase k m) :=
  List.Pairwise.sublist (keys_erase_sublist k m) hm

theorem find?_erase (k : K) {m : List (K × V)} (hm : WF m) (x : K) :
    find? (erase k m) x = if x = k then none else find? m x := by
  induction m with
  | nil => simp [erase, find?]
  | cons p m ih =>
    obtain ⟨k', v⟩ := p
    rw [WF_cons] at hm
    unfold erase
    split_ifs with h1 h2 h3
    · subst h1; subst h2
      rw [find?_eq_none]
      intro hx
      exact lt_irrefl _ (hm.1 _ hx)
    · subst h1
      simp [find?, h2]
    · subst h3
      simp [find?, h1, ih hm.2]
    · by_cases hx : x = k'
      · simp [find?, hx]
      · simp [find?, hx, ih hm.2, h3]

theorem nodup_keys {m : List (K × V)} (hm : WF m) : (keys m).Nodup :=
  List.Pairwise.imp (fun h => ne_of_lt h) hm

end StdMap

namespace StdSet

variable {K : Type} [LinearOrder K]

theorem mem_insert (k : K) (s : List K) (x : K) : x ∈ insert k s ↔ x = k ∨ x ∈ s := by
  induction s with
  | nil => simp [insert]
  | cons k' s ih =>
    unfold insert
    split_ifs with h1 h2
    · subst h1; simp
    · simp
    · simp only [List.mem_cons, ih]
      tauto

theorem sorted_insert (k : K) {s : List K} (hs : s.Pairwise (fun a b => a < b)) :
    (insert k s).Pairwise (fun a b => a < b) := by
  induction s with
  | nil => simp [insert]
  | cons k' s ih =>
    rw [List.pairwise_cons] at hs
    unfold insert
    split_ifs with h1 h2
    · exact List.pairwise_cons.2 hs
    · refine List.pairwise_cons.2 ⟨?_, List.pairwise_cons.2 hs⟩
      intro x hx
      rcases List.mem_cons.1 hx with hx | hx
      · rw [hx]; exact h2
      · exact lt_trans h2 (hs.1 x hx)
    · refine List.pairwise_cons.2 ⟨?_, ih hs.2⟩
      intro x hx
      rcases (mem_insert k s x).1 hx with hx | hx
      · rw [hx]
        exact lt_of_le_of_ne (not_lt.1 h2) (Ne.symm h1)
      · exact hs.1 x hx

theorem insert_of_mem {k : K} {s : List K} (hs : s.Pairwise (fun a b => a < b)) (h : k ∈ s) :
    insert k s = s := by
  induction s with
  | nil => simp at h
  | cons k' s ih =>
    rw [List.pairwise_cons] at hs
    unfold insert
    split_ifs with h1 h2
    · rfl
    · rcases List.mem_cons.1 h with h | h
      · exact absurd h h1
      · exact absurd (hs.1 k h) (not_lt_of_gt h2)
    · rcases List.mem_cons.1 h with h | h
      · exact absurd h h1
      · rw [ih hs.2 h]

end StdSet

end SearchServer

namespace SearchServer

/-! ## `ComputeAverageRating` -/

theorem wrap32_add_left (x y : Int) : wrap32 (wrap32 x + y) = wrap32 (x + y) := by
  unfold wrap32
  omega

theorem wrap32_of_isInt32 {x : Int} (h : isInt32 x) : wrap32 x = x := by
  unfold isInt32 at h
  unfold wrap32
  omega

theorem foldl_wrap32 (ratings : List Int) (a : Int) :
    ratings.foldl (fun rating_sum rating => wrap32 (rating_sum + rating)) (wrap32 a) =
      wrap32 (a + ratings.sum) := by
  induction ratings generalizing a with
  | nil => simp
  | cons r rs ih =>
    simp only [List.foldl_cons, List.sum_cons]
    rw [wrap32_add_left, ih, add_assoc]

theorem ComputeAverageRating_eq (ratings : List Int) (hsum : isInt32 ratings.sum) :
    ComputeAverageRating ratings =
      if ratings = [] then 0 else Int.tdiv ratings.sum (ratings.length : Int) := by
  unfold ComputeAverageRating
  split_ifs with h
  · rfl
  · have h0 : (0 : Int) = wrap32 0 := by decide
    have hs := foldl_wrap32 ratings 0
    rw [← h0, zero_add, wrap32_of_isInt32 hsum] at hs
    simp only [hs]

end SearchServer

namespace SearchServer

/-! ## `SplitIntoWords` -/

theorem SplitIntoWords_loop_words (text : List Char) (words : List Str) (word : Str) :
    SplitIntoWords.loop text words word = words ++ SplitIntoWords.loop text [] word := by
  induction text generalizing words word with
  | nil =>
    unfold SplitIntoWords.loop
    split_ifs <;> simp
  | cons c text ih =>
    unfold SplitIntoWords.loop
    split_ifs with h1 h2
    · rw [ih (words ++ [word]), ih ([] ++ [word])]
      simp
    · exact ih words word
    · exact ih words (word ++ [c])

theorem SplitIntoWords_loop_space (a b : List Char) (word : Str) :
    SplitIntoWords.loop (a ++ ' ' :: b) [] word =
      SplitIntoWords.loop a [] word ++ SplitIntoWords.loop b [] [] := by
  induction a generalizing word with
  | nil =>
    simp only [List.nil_append, SplitIntoWords.loop, if_true]
    by_cases h : word = []
    · subst h
      simp
    · simp only [ne_eq, h, not_false_eq_true, if_true]
      rw [SplitIntoWords_loop_words]
  | cons c a ih =>
    simp only [List.cons_append, SplitIntoWords.loop, List.append_eq]
    split_ifs with h1 h2
    · rw [SplitIntoWords_loop_words, ih, SplitIntoWords_loop_words a ([] ++ [word])]
      simp
    · exact ih word
    · exact ih (word ++ [c])

theorem SplitIntoWords_loop_word (s : List Char) (hs : ' ' ∉ s) (word : Str) :
    SplitIntoWords.loop s [] word = if word ++ s ≠ [] then [word ++ s] else [] := by
  induction s generalizing word with
  | nil =>
    unfold SplitIntoWords.loop
    simp
  | cons c s ih =>
    have hc : c ≠ ' ' := fun h => hs (h ▸ List.mem_cons_self _ _)
    have hs' : ' ' ∉ s := fun h => hs (List.mem_cons_of_mem _ h)
    unfold SplitIntoWords.loop
    simp only [hc, if_false]
    rw [ih hs']
    simp

theorem SplitIntoWords_append_word (q s : List Char) (hs : ' ' ∉ s) (hne : s ≠ []) :
    SplitIntoWords (q ++ ' ' :: s) = SplitIntoWords q ++ [s] := by
  unfold SplitIntoWords
  rw [SplitIntoWords_loop_space, SplitIntoWords_loop_word s hs]
  simp [hne]

theorem SplitIntoWords_loop_mem (text : List Char) (word : Str) (hword : ' ' ∉ word) :
    ∀ w ∈ SplitIntoWords.loop text [] word, w ≠ [] ∧ ' ' ∉ w := by
  induction text generalizing word with
  | nil =>
    unfold SplitIntoWords.loop
    intro w hw
    split_ifs at hw with h
    · simp at hw
      subst hw
      exact ⟨h, hword⟩
    · simp at hw
  | cons c text ih =>
    unfold SplitIntoWords.loop
    intro w hw
    split_ifs at hw with h1 h2
    · rw [SplitIntoWords_loop_words] at hw
      simp only [List.nil_append, List.singleton_append, List.mem_cons] at hw
      rcases hw with hw | hw
      · subst hw
        exact ⟨h2, hword⟩
      · exact ih [] (by simp) w hw
    · exact ih word hword w hw
    · refine ih (word ++ [c]) ?_ w hw
      simp only [List.mem_append, List.mem_singleton, not_or]
      exact ⟨hword, fun h => h1 h.symm⟩

theorem SplitIntoWords_mem (text : List Char) :
    ∀ w ∈ SplitIntoWords text, w ≠ [] ∧ ' ' ∉ w :=
  SplitIntoWords_loop_mem text [] (by simp)

end SearchServer

namespace SearchServer

variable {R : Type} [LinearOrderedField R]

/-! ## `ParseQuery` -/

theorem IsStopWord_iff (srv : SearchServer R) (word : Str) :
    srv.IsStopWord word = true ↔ word ∈ srv.stop_words_ := by
  unfold IsStopWord StdSet.count
  by_cases h : word ∈ srv.stop_words_ <;> simp [h]

theorem ParseQuery_step_sorted (srv : SearchServer R) (query : Query) (word : Str)
    (hp : query.plus_words.Pairwise (fun a b => a < b))
    (hm : query.minus_words.Pairwise (fun a b => a < b)) :
    (ParseQuery.step srv query word).plus_words.Pairwise (fun a b => a < b) ∧
      (ParseQuery.step srv query word).minus_words.Pairwise (fun a b => a < b) := by
  unfold ParseQuery.step
  simp only
  split_ifs
  · exact ⟨hp, StdSet.sorted_insert _ hm⟩
  · exact ⟨StdSet.sorted_insert _ hp, hm⟩
  · exact ⟨hp, hm⟩

theorem ParseQuery_foldl_sorted (srv : SearchServer R) (words : List Str) (query : Query)
    (hp : query.plus_words.Pairwise (fun a b => a < b))
    (hm : query.minus_words.Pairwise (fun a b => a < b)) :
    (words.foldl (ParseQuery.step srv) query).plus_words.Pairwise (fun a b => a < b) ∧
      (words.foldl (ParseQuery.step srv) query).minus_words.Pairwise (fun a b => a < b) := by
  induction words generalizing query with
  | nil => exact ⟨hp, hm⟩
  | cons w ws ih =>
    have h := ParseQuery_step_sorted srv query w hp hm
    exact ih _ h.1 h.2

theorem ParseQuery_sorted (srv : SearchServer R) (text : Str) :
    (srv.ParseQuery text).plus_words.Pairwise (fun a b => a < b) ∧
      (srv.ParseQuery text).minus_words.Pairwise (fun a b => a < b) :=
  ParseQuery_foldl_sorted srv _ _ List.Pairwise.nil List.Pairwise.nil

/-! ## `MatchDocument` -/

theorem MatchDocument_plusLoop_eq (srv : SearchServer R) (document_id : Int)
    (words matched_words : List Str) :
    MatchDocument.plusLoop srv document_id words matched_words =
      .ok (matched_words ++ words.filter (fun w => hasPosting srv w document_id)) := by
  induction words generalizing matched_words with
  | nil => simp [MatchDocument.plusLoop]
  | cons w ws ih =>
    cases hf : StdMap.find? srv.word_to_document_freqs_ w with
    | none =>
      have hp : hasPosting srv w document_id = false := by simp [hasPosting, hf]
      simp [MatchDocument.plusLoop, StdMap.count, hf, ih, hp]
    | some postings =>
      cases hg : StdMap.find? postings document_id with
      | none =>
        have hp : hasPosting srv w document_id = false := by simp [hasPosting, hf, hg]
        simp [MatchDocument.plusLoop, StdMap.count, StdMap.at_, hf, hg, ih, hp]
      | some x =>
        have hp : hasPosting srv w document_id = true := by simp [hasPosting, hf, hg]
        simp [MatchDocument.plusLoop, StdMap.count, StdMap.at_, hf, hg, ih, hp]

theorem MatchDocument_minusLoop_eq (srv : SearchServer R) (document_id : Int)
    (words matched_words : List Str) :
    MatchDocument.minusLoop srv document_id words matched_words =
      .ok (if words.any (fun w => hasPosting srv w document_id) then [] else matched_words) := by
  induction words with
  | nil => simp [MatchDocument.minusLoop]
  | cons w ws ih =>
    cases hf : StdMap.find? srv.word_to_document_freqs_ w with
    | none =>
      have hp : hasPosting srv w document_id = false := by simp [hasPosting, hf]
      simp [MatchDocument.minusLoop, StdMap.count, hf, ih, hp]
    | some postings =>
      cases hg : StdMap.find? postings document_id with
      | none =>
        have hp : hasPosting srv w document_id = false := by simp [hasPosting, hf, hg]
        simp [MatchDocument.minusLoop, StdMap.count, StdMap.at_, hf, hg, ih, hp]
      | some x =>
        have hp : hasPosting srv w document_id = true := by simp [hasPosting, hf, hg]
        simp [MatchDocument.minusLoop, StdMap.count, StdMap.at_, hf, hg, hp]

theorem MatchDocument_eq (srv : SearchServer R) (raw_query : Str) (document_id : Int) :
    MatchDocument srv raw_query document_id =
      match StdMap.find? srv.documents_ document_id with
      | none => .error .out_of_range
      | some data =>
        .ok (if (srv.ParseQuery raw_query).minus_words.any
                (fun w => hasPosting srv w document_id) then []
              else (srv.ParseQuery raw_query).plus_words.filter
                (fun w => hasPosting srv w document_id), data.status) := by
  unfold MatchDocument
  simp only [MatchDocument_plusLoop_eq, MatchDocument_minusLoop_eq, StdMap.at_, List.nil_append]
  cases StdMap.find? srv.documents_ document_id <;> rfl

end SearchServer

namespace SearchServer

variable {R : Type} [LinearOrderedField R]

/-! ## The structural invariant holds in every reachable state -/

theorem StdMap.mem_upsert {K V : Type} [LinearOrder K] (k : K) (d : V) (f : V → V)
    (m : List (K × V)) (p : K × V) (hp : p ∈ StdMap.upsert k d f m) :
    p ∈ m ∨ (p.1 = k ∧ ∃ v, (v = d ∨ (k, v) ∈ m) ∧ p.2 = f v) := by
  induction m with
  | nil =>
    simp only [StdMap.upsert, List.mem_singleton] at hp
    subst hp
    exact Or.inr ⟨rfl, d, Or.inl rfl, rfl⟩
  | cons q m ih =>
    obtain ⟨k', v'⟩ := q
    unfold StdMap.upsert at hp
    split_ifs at hp with h1 h2
    · subst h1
      rcases List.mem_cons.1 hp with hp | hp
      · subst hp
        exact Or.inr ⟨rfl, v', Or.inr (List.mem_cons_self _ _), rfl⟩
      · exact Or.inl (List.mem_cons_of_mem _ hp)
    · rcases List.mem_cons.1 hp with hp | hp
      · subst hp
        exact Or.inr ⟨rfl, d, Or.inl rfl, rfl⟩
      · exact Or.inl hp
    · rcases List.mem_cons.1 hp with hp | hp
      · subst hp
        exact Or.inl (List.mem_cons_self _ _)
      · rcases ih hp with h | ⟨hk, v, hv, hpv⟩
        · exact Or.inl (List.mem_cons_of_mem _ h)
        · refine Or.inr ⟨hk, v, ?_, hpv⟩
          rcases hv with hv | hv
          · exact Or.inl hv
          · exact Or.inr (List.mem_cons_of_mem _ hv)

theorem StdMap.upsert_ne_nil {K V : Type} [LinearOrder K] (k : K) (d : V) (f : V → V)
    (m : List (K × V)) : StdMap.upsert k d f m ≠ [] := by
  cases m with
  | nil => simp [StdMap.upsert]
  | cons q m =>
    obtain ⟨k', v'⟩ := q
    unfold StdMap.upsert
    split_ifs <;> simp

theorem StdMap.mem_keys_of_mem {K V : Type} {m : List (K × V)} {p : K × V}
    (h : p ∈ m) : p.1 ∈ StdMap.keys m :=
  List.mem_map.2 ⟨p, h, rfl⟩

/-- The part of the invariant that concerns `word_to_document_freqs_`, relative to a
set `P` of admissible document ids. -/
theorem addPosting_inv (P : Int → Prop) (document_id : Int) (inv_word_count : R)
    (hid : P document_id) (freqs : List (Str × List (Int × R))) (word : Str)
    (h : StdMap.WF freqs ∧ ∀ p ∈ freqs, StdMap.WF p.2 ∧ p.2 ≠ [] ∧ ∀ q ∈ p.2, P q.1) :
    StdMap.WF (addPosting document_id inv_word_count freqs word) ∧
      ∀ p ∈ addPosting document_id inv_word_count freqs word,
        StdMap.WF p.2 ∧ p.2 ≠ [] ∧ ∀ q ∈ p.2, P q.1 := by
  obtain ⟨hwf, hall⟩ := h
  refine ⟨StdMap.WF_upsert _ _ _ hwf, ?_⟩
  intro p hp
  rcases StdMap.mem_upsert _ _ _ _ _ hp with hp | ⟨_, v, hv, hpv⟩
  · exact hall p hp
  · have hvok : StdMap.WF v ∧ ∀ q ∈ v, P q.1 := by
      rcases hv with hv | hv
      · subst hv
        exact ⟨StdMap.WF_nil, by simp⟩
      · exact ⟨(hall _ hv).1, (hall _ hv).2.2⟩
    rw [hpv]
    refine ⟨StdMap.WF_upsert _ _ _ hvok.1, StdMap.upsert_ne_nil _ _ _ _, ?_⟩
    intro q hq
    rcases StdMap.mem_upsert _ _ _ _ _ hq with hq | ⟨hq, _⟩
    · exact hvok.2 q hq
    · rw [hq]; exact hid

theorem addPosting_foldl_inv (P : Int → Prop) (document_id : Int) (inv_word_count : R)
    (hid : P document_id) (words : List Str) (freqs : List (Str × List (Int × R)))
    (h : StdMap.WF freqs ∧ ∀ p ∈ freqs, StdMap.WF p.2 ∧ p.2 ≠ [] ∧ ∀ q ∈ p.2, P q.1) :
    StdMap.WF (words.foldl (addPosting document_id inv_word_count) freqs) ∧
      ∀ p ∈ words.foldl (addPosting document_id inv_word_count) freqs,
        StdMap.WF p.2 ∧ p.2 ≠ [] ∧ ∀ q ∈ p.2, P q.1 := by
  induction words generalizing freqs with
  | nil => exact h
  | cons w ws ih => exact ih _ (addPosting_inv P document_id inv_word_count hid freqs w h)

theorem keys_emplace {K V : Type} [LinearOrder K] (k : K) (v : V) (m : List (K × V)) (x : K) :
    x ∈ StdMap.keys (StdMap.emplace k v m) ↔ x = k ∨ x ∈ StdMap.keys m := by
  rw [StdMap.emplace_eq_upsert]
  exact StdMap.keys_upsert _ _ _ _ _

theorem WF_emplace {K V : Type} [LinearOrder K] (k : K) (v : V) {m : List (K × V)}
    (hm : StdMap.WF m) : StdMap.WF (StdMap.emplace k v m) := by
  rw [StdMap.emplace_eq_upsert]
  exact StdMap.WF_upsert _ _ _ hm

theorem find?_emplace {K V : Type} [LinearOrder K] (k : K) (v : V) {m : List (K × V)}
    (hm : StdMap.WF m) (x : K) :
    StdMap.find? (StdMap.emplace k v m) x =
      if x = k then some ((StdMap.find? m k).getD v) else StdMap.find? m x := by
  rw [StdMap.emplace_eq_upsert]
  exact StdMap.find?_upsert _ _ _ hm _

theorem Inv_empty : Inv (empty : SearchServer R) where
  stop_sorted := List.Pairwise.nil
  stop_words := by simp [empty]
  freqs_wf := StdMap.WF_nil
  postings_wf := by simp [empty]
  postings_ne := by simp [empty]
  documents_wf := StdMap.WF_nil
  posting_ids := by simp [empty]

theorem stop_foldl_inv (words : List Str) (hw : ∀ w ∈ words, w ≠ [] ∧ ' ' ∉ w)
    (stops : List Str) (hs : stops.Pairwise (fun a b => a < b))
    (hs' : ∀ s ∈ stops, s ≠ [] ∧ ' ' ∉ s) :
    (words.foldl (fun s word => StdSet.insert word s) stops).Pairwise (fun a b => a < b) ∧
      ∀ s ∈ words.foldl (fun s word => StdSet.insert word s) stops, s ≠ [] ∧ ' ' ∉ s := by
  induction words generalizing stops with
  | nil => exact ⟨hs, hs'⟩
  | cons w ws ih =>
    refine ih (fun x hx => hw x (List.mem_cons_of_mem _ hx)) _ (StdSet.sorted_insert _ hs) ?_
    intro s hsm
    rcases (StdSet.mem_insert _ _ _).1 hsm with h | h
    · rw [h]; exact hw w (List.mem_cons_self _ _)
    · exact hs' s h

theorem Inv_SetStopWords {srv : SearchServer R} (h : Inv srv) (text : Str) :
    Inv (srv.SetStopWords text) := by
  have hs := stop_foldl_inv (SplitIntoWords text) (SplitIntoWords_mem text) srv.stop_words_
    h.stop_sorted h.stop_words
  exact
    { stop_sorted := hs.1
      stop_words := hs.2
      freqs_wf := h.freqs_wf
      postings_wf := h.postings_wf
      postings_ne := h.postings_ne
      documents_wf := h.documents_wf
      posting_ids := h.posting_ids }

theorem Inv_AddDocument {srv : SearchServer R} (h : Inv srv) (document_id : Int)
    (document : Str) (status : DocumentStatus) (ratings : List Int) :
    Inv (srv.AddDocument document_id document status ratings) := by
  have hf := addPosting_foldl_inv
    (fun x => x = document_id ∨ x ∈ StdMap.keys srv.documents_) document_id
    (1 / ((srv.SplitIntoWordsNoStop document).length : R)) (Or.inl rfl)
    (srv.SplitIntoWordsNoStop document) srv.word_to_document_freqs_
    ⟨h.freqs_wf, fun p hp =>
      ⟨h.postings_wf p hp, h.postings_ne p hp, fun q hq => Or.inr (h.posting_ids p hp q hq)⟩⟩
  exact
    { stop_sorted := h.stop_sorted
      stop_words := h.stop_words
      freqs_wf := hf.1
      postings_wf := fun p hp => (hf.2 p hp).1
      postings_ne := fun p hp => (hf.2 p hp).2.1
      documents_wf := WF_emplace _ _ h.documents_wf
      posting_ids := fun p hp q hq => (keys_emplace _ _ _ _).2 ((hf.2 p hp).2.2 q hq) }

theorem Inv_step {srv : SearchServer R} (h : Inv srv) (call : Call) : Inv (step srv call) := by
  cases call with
  | SetStopWords text => exact Inv_SetStopWords h text
  | AddDocument document_id document status ratings =>
    exact Inv_AddDocument h document_id document status ratings

theorem Inv_foldl (calls : List Call) {srv : SearchServer R} (h : Inv srv) :
    Inv (calls.foldl step srv) := by
  induction calls generalizing srv with
  | nil => exact h
  | cons c cs ih => exact ih (Inv_step h c)

theorem Inv_run (calls : List Call) : Inv (run calls : SearchServer R) :=
  Inv_foldl calls Inv_empty

end SearchServer

namespace SearchServer

variable {R : Type} [LinearOrderedField R]

/-! ## `FindAllDocuments` -/

theorem accumulate_spec (srv : SearchServer R) (pred : DocumentPredicate) (idf0 : R)
    (postings : List (Int × R)) (hps : StdMap.WF postings)
    (hids : ∀ q ∈ postings, q.1 ∈ StdMap.keys srv.documents_)
    (d2r : List (Int × R)) (hd : StdMap.WF d2r) :
    ∃ r, FindAllDocuments.accumulate srv pred idf0 postings d2r = .ok r ∧ StdMap.WF r ∧
      ∀ x, StdMap.find? r x =
        match StdMap.find? postings x with
        | some tf => if predAt srv pred x then some ((StdMap.find? d2r x).getD 0 + tf * idf0)
            else StdMap.find? d2r x
        | none => StdMap.find? d2r x := by
  induction postings generalizing d2r with
  | nil => exact ⟨d2r, rfl, hd, fun x => rfl⟩
  | cons p ps ih =>
    obtain ⟨id, tf⟩ := p
    rw [StdMap.WF_cons] at hps
    have hid : id ∈ StdMap.keys srv.documents_ := hids (id, tf) (List.mem_cons_self _ _)
    have hids' : ∀ q ∈ ps, q.1 ∈ StdMap.keys srv.documents_ :=
      fun q hq => hids q (List.mem_cons_of_mem _ hq)
    have hnone : StdMap.find? ps id = none := by
      rw [StdMap.find?_eq_none]
      intro h
      exact lt_irrefl _ (hps.1 id h)
    obtain ⟨data, hdata⟩ := Option.isSome_iff_exists.1 (StdMap.find?_isSome.2 hid)
    have hpred : predAt srv pred id = pred id data.status data.rating := by
      simp [predAt, hdata]
    by_cases hp : pred id data.status data.rating = true
    · obtain ⟨r, hr, hwf, hfind⟩ := ih hps.2 hids'
        (StdMap.upsert id 0 (fun x => x + tf * idf0) d2r) (StdMap.WF_upsert _ _ _ hd)
      refine ⟨r, ?_, hwf, ?_⟩
      · simp only [FindAllDocuments.accumulate, StdMap.at_, hdata, hp, if_true]
        exact hr
      · intro x
        rw [hfind x]
        by_cases hx : x = id
        · subst hx
          simp [StdMap.find?, hnone, StdMap.find?_upsert _ _ _ hd, hpred, hp]
        · simp [StdMap.find?, hx, StdMap.find?_upsert _ _ _ hd]
    · obtain ⟨r, hr, hwf, hfind⟩ := ih hps.2 hids' d2r hd
      refine ⟨r, ?_, hwf, ?_⟩
      · simp only [FindAllDocuments.accumulate, StdMap.at_, hdata, hp]
        exact hr
      · intro x
        rw [hfind x]
        by_cases hx : x = id
        · subst hx
          simp [StdMap.find?, hnone, hpred, hp]
        · simp [StdMap.find?, hx]

theorem plusLoop_spec (log : R → R) (srv : SearchServer R) (hinv : Inv srv)
    (pred : DocumentPredicate) (words : List Str) (d2r : List (Int × R))
    (hd : StdMap.WF d2r) :
    ∃ r, FindAllDocuments.plusLoop log srv pred words d2r = .ok r ∧ StdMap.WF r ∧
      ∀ x, StdMap.find? r x = words.foldl (bump log srv pred x) (StdMap.find? d2r x) := by
  induction words generalizing d2r with
  | nil => exact ⟨d2r, rfl, hd, fun x => rfl⟩
  | cons w ws ih =>
    cases hf : StdMap.find? srv.word_to_document_freqs_ w with
    | none =>
      obtain ⟨r, hr, hwf, hfind⟩ := ih d2r hd
      refine ⟨r, ?_, hwf, ?_⟩
      · simp only [FindAllDocuments.plusLoop, StdMap.count, hf, if_true]
        exact hr
      · intro x
        rw [hfind x]
        simp [bump, termFreq?, postingAt, hf]
    | some postings =>
      have hmem := StdMap.mem_of_find? hf
      obtain ⟨r1, hr1, hwf1, hfind1⟩ := accumulate_spec srv pred (idf log srv w) postings
        (hinv.postings_wf _ hmem) (hinv.posting_ids _ hmem) d2r hd
      obtain ⟨r, hr, hwf, hfind⟩ := ih r1 hwf1
      refine ⟨r, ?_, hwf, ?_⟩
      · have hidf : ComputeWordInverseDocumentFreq log srv w = .ok (idf log srv w) := by
          simp [ComputeWordInverseDocumentFreq, StdMap.at_, hf, idf, documentFreq]
        simp only [FindAllDocuments.plusLoop, StdMap.count, hf, hidf, StdMap.at_, hr1]
        simpa using hr
      · intro x
        rw [hfind x, hfind1 x]
        simp only [List.foldl_cons, bump, termFreq?, postingAt, hf]

theorem erase_foldl_spec (postings : List (Int × R)) (d2r : List (Int × R))
    (hd : StdMap.WF d2r) :
    StdMap.WF (postings.foldl (fun acc posting => StdMap.erase posting.1 acc) d2r) ∧
      ∀ x, StdMap.find? (postings.foldl (fun acc posting => StdMap.erase posting.1 acc) d2r) x =
        if (StdMap.find? postings x).isSome then none else StdMap.find? d2r x := by
  induction postings generalizing d2r with
  | nil => exact ⟨hd, fun x => by simp [StdMap.find?]⟩
  | cons p ps ih =>
    obtain ⟨id, tf⟩ := p
    obtain ⟨hwf, hfind⟩ := ih (StdMap.erase id d2r) (StdMap.WF_erase _ hd)
    refine ⟨hwf, ?_⟩
    intro x
    simp only [List.foldl_cons]
    rw [hfind x, StdMap.find?_erase _ hd]
    by_cases hx : x = id
    · subst hx
      simp [StdMap.find?]
    · simp [StdMap.find?, hx]

theorem minusLoop_spec (srv : SearchServer R) (words : List Str) (d2r : List (Int × R))
    (hd : StdMap.WF d2r) :
    ∃ r, FindAllDocuments.minusLoop srv words d2r = .ok r ∧ StdMap.WF r ∧
      ∀ x, StdMap.find? r x =
        if words.any (fun w => hasPosting srv w x) then none else StdMap.find? d2r x := by
  induction words generalizing d2r with
  | nil => exact ⟨d2r, rfl, hd, fun x => by simp⟩
  | cons w ws ih =>
    cases hf : StdMap.find? srv.word_to_document_freqs_ w with
    | none =>
      obtain ⟨r, hr, hwf, hfind⟩ := ih d2r hd
      refine ⟨r, ?_, hwf, ?_⟩
      · simp only [FindAllDocuments.minusLoop, StdMap.count, hf, if_true]
        exact hr
      · intro x
        rw [hfind x]
        simp [hasPosting, hf]
    | some postings =>
      obtain ⟨hwf1, hfind1⟩ := erase_foldl_spec postings d2r hd
      obtain ⟨r, hr, hwf, hfind⟩ := ih _ hwf1
      refine ⟨r, ?_, hwf, ?_⟩
      · simp only [FindAllDocuments.minusLoop, StdMap.count, hf, StdMap.at_]
        simpa using hr
      · intro x
        rw [hfind x, hfind1 x]
        have hp : hasPosting srv w x = (StdMap.find? postings x).isSome := by
          simp [hasPosting, hf]
        rw [List.any_cons, hp]
        cases (StdMap.find? postings x).isSome <;> simp

theorem collect_spec (srv : SearchServer R) (d2r : List (Int × R))
    (hk : ∀ k ∈ StdMap.keys d2r, k ∈ StdMap.keys srv.documents_) :
    FindAllDocuments.collect srv d2r = .ok (d2r.map (toDocument srv)) := by
  induction d2r with
  | nil => rfl
  | cons p ps ih =>
    obtain ⟨id, rel⟩ := p
    have hid : id ∈ StdMap.keys srv.documents_ := hk id (by simp [StdMap.keys])
    obtain ⟨data, hdata⟩ := Option.isSome_iff_exists.1 (StdMap.find?_isSome.2 hid)
    have ih' := ih (fun k hk' => hk k (by
      simp only [StdMap.keys, List.map_cons, List.mem_cons] at hk' ⊢
      exact Or.inr hk'))
    simp [FindAllDocuments.collect, StdMap.at_, hdata, ih', toDocument, storedRating]

theorem bump_foldl_isSome (log : R → R) (srv : SearchServer R) (pred : DocumentPredicate)
    (x : Int) (words : List Str) (cur : Option R) :
    (words.foldl (bump log srv pred x) cur).isSome =
      (cur.isSome || (predAt srv pred x && words.any (fun w => hasPosting srv w x))) := by
  induction words generalizing cur with
  | nil => simp
  | cons w ws ih =>
    simp only [List.foldl_cons, List.any_cons]
    rw [ih]
    have hp : hasPosting srv w x = (termFreq? srv w x).isSome := by
      unfold hasPosting termFreq? postingAt
      cases StdMap.find? srv.word_to_document_freqs_ w <;> rfl
    rw [hp]
    unfold bump
    cases termFreq? srv w x with
    | none => simp
    | some tf =>
      cases predAt srv pred x <;> simp

theorem relevance?_isSome (log : R → R) (srv : SearchServer R) (query : Query)
    (pred : DocumentPredicate) (x : Int) :
    (relevance? log srv query pred x).isSome =
      (query.plus_words.any (fun w => hasPosting srv w x) && predAt srv pred x &&
        !query.minus_words.any (fun w => hasPosting srv w x)) := by
  unfold relevance?
  split_ifs with h
  · simp [h]
  · rw [bump_foldl_isSome]
    simp [h, Bool.and_comm]

theorem FindAllDocuments_spec (log : R → R) (srv : SearchServer R) (hinv : Inv srv)
    (query : Query) (pred : DocumentPredicate) :
    ∃ r : List (Int × R), StdMap.WF r ∧
      (∀ x, StdMap.find? r x = relevance? log srv query pred x) ∧
      FindAllDocuments log srv query pred = .ok (r.map (toDocument srv)) := by
  obtain ⟨r1, hr1, hwf1, hfind1⟩ := plusLoop_spec log srv hinv pred query.plus_words []
    StdMap.WF_nil
  obtain ⟨r2, hr2, hwf2, hfind2⟩ := minusLoop_spec srv query.minus_words r1 hwf1
  have hfind : ∀ x, StdMap.find? r2 x = relevance? log srv query pred x := by
    intro x
    rw [hfind2 x, hfind1 x]
    rfl
  refine ⟨r2, hwf2, hfind, ?_⟩
  have hk : ∀ k ∈ StdMap.keys r2, k ∈ StdMap.keys srv.documents_ := by
    intro k hk
    have h1 := StdMap.find?_isSome.2 hk
    rw [hfind k, relevance?_isSome] at h1
    simp only [Bool.and_eq_true] at h1
    have h2 : predAt srv pred k = true := h1.1.2
    rw [← StdMap.find?_isSome]
    unfold predAt at h2
    cases hq : StdMap.find? srv.documents_ k with
    | none => rw [hq] at h2; exact absurd h2 (by simp)
    | some d => rfl
  simp only [FindAllDocuments, hr1, hr2]
  exact collect_spec srv r2 hk

end SearchServer

namespace SearchServer

variable {R : Type} [LinearOrderedField R]

/-! ## Stored metadata -/

theorem keys_documents_foldl (calls : List Call) (srv : SearchServer R) (x : Int) :
    x ∈ StdMap.keys (calls.foldl step srv).documents_ ↔
      x ∈ StdMap.keys srv.documents_ ∨ x ∈ insertedIds calls := by
  induction calls generalizing srv with
  | nil => simp [insertedIds]
  | cons c cs ih =>
    rw [List.foldl_cons, ih]
    cases c with
    | SetStopWords text => simp [step, SetStopWords, insertedIds]
    | AddDocument document_id document status ratings =>
      simp only [step, AddDocument, insertedIds, List.mem_cons, keys_emplace]
      tauto

theorem keys_documents_run (calls : List Call) (x : Int) :
    x ∈ StdMap.keys (run calls : SearchServer R).documents_ ↔ x ∈ insertedIds calls := by
  unfold run
  rw [keys_documents_foldl]
  simp [empty, StdMap.keys]

theorem find?_documents_step {srv : SearchServer R} (hinv : Inv srv) (call : Call) {x : Int}
    {data : DocumentData} (h : StdMap.find? srv.documents_ x = some data) :
    StdMap.find? (step srv call).documents_ x = some data := by
  cases call with
  | SetStopWords text => exact h
  | AddDocument document_id document status ratings =>
    simp only [step, AddDocument]
    rw [find?_emplace _ _ hinv.documents_wf]
    split_ifs with hx
    · subst hx
      rw [h]
      rfl
    · exact h

theorem find?_documents_foldl (calls : List Call) {srv : SearchServer R} (hinv : Inv srv)
    {x : Int} {data : DocumentData} (h : StdMap.find? srv.documents_ x = some data) :
    StdMap.find? (calls.foldl step srv).documents_ x = some data := by
  induction calls generalizing srv with
  | nil => exact h
  | cons c cs ih => exact ih (Inv_step hinv c) (find?_documents_step hinv c h)

theorem find?_documents_first (pre post : List Call) (document_id : Int) (document : Str)
    (status : DocumentStatus) (ratings : List Int) (hnew : document_id ∉ insertedIds pre) :
    StdMap.find? (run (pre ++ .AddDocument document_id document status ratings :: post) :
        SearchServer R).documents_ document_id =
      some ⟨ComputeAverageRating ratings, status⟩ := by
  unfold run
  rw [List.foldl_append, List.foldl_cons]
  have hinv : Inv (pre.foldl step (empty : SearchServer R)) := Inv_foldl pre Inv_empty
  apply find?_documents_foldl post (Inv_step hinv _)
  simp only [step, AddDocument]
  rw [find?_emplace _ _ hinv.documents_wf]
  have hnone : StdMap.find? (pre.foldl step (empty : SearchServer R)).documents_ document_id =
      none := by
    rw [StdMap.find?_eq_none]
    intro h
    exact hnew ((keys_documents_run pre document_id).1 h)
  simp [hnone]

/-! ## `FindTopDocuments` -/

theorem FindTopDocuments_spec (S : StdSort (Document R)) (log : R → R) (srv : SearchServer R)
    (hinv : Inv srv) (raw_query : Str) (pred : DocumentPredicate) :
    ∃ r : List (Int × R), StdMap.WF r ∧
      (∀ x, StdMap.find? r x = relevance? log srv (srv.ParseQuery raw_query) pred x) ∧
      FindAllDocuments log srv (srv.ParseQuery raw_query) pred = .ok (r.map (toDocument srv)) ∧
      FindTopDocuments S log srv raw_query pred =
        .ok ((S.sort comparator (r.map (toDocument srv))).take MAX_RESULT_DOCUMENT_COUNT) := by
  obtain ⟨r, hwf, hfind, hall⟩ := FindAllDocuments_spec log srv hinv (srv.ParseQuery raw_query) pred
  refine ⟨r, hwf, hfind, hall, ?_⟩
  simp only [FindTopDocuments, hall]
  split_ifs with h
  · rfl
  · rw [List.take_of_length_le (not_lt.1 h)]

theorem mem_entries_iff {r : List (Int × R)} (hwf : StdMap.WF r) (srv : SearchServer R)
    (d : Document R) :
    d ∈ r.map (toDocument srv) ↔
      StdMap.find? r d.id = some d.relevance ∧ d.rating = storedRating srv d.id := by
  constructor
  · intro h
    obtain ⟨p, hp, hpd⟩ := List.mem_map.1 h
    subst hpd
    exact ⟨StdMap.find?_of_mem hwf hp, rfl⟩
  · rintro ⟨h1, h2⟩
    refine List.mem_map.2 ⟨(d.id, d.relevance), StdMap.mem_of_find? h1, ?_⟩
    cases d
    simp only [toDocument] at h2 ⊢
    rw [h2]

theorem isMatch_iff (log : R → R) (srv : SearchServer R) (query : Query)
    (pred : DocumentPredicate) (x : Int) (data : DocumentData)
    (hdata : StdMap.find? srv.documents_ x = some data) :
    (relevance? log srv query pred x).isSome = isMatch srv query pred x data := by
  rw [relevance?_isSome]
  simp [isMatch, predAt, hdata]

theorem entries_length (log : R → R) (srv : SearchServer R) (hinv : Inv srv) (query : Query)
    (pred : DocumentPredicate) {r : List (Int × R)} (hwf : StdMap.WF r)
    (hfind : ∀ x, StdMap.find? r x = relevance? log srv query pred x) :
    r.length = (matchingDocuments srv query pred).length := by
  have h1 : (StdMap.keys r).Nodup := StdMap.nodup_keys hwf
  have h2 : ((matchingDocuments srv query pred).map Prod.fst).Nodup := by
    have hsub : ((matchingDocuments srv query pred).map Prod.fst).Sublist
        (StdMap.keys srv.documents_) :=
      List.Sublist.map _ (List.filter_sublist _)
    exact List.Nodup.sublist hsub (StdMap.nodup_keys hinv.documents_wf)
  have hperm : (StdMap.keys r).Perm ((matchingDocuments srv query pred).map Prod.fst) := by
    rw [List.perm_ext_iff_of_nodup h1 h2]
    intro x
    rw [← StdMap.find?_isSome, hfind x]
    constructor
    · intro h
      have hp : predAt srv pred x = true := by
        rw [relevance?_isSome] at h
        simp only [Bool.and_eq_true] at h
        exact h.1.2
      cases hq : StdMap.find? srv.documents_ x with
      | none => simp [predAt, hq] at hp
      | some data =>
        rw [isMatch_iff log srv query pred x data hq] at h
        refine List.mem_map.2 ⟨(x, data), ?_, rfl⟩
        exact List.mem_filter.2 ⟨StdMap.mem_of_find? hq, h⟩
    · intro h
      obtain ⟨p, hp, hpx⟩ := List.mem_map.1 h
      obtain ⟨hp1, hp2⟩ := List.mem_filter.1 hp
      obtain ⟨y, data⟩ := p
      simp only at hpx hp2
      subst hpx
      rw [isMatch_iff log srv query pred y data (StdMap.find?_of_mem hinv.documents_wf hp1)]
      exact hp2
  have := hperm.length_eq
  simpa [StdMap.keys] using this

end SearchServer

namespace SearchServer

variable {R : Type} [LinearOrderedField R]

/-! ## Stop words in queries -/

theorem ParseQuery_append_word (srv : SearchServer R) (q s : Str) (hs : ' ' ∉ s)
    (hne : s ≠ []) :
    srv.ParseQuery (q ++ ' ' :: s) = ParseQuery.step srv (srv.ParseQuery q) s := by
  unfold ParseQuery
  rw [SplitIntoWords_append_word q s hs hne, List.foldl_append]
  rfl

theorem ParseQuery_step_stop (srv : SearchServer R) (query : Query) (s : Str)
    (hstop : s ∈ srv.stop_words_) (hdash : s.head? ≠ some '-') :
    ParseQuery.step srv query s = query := by
  have hw : srv.ParseQueryWord s = ⟨s, false, true⟩ := by
    unfold ParseQueryWord
    split
    · simp at hdash
    · rw [(IsStopWord_iff srv s).2 hstop]
  simp [ParseQuery.step, hw]

theorem ParseQuery_step_minus_stop (srv : SearchServer R) (query : Query) (s : Str)
    (hstop : s ∈ srv.stop_words_) :
    ParseQuery.step srv query ('-' :: s) = query := by
  have hw : srv.ParseQueryWord ('-' :: s) = ⟨s, true, true⟩ := by
    simp [ParseQueryWord, (IsStopWord_iff srv s).2 hstop]
  simp [ParseQuery.step, hw]

theorem FindTopDocuments_congr (S : StdSort (Document R)) (log : R → R) (srv : SearchServer R)
    (q q' : Str) (pred : DocumentPredicate) (h : srv.ParseQuery q = srv.ParseQuery q') :
    FindTopDocuments S log srv q pred = FindTopDocuments S log srv q' pred := by
  simp only [FindTopDocuments, h]

theorem ParseQuery_foldl_stop_plus (srv : SearchServer R) (words : List Str)
    (hw : ∀ w ∈ words, w ∈ srv.stop_words_) (query : Query) :
    (words.foldl (ParseQuery.step srv) query).plus_words = query.plus_words := by
  induction words generalizing query with
  | nil => rfl
  | cons w ws ih =>
    rw [List.foldl_cons, ih (fun x hx => hw x (List.mem_cons_of_mem _ hx))]
    by_cases hd : w.head? = some '-'
    · have hm : (srv.ParseQueryWord w).is_minus = true := by
        unfold ParseQueryWord
        split
        · rfl
        · rename_i hne
          cases w with
          | nil => simp at hd
          | cons c cs =>
            simp only [List.head?_cons, Option.some.injEq] at hd
            exact absurd (by rw [hd]) (hne cs)
      unfold ParseQuery.step
      simp only [hm]
      split_ifs <;> rfl
    · rw [ParseQuery_step_stop srv query w (hw w (List.mem_cons_self _ _)) hd]

theorem FindTopDocuments_no_plus (S : StdSort (Document R)) (log : R → R)
    (srv : SearchServer R) (hinv : Inv srv) (q : Str) (pred : DocumentPredicate)
    (hplus : (srv.ParseQuery q).plus_words = []) :
    FindTopDocuments S log srv q pred = .ok [] := by
  obtain ⟨r, hwf, hfind, _, htop⟩ := FindTopDocuments_spec S log srv hinv q pred
  have hr : r = [] := by
    cases r with
    | nil => rfl
    | cons p ps =>
      have h1 := hfind p.1
      simp only [StdMap.find?, if_true] at h1
      have h2 : (relevance? log srv (srv.ParseQuery q) pred p.1).isSome = true := by
        rw [← h1]; rfl
      rw [relevance?_isSome, hplus] at h2
      simp at h2
  rw [htop, hr]
  have := (S.perm comparator ([] : List (Document R))).length_eq
  simp only [List.map_nil, List.length_nil, List.length_eq_zero] at this ⊢
  rw [this]
  rfl

end SearchServer

namespace SearchServer

variable {R : Type} [LinearOrderedField R]

/-! ## The stored term frequencies -/

theorem postingAt_addPosting (document_id : Int) (inv_word_count : R)
    (freqs : List (Str × List (Int × R))) (w0 : Str) (hwf : StdMap.WF freqs)
    (hin : ∀ p ∈ freqs, StdMap.WF p.2) (w : Str) (x : Int) :
    postingAt (addPosting document_id inv_word_count freqs w0) w x =
      if w = w0 ∧ x = document_id then
        some ((postingAt freqs w0 document_id).getD 0 + inv_word_count)
      else postingAt freqs w x := by
  unfold postingAt addPosting
  rw [StdMap.find?_upsert _ _ _ hwf]
  by_cases hw : w = w0
  · subst hw
    simp only [if_true, true_and]
    have hps : StdMap.WF ((StdMap.find? freqs w).getD []) := by
      cases hf : StdMap.find? freqs w with
      | none => exact StdMap.WF_nil
      | some ps => exact hin _ (StdMap.mem_of_find? hf)
    rw [StdMap.find?_upsert _ _ _ hps]
    cases hf : StdMap.find? freqs w with
    | none => by_cases hx : x = document_id <;> simp [hx, StdMap.find?]
    | some ps => by_cases hx : x = document_id <;> simp [hx]
  · simp [hw]

theorem postingAt_foldl (document_id : Int) (inv_word_count : R) (l : List Str)
    (freqs : List (Str × List (Int × R)))
    (h : StdMap.WF freqs ∧ ∀ p ∈ freqs, StdMap.WF p.2 ∧ p.2 ≠ [] ∧ ∀ q ∈ p.2, True)
    (w : Str) (x : Int) :
    postingAt (l.foldl (addPosting document_id inv_word_count) freqs) w x =
      if x = document_id ∧ w ∈ l then
        some ((postingAt freqs w document_id).getD 0 + (List.count w l : R) * inv_word_count)
      else postingAt freqs w x := by
  induction l generalizing freqs with
  | nil => simp
  | cons w0 l ih =>
    have h1 := addPosting_inv (fun _ => True) document_id inv_word_count trivial freqs w0 h
    rw [List.foldl_cons, ih _ h1,
      postingAt_addPosting _ _ _ _ h.1 (fun p hp => (h.2 p hp).1),
      postingAt_addPosting _ _ _ _ h.1 (fun p hp => (h.2 p hp).1)]
    by_cases hx : x = document_id
    · subst hx
      by_cases hw : w = w0
      · subst hw
        by_cases hl : w ∈ l
        · simp only [hl, and_self, if_true, List.mem_cons, or_true, List.count_cons_self,
            Option.getD_some, Nat.cast_add, Nat.cast_one]
          congr 1
          ring
        · simp only [hl, and_false, if_false, and_self, if_true, List.mem_cons, true_or,
            List.count_cons_self, List.count_eq_zero_of_not_mem hl, Nat.cast_add, Nat.cast_one,
            Nat.cast_zero]
          congr 1
          ring
      · have hw' : ¬ w0 = w := fun e => hw e.symm
        simp [hw, hw', List.count_cons]
    · simp [hx]

theorem SplitIntoWordsNoStop_foldl (srv : SearchServer R) (l acc : List Str) :
    l.foldl (fun words word => if !srv.IsStopWord word then words ++ [word] else words) acc =
      acc ++ l.filter (fun w => !srv.IsStopWord w) := by
  induction l generalizing acc with
  | nil => simp
  | cons w l ih =>
    rw [List.foldl_cons, ih]
    cases h : srv.IsStopWord w <;> simp [h]

theorem SplitIntoWordsNoStop_eq (srv : SearchServer R) (stops : List Str)
    (hag : ∀ w, w ∈ srv.stop_words_ ↔ w ∈ stops) (text : Str) :
    srv.SplitIntoWordsNoStop text =
      (SplitIntoWords text).filter (fun w => decide (w ∉ stops)) := by
  unfold SplitIntoWordsNoStop
  rw [SplitIntoWordsNoStop_foldl, List.nil_append]
  apply List.filter_congr
  intro w _
  by_cases h : w ∈ stops
  · simp [h, (IsStopWord_iff srv w).2 ((hag w).2 h)]
  · have : srv.IsStopWord w = false := by
      rw [← Bool.not_eq_true, IsStopWord_iff, hag]
      exact h
    simp [h, this]

theorem termFreq?_none_of_not_doc {srv : SearchServer R} (hinv : Inv srv) (w : Str) (x : Int)
    (hx : x ∉ StdMap.keys srv.documents_) : termFreq? srv w x = none := by
  unfold termFreq? postingAt
  cases hf : StdMap.find? srv.word_to_document_freqs_ w with
  | none => rfl
  | some ps =>
    simp only
    rw [StdMap.find?_eq_none]
    intro hk
    obtain ⟨v, hv⟩ := Option.isSome_iff_exists.1 (StdMap.find?_isSome.2 hk)
    exact hx (hinv.posting_ids _ (StdMap.mem_of_find? hf) _ (StdMap.mem_of_find? hv))

theorem termFreq?_AddDocument {srv : SearchServer R} (hinv : Inv srv) (document_id : Int)
    (document : Str) (status : DocumentStatus) (ratings : List Int) (w : Str) (x : Int) :
    termFreq? (srv.AddDocument document_id document status ratings) w x =
      if x = document_id ∧ w ∈ srv.SplitIntoWordsNoStop document then
        some ((termFreq? srv w document_id).getD 0 +
          (List.count w (srv.SplitIntoWordsNoStop document) : R) *
            (1 / ((srv.SplitIntoWordsNoStop document).length : R)))
      else termFreq? srv w x := by
  unfold termFreq? AddDocument
  exact postingAt_foldl _ _ _ _
    ⟨hinv.freqs_wf, fun p hp => ⟨hinv.postings_wf p hp, hinv.postings_ne p hp, fun _ _ => trivial⟩⟩
    w x

theorem mem_foldl_insert (words : List Str) (stops : List Str) (w : Str) :
    w ∈ words.foldl (fun s word => StdSet.insert word s) stops ↔ w ∈ stops ∨ w ∈ words := by
  induction words generalizing stops with
  | nil => simp
  | cons a l ih =>
    rw [List.foldl_cons, ih, StdSet.mem_insert, List.mem_cons]
    tauto

theorem keys_insertedDocs (stops : List Str) (calls : List Call) :
    StdMap.keys (insertedDocs stops calls) = insertedIds calls := by
  induction calls generalizing stops with
  | nil => rfl
  | cons c cs ih =>
    cases c with
    | SetStopWords text => simpa [insertedDocs, insertedIds] using ih _
    | AddDocument document_id document status ratings =>
      have := ih stops
      simp only [StdMap.keys] at this
      simp [insertedDocs, insertedIds, StdMap.keys, this]

theorem termFreq?_foldl (calls : List Call) (srv : SearchServer R) (hinv : Inv srv)
    (stops : List Str) (hag : ∀ w, w ∈ srv.stop_words_ ↔ w ∈ stops)
    (hnodup : (insertedIds calls).Nodup)
    (hdisj : ∀ x ∈ insertedIds calls, x ∉ StdMap.keys srv.documents_) (w : Str) (x : Int) :
    termFreq? (calls.foldl step srv) w x =
      match StdMap.find? (insertedDocs stops calls) x with
      | some ws => if w ∈ ws then some (tfSpec R w ws) else none
      | none => termFreq? srv w x := by
  induction calls generalizing srv stops with
  | nil => rfl
  | cons c cs ih =>
    cases c with
    | SetStopWords text =>
      simp only [insertedIds] at hnodup hdisj
      rw [List.foldl_cons]
      have hag' : ∀ w, w ∈ (step srv (.SetStopWords text)).stop_words_ ↔
          w ∈ stops ++ SplitIntoWords text := by
        intro w
        simp only [step, SetStopWords, mem_foldl_insert, List.mem_append, hag]
      rw [ih _ (Inv_step hinv _) _ hag' hnodup hdisj]
      rfl
    | AddDocument document_id document status ratings =>
      simp only [insertedIds, List.nodup_cons] at hnodup
      have hnew : document_id ∉ StdMap.keys srv.documents_ :=
        hdisj document_id (by simp [insertedIds])
      have hdisj' : ∀ x ∈ insertedIds cs,
          x ∉ StdMap.keys (step srv (.AddDocument document_id document status ratings)).documents_ := by
        intro y hy hk
        simp only [step, AddDocument, keys_emplace] at hk
        rcases hk with hk | hk
        · exact hnodup.1 (hk ▸ hy)
        · exact hdisj y (by simp [insertedIds, hy]) hk
      rw [List.foldl_cons, ih (step srv (.AddDocument document_id document status ratings))
        (Inv_step hinv _) stops (fun w => by simpa [step, AddDocument] using hag w) hnodup.2 hdisj']
      have hws := SplitIntoWordsNoStop_eq srv stops hag document
      have hstep : ∀ y, termFreq? (step srv (.AddDocument document_id document status ratings)) w y =
          if y = document_id ∧ w ∈ (SplitIntoWords document).filter (fun w => decide (w ∉ stops))
          then some (tfSpec R w ((SplitIntoWords document).filter (fun w => decide (w ∉ stops))))
          else termFreq? srv w y := by
        intro y
        simp only [step]
        rw [termFreq?_AddDocument hinv, hws, termFreq?_none_of_not_doc hinv w document_id hnew]
        simp [tfSpec, div_eq_mul_inv]
      by_cases hx : x = document_id
      · subst hx
        have hnone : StdMap.find? (insertedDocs stops cs) x = none := by
          rw [StdMap.find?_eq_none, keys_insertedDocs]
          exact hnodup.1
        simp only [insertedDocs, StdMap.find?, if_true, hnone, hstep]
        rw [termFreq?_none_of_not_doc hinv w x hnew]
        simp
      · simp only [insertedDocs, StdMap.find?, hx, if_false, hstep, false_and]

theorem termFreq?_run (calls : List Call) (hnodup : (insertedIds calls).Nodup) (w : Str)
    (x : Int) :
    termFreq? (run calls : SearchServer R) w x =
      match StdMap.find? (insertedDocs [] calls) x with
      | some ws => if w ∈ ws then some (tfSpec R w ws) else none
      | none => none := by
  unfold run
  rw [termFreq?_foldl calls empty Inv_empty [] (fun w => by simp [empty]) hnodup
    (fun x _ => by simp [empty, StdMap.keys])]
  cases StdMap.find? (insertedDocs [] calls) x <;> rfl

end SearchServer

namespace SearchServer

variable {R : Type} [LinearOrderedField R]

/-! ## The relevance formula -/

theorem StdMap.find?_of_mem_nodup {K V : Type} [LinearOrder K] {m : List (K × V)}
    (hm : (StdMap.keys m).Nodup) {k : K} {v : V} (h : (k, v) ∈ m) :
    StdMap.find? m k = some v := by
  induction m with
  | nil => simp at h
  | cons p m ih =>
    obtain ⟨k', v'⟩ := p
    simp only [StdMap.keys, List.map_cons, List.nodup_cons] at hm
    rcases List.mem_cons.1 h with h | h
    · cases h
      simp [StdMap.find?]
    · have hk : k ∈ m.map Prod.fst := List.mem_map.2 ⟨(k, v), h, rfl⟩
      have hne : k ≠ k' := fun e => hm.1 (e ▸ hk)
      simp only [StdMap.find?, hne, if_false]
      exact ih hm.2 h

theorem documentFreq_run (calls : List Call) (hnodup : (insertedIds calls).Nodup) (w : Str) :
    documentFreq (run calls : SearchServer R) w = dfSpec w (insertedDocs [] calls) := by
  have hinv : Inv (run calls : SearchServer R) := Inv_run calls
  have hD : (StdMap.keys (insertedDocs [] calls)).Nodup := by
    rw [keys_insertedDocs]; exact hnodup
  have h2 : (((insertedDocs [] calls).filter (fun d => decide (w ∈ d.2))).map Prod.fst).Nodup :=
    List.Nodup.sublist (List.Sublist.map _ (List.filter_sublist _)) hD
  have hmem : ∀ x, (termFreq? (run calls : SearchServer R) w x).isSome = true ↔
      x ∈ ((insertedDocs [] calls).filter (fun d => decide (w ∈ d.2))).map Prod.fst := by
    intro x
    rw [termFreq?_run calls hnodup]
    constructor
    · intro h
      cases hf : StdMap.find? (insertedDocs [] calls) x with
      | none => simp [hf] at h
      | some ws =>
        rw [hf] at h
        by_cases hw : w ∈ ws
        · exact List.mem_map.2 ⟨(x, ws),
            List.mem_filter.2 ⟨StdMap.mem_of_find? hf, by simpa using hw⟩, rfl⟩
        · simp [hw] at h
    · intro h
      obtain ⟨p, hp, hpx⟩ := List.mem_map.1 h
      obtain ⟨hp1, hp2⟩ := List.mem_filter.1 hp
      obtain ⟨y, ws⟩ := p
      simp only at hpx
      subst hpx
      have hw : w ∈ ws := by simpa using hp2
      rw [StdMap.find?_of_mem_nodup hD hp1]
      simp [hw]
  unfold dfSpec documentFreq
  cases hf : StdMap.find? (run calls : SearchServer R).word_to_document_freqs_ w with
  | none =>
    have hall : ∀ x, ¬ x ∈ ((insertedDocs [] calls).filter
        (fun d => decide (w ∈ d.2))).map Prod.fst := by
      intro x hx
      have := (hmem x).2 hx
      simp [termFreq?, postingAt, hf] at this
    have hnil : ((insertedDocs [] calls).filter (fun d => decide (w ∈ d.2))).map Prod.fst = [] :=
      List.eq_nil_iff_forall_not_mem.2 hall
    have := congrArg List.length hnil
    simpa using this.symm
  | some ps =>
    have h1 : (StdMap.keys ps).Nodup :=
      StdMap.nodup_keys (hinv.postings_wf _ (StdMap.mem_of_find? hf))
    have hperm : (StdMap.keys ps).Perm
        (((insertedDocs [] calls).filter (fun d => decide (w ∈ d.2))).map Prod.fst) := by
      rw [List.perm_ext_iff_of_nodup h1 h2]
      intro x
      rw [← hmem x, ← StdMap.find?_isSome]
      simp [termFreq?, postingAt, hf]
    have := hperm.length_eq
    simpa [StdMap.keys] using this

theorem bump_foldl_value (log : R → R) (srv : SearchServer R) (pred : DocumentPredicate)
    (x : Int) (hpred : predAt srv pred x = true) (words : List Str) (cur : Option R) :
    (words.foldl (bump log srv pred x) cur).getD 0 =
      cur.getD 0 +
        (words.map (fun w => ((termFreq? srv w x).map (fun tf => tf * idf log srv w)).getD 0)).sum := by
  induction words generalizing cur with
  | nil => simp
  | cons w ws ih =>
    rw [List.foldl_cons, ih, List.map_cons, List.sum_cons]
    unfold bump
    cases termFreq? srv w x with
    | none => simp
    | some tf => simp [hpred, add_assoc]

theorem sum_map_ite_eq_filter (words : List Str) (p : Str → Prop) [DecidablePred p]
    (f : Str → R) :
    (words.map (fun w => if p w then f w else 0)).sum =
      ((words.filter (fun w => decide (p w))).map f).sum := by
  induction words with
  | nil => simp
  | cons w ws ih =>
    by_cases h : p w
    · simp [List.filter_cons, h, ih]
    · simp [List.filter_cons, h, ih]

/-- The relevance of every returned document, for an index built with pairwise distinct
ids. -/
theorem relevance_formula (S : StdSort (Document R)) (log : R → R) (calls : List Call)
    (hnodup : (insertedIds calls).Nodup) (raw_query : Str) (pred : DocumentPredicate) :
    ∃ result, FindTopDocuments S log (run calls) raw_query pred = .ok result ∧
      ∀ d ∈ result, ∃ words, (d.id, words) ∈ insertedDocs [] calls ∧
        (∃ w ∈ ((run calls : SearchServer R).ParseQuery raw_query).plus_words, w ∈ words) ∧
        d.relevance =
          ((((run calls : SearchServer R).ParseQuery raw_query).plus_words.filter
              (fun w => decide (w ∈ words))).map
            (fun w => tfSpec R w words *
              log (((run calls : SearchServer R).GetDocumentCount : R) /
                (dfSpec w (insertedDocs [] calls) : R)))).sum := by
  have hinv : Inv (run calls : SearchServer R) := Inv_run calls
  obtain ⟨r, hwf, hfind, _, htop⟩ := FindTopDocuments_spec S log (run calls) hinv raw_query pred
  refine ⟨_, htop, ?_⟩
  intro d hd
  have hd' : d ∈ r.map (toDocument (run calls)) :=
    (S.perm comparator _).subset (List.mem_of_mem_take hd)
  obtain ⟨h1, _⟩ := (mem_entries_iff hwf _ d).1 hd'
  rw [hfind d.id] at h1
  have hsome : (relevance? log (run calls) ((run calls : SearchServer R).ParseQuery raw_query)
      pred d.id).isSome = true := by rw [h1]; rfl
  rw [relevance?_isSome] at hsome
  simp only [Bool.and_eq_true, Bool.not_eq_true', List.any_eq_true] at hsome
  obtain ⟨⟨⟨w0, hw0, hpost⟩, hpred⟩, hminus⟩ := hsome
  have hp0 : (termFreq? (run calls : SearchServer R) w0 d.id).isSome = true := by
    rw [← hpost]
    unfold hasPosting termFreq? postingAt
    cases StdMap.find? (run calls : SearchServer R).word_to_document_freqs_ w0 <;> rfl
  have htf := fun w => termFreq?_run (R := R) calls hnodup w d.id
  cases hD : StdMap.find? (insertedDocs [] calls) d.id with
  | none =>
    rw [htf w0, hD] at hp0
    simp at hp0
  | some words =>
    refine ⟨words, StdMap.mem_of_find? hD, ⟨w0, hw0, ?_⟩, ?_⟩
    · rw [htf w0, hD] at hp0
      by_contra hc
      simp [hc] at hp0
    · have hval := bump_foldl_value log (run calls) pred d.id hpred
        ((run calls : SearchServer R).ParseQuery raw_query).plus_words none
      unfold relevance? at h1
      rw [hminus] at h1
      simp only [Bool.false_eq_true, if_false] at h1
      rw [h1] at hval
      simp only [Option.getD_some, Option.getD_none, zero_add] at hval
      rw [hval, ← sum_map_ite_eq_filter]
      congr 1
      apply List.map_congr_left
      intro w _
      rw [htf w, hD]
      by_cases hw : w ∈ words
      · simp [hw, idf, documentFreq_run calls hnodup]
      · simp [hw]

end SearchServer

namespace SearchServer

variable {R : Type} [LinearOrderedField R]

/-! ## The order of the result -/

theorem comparator_irrefl (a : Document R) : comparator a a = false := by
  simp [comparator]

theorem comparator_strictWeak (l : List (Document R)) (h : TieTransitive l) :
    StrictWeakOn comparator l := by
  have hsymm : ∀ a b : Document R, |a.relevance - b.relevance| < 1 / 1000000 →
      |b.relevance - a.relevance| < 1 / 1000000 := by
    intro a b hab
    rwa [abs_sub_comm]
  refine ⟨fun a _ => comparator_irrefl a, ?_, ?_⟩
  · intro a ha b hb c hc hab hbc
    unfold comparator at hab hbc ⊢
    by_cases t1 : |a.relevance - b.relevance| < 1 / 1000000
    · by_cases t2 : |b.relevance - c.relevance| < 1 / 1000000
      · have t3 := h a ha b hb c hc t1 t2
        simp only [t1, t2, t3, if_true, decide_eq_true_eq] at hab hbc ⊢
        exact lt_trans hbc hab
      · have t3 : ¬ |a.relevance - c.relevance| < 1 / 1000000 := by
          intro t3
          exact t2 (h b hb a ha c hc (hsymm a b t1) t3)
        simp only [t1, t2, t3, if_true, if_false, decide_eq_true_eq] at hab hbc ⊢
        rw [abs_lt] at t1 t2
        have h2 : ¬ b.relevance - c.relevance < 1 / 1000000 := fun hh =>
          t2 ⟨by linarith, hh⟩
        linarith
    · by_cases t2 : |b.relevance - c.relevance| < 1 / 1000000
      · have t3 : ¬ |a.relevance - c.relevance| < 1 / 1000000 := by
          intro t3
          exact t1 (h a ha c hc b hb t3 (hsymm b c t2))
        simp only [t1, t2, t3, if_true, if_false, decide_eq_true_eq] at hab hbc ⊢
        rw [abs_lt] at t1 t2
        have h1 : ¬ a.relevance - b.relevance < 1 / 1000000 := fun hh =>
          t1 ⟨by linarith, hh⟩
        linarith
      · simp only [t1, t2, if_false, decide_eq_true_eq] at hab hbc
        have t3 : ¬ |a.relevance - c.relevance| < 1 / 1000000 := by
          rw [abs_lt] at t1 ⊢
          intro t3
          have h1 : ¬ a.relevance - b.relevance < 1 / 1000000 := fun hh =>
            t1 ⟨by linarith, hh⟩
          linarith [t3.2]
        simp only [t3, if_false, decide_eq_true_eq]
        exact lt_trans hbc hab
  · intro a ha b hb c hc hab hbc
    have key : ∀ x y : Document R, comparator x y = false ∧ comparator y x = false →
        |x.relevance - y.relevance| < 1 / 1000000 ∧ x.rating = y.rating := by
      intro x y hxy
      unfold comparator at hxy
      by_cases t : |x.relevance - y.relevance| < 1 / 1000000
      · have t' := hsymm x y t
        simp only [t, t', if_true, decide_eq_false_iff_not, not_lt] at hxy
        exact ⟨t, le_antisymm hxy.1 hxy.2⟩
      · have t' : ¬ |y.relevance - x.relevance| < 1 / 1000000 := fun hh => t (hsymm y x hh)
        simp only [t, t', if_false, decide_eq_false_iff_not, not_lt] at hxy
        have : x.relevance = y.relevance := le_antisymm hxy.1 hxy.2
        exfalso
        apply t
        rw [this, sub_self, abs_zero]
        norm_num
    obtain ⟨t1, r1⟩ := key a b hab
    obtain ⟨t2, r2⟩ := key b c hbc
    have t3 := h a ha b hb c hc t1 t2
    have t3' := hsymm a c t3
    unfold comparator
    simp only [t3, t3', if_true, r1, r2]
    simp

theorem sorted_of_comparator {l : List (Document R)}
    (h : l.Pairwise (fun a b => comparator b a = false)) : SortedByRelevance l := by
  refine List.Pairwise.imp ?_ h
  intro a b hba
  unfold comparator at hba
  by_cases t : |a.relevance - b.relevance| < 1 / 1000000
  · have t' : |b.relevance - a.relevance| < 1 / 1000000 := by rwa [abs_sub_comm]
    simp only [t', if_true, decide_eq_false_iff_not, not_lt] at hba
    exact Or.inr ⟨t, hba⟩
  · have t' : ¬ |b.relevance - a.relevance| < 1 / 1000000 := by rwa [abs_sub_comm]
    simp only [t', if_false, decide_eq_false_iff_not, not_lt] at hba
    refine Or.inl ⟨t, lt_of_le_of_ne hba ?_⟩
    intro e
    apply t
    rw [e, sub_self, abs_zero]
    norm_num

theorem no_three_cycle {α : Type} (rel : α → α → Prop) (l : List α) (h : l.Pairwise rel)
    (a b c : α) (ha : a ∈ l) (hb : b ∈ l) (hc : c ∈ l) (hab : ¬ rel a b) (hbc : ¬ rel b c)
    (hca : ¬ rel c a) (nab : a ≠ b) (nbc : b ≠ c) (nca : c ≠ a) : False := by
  obtain ⟨i, hi, rfl⟩ := List.getElem_of_mem ha
  obtain ⟨j, hj, rfl⟩ := List.getElem_of_mem hb
  obtain ⟨k, hk, rfl⟩ := List.getElem_of_mem hc
  rw [List.pairwise_iff_getElem] at h
  have h1 : j < i := by
    rcases lt_trichotomy i j with hlt | heq | hgt
    · exact absurd (h i j hi hj hlt) hab
    · subst heq; exact absurd rfl nab
    · exact hgt
  have h2 : k < j := by
    rcases lt_trichotomy j k with hlt | heq | hgt
    · exact absurd (h j k hj hk hlt) hbc
    · subst heq; exact absurd rfl nbc
    · exact hgt
  have h3 : i < k := by
    rcases lt_trichotomy k i with hlt | heq | hgt
    · exact absurd (h k i hk hi hlt) hca
    · subst heq; exact absurd rfl nca
    · exact hgt
  omega

theorem filter_not_mem_nil (l : List Str) :
    l.filter (fun w => decide (w ∉ ([] : List Str))) = l := by
  simp

theorem SplitIntoWords_x_filler (n : Nat) :
    SplitIntoWords.loop ('x' :: filler n) [] [] = List.replicate (n + 1) ['x'] := by
  induction n with
  | zero => rfl
  | succ n ih =>
    have e : 'x' :: filler (n + 1) = ['x'] ++ ' ' :: ('x' :: filler n) := rfl
    rw [e, SplitIntoWords_loop_space, ih]
    rfl

theorem SplitIntoWords_cat_filler (n : Nat) :
    SplitIntoWords ("cat".toList ++ filler n) = "cat".toList :: List.replicate n ['x'] := by
  cases n with
  | zero => rfl
  | succ n =>
    have e : "cat".toList ++ filler (n + 1) = "cat".toList ++ ' ' :: ('x' :: filler n) := rfl
    unfold SplitIntoWords
    rw [e, SplitIntoWords_loop_space, SplitIntoWords_x_filler]
    rfl

end SearchServer

namespace SearchServer

/-! ## `SplitIntoWords` on texts built from words and spaces -/

theorem SplitIntoWords_loop_spaces (n : Nat) (t : List Char) :
    SplitIntoWords.loop (spaces n ++ t) [] [] = SplitIntoWords.loop t [] [] := by
  induction n with
  | zero => rfl
  | succ n ih =>
    have e : spaces (n + 1) ++ t = ' ' :: (spaces n ++ t) := rfl
    rw [e]
    simp only [SplitIntoWords.loop, if_true, ne_eq, not_true_eq_false, if_false]
    exact ih

theorem SplitIntoWords_loop_word_spaces (w : Str) (hw : w ≠ [] ∧ ' ' ∉ w) (n : Nat)
    (t : List Char) :
    SplitIntoWords.loop (w ++ spaces (n + 1) ++ t) [] [] = w :: SplitIntoWords.loop t [] [] := by
  have e : w ++ spaces (n + 1) ++ t = w ++ ' ' :: (spaces n ++ t) := by
    simp [spaces, List.replicate_succ]
  rw [e, SplitIntoWords_loop_space, SplitIntoWords_loop_word w hw.2, SplitIntoWords_loop_spaces]
  simp [hw.1]

theorem SplitIntoWords_loop_last (w : Str) (hw : w ≠ [] ∧ ' ' ∉ w) (n : Nat) :
    SplitIntoWords.loop (w ++ spaces n) [] [] = [w] := by
  cases n with
  | zero =>
    have e : w ++ spaces 0 = w := by simp [spaces]
    rw [e, SplitIntoWords_loop_word w hw.2]
    simp [hw.1]
  | succ n =>
    have := SplitIntoWords_loop_word_spaces w hw n []
    rw [List.append_nil] at this
    rw [this]
    rfl

theorem SplitIntoWords_loop_joinSpaced (ws : List Str) (hws : ∀ w ∈ ws, w ≠ [] ∧ ' ' ∉ w)
    (gaps : List Nat) (trail : Nat) :
    SplitIntoWords.loop (joinSpaced ws gaps ++ spaces trail) [] [] = ws := by
  induction ws generalizing gaps with
  | nil =>
    have := SplitIntoWords_loop_spaces trail []
    rw [List.append_nil] at this
    simp only [joinSpaced, List.nil_append]
    rw [this]
    rfl
  | cons w ws ih =>
    have hw := hws w (List.mem_cons_self _ _)
    have hws' : ∀ x ∈ ws, x ≠ [] ∧ ' ' ∉ x := fun x hx => hws x (List.mem_cons_of_mem _ hx)
    cases ws with
    | nil =>
      simp only [joinSpaced]
      exact SplitIntoWords_loop_last w hw trail
    | cons w' ws =>
      cases gaps with
      | nil =>
        simp only [joinSpaced]
        rw [List.append_assoc, SplitIntoWords_loop_word_spaces w hw 0, ih hws' []]
      | cons g gaps =>
        simp only [joinSpaced]
        rw [List.append_assoc, SplitIntoWords_loop_word_spaces w hw g, ih hws' gaps]

theorem SplitIntoWords_joinSpaced (ws : List Str) (hws : ∀ w ∈ ws, w ≠ [] ∧ ' ' ∉ w)
    (lead : Nat) (gaps : List Nat) (trail : Nat) :
    SplitIntoWords (spaces lead ++ joinSpaced ws gaps ++ spaces trail) = ws := by
  unfold SplitIntoWords
  rw [List.append_assoc, SplitIntoWords_loop_spaces]
  exact SplitIntoWords_loop_joinSpaced ws hws gaps trail

end SearchServer

namespace SearchServer

variable {R : Type} [LinearOrderedField R]

/-! ## Document count, repeated ids and the rounding of ratings -/

theorem length_emplace_of_not_mem {K V : Type} [LinearOrder K] (k : K) (v : V)
    (m : List (K × V)) (hk : k ∉ StdMap.keys m) :
    (StdMap.emplace k v m).length = m.length + 1 := by
  induction m with
  | nil => rfl
  | cons p m ih =>
    obtain ⟨k', v'⟩ := p
    simp only [StdMap.keys, List.map_cons, List.mem_cons, not_or] at hk
    unfold StdMap.emplace
    split_ifs with h1 h2
    · exact absurd h1 hk.1
    · rfl
    · simp only [List.length_cons]
      rw [ih hk.2]

theorem emplace_of_mem {K V : Type} [LinearOrder K] (k : K) (v : V) {m : List (K × V)}
    (hm : StdMap.WF m) (hk : k ∈ StdMap.keys m) : StdMap.emplace k v m = m := by
  induction m with
  | nil => simp [StdMap.keys] at hk
  | cons p m ih =>
    obtain ⟨k', v'⟩ := p
    rw [StdMap.WF_cons] at hm
    simp only [StdMap.keys, List.map_cons, List.mem_cons] at hk
    unfold StdMap.emplace
    split_ifs with h1 h2
    · rfl
    · rcases hk with hk | hk
      · exact absurd hk h1
      · exact absurd (hm.1 k hk) (not_lt_of_gt h2)
    · rcases hk with hk | hk
      · exact absurd hk h1
      · rw [ih hm.2 hk]

theorem GetDocumentCount_run (calls : List Call) :
    (run calls : SearchServer R).GetDocumentCount = ((insertedIds calls).dedup.length : Int) := by
  have hinv : Inv (run calls : SearchServer R) := Inv_run calls
  have hperm : (StdMap.keys (run calls : SearchServer R).documents_).Perm
      (insertedIds calls).dedup := by
    rw [List.perm_ext_iff_of_nodup (StdMap.nodup_keys hinv.documents_wf) (List.nodup_dedup _)]
    intro x
    rw [keys_documents_run, List.mem_dedup]
  have := hperm.length_eq
  simp only [StdMap.keys, List.length_map] at this
  unfold GetDocumentCount
  rw [this]

theorem hasPosting_eq_isSome (srv : SearchServer R) (w : Str) (x : Int) :
    hasPosting srv w x = (termFreq? srv w x).isSome := by
  unfold hasPosting termFreq? postingAt
  cases StdMap.find? srv.word_to_document_freqs_ w <;> rfl

theorem hasPosting_AddDocument {srv : SearchServer R} (hinv : Inv srv) (document_id : Int)
    (document : Str) (status : DocumentStatus) (ratings : List Int) (w : Str) (x : Int) :
    hasPosting (srv.AddDocument document_id document status ratings) w x =
      (hasPosting srv w x ||
        decide (x = document_id ∧ w ∈ srv.SplitIntoWordsNoStop document)) := by
  rw [hasPosting_eq_isSome, hasPosting_eq_isSome, termFreq?_AddDocument hinv]
  by_cases h : x = document_id ∧ w ∈ srv.SplitIntoWordsNoStop document
  · simp [h]
  · simp [h]

theorem tdiv_eq_floor_or_ceil (a : Int) (n : Nat) :
    Int.tdiv a (n : Int) =
      if 0 ≤ a then ⌊(a : ℚ) / (n : ℚ)⌋ else ⌈(a : ℚ) / (n : ℚ)⌉ := by
  split_ifs with h
  · rw [Int.tdiv_eq_ediv h (Int.natCast_nonneg n), Rat.floor_intCast_div_natCast]
  · have hb : 0 ≤ -a := by omega
    have e : a = -(-a) := by ring
    rw [e, Int.neg_tdiv, Int.tdiv_eq_ediv hb (Int.natCast_nonneg n),
      ← Rat.floor_intCast_div_natCast, ← Int.ceil_neg]
    congr 1
    push_cast
    ring

end SearchServer

namespace SearchServer

variable {R : Type} [LinearOrderedField R]

/-! ## Extensionality of sets and maps, and the terms of a parsed query -/

theorem sorted_ext {K : Type} [LinearOrder K] {l₁ l₂ : List K}
    (h₁ : l₁.Pairwise (fun a b => a < b)) (h₂ : l₂.Pairwise (fun a b => a < b))
    (h : ∀ a, a ∈ l₁ ↔ a ∈ l₂) : l₁ = l₂ := by
  have n₁ : l₁.Nodup := List.Pairwise.imp (fun hab => ne_of_lt hab) h₁
  have n₂ : l₂.Nodup := List.Pairwise.imp (fun hab => ne_of_lt hab) h₂
  have hperm : l₁.Perm l₂ := (List.perm_ext_iff_of_nodup n₁ n₂).2 h
  exact List.eq_of_perm_of_sorted hperm h₁ h₂

theorem StdMap.ext_find? {K V : Type} [LinearOrder K] {m₁ m₂ : List (K × V)}
    (h₁ : StdMap.WF m₁) (h₂ : StdMap.WF m₂)
    (h : ∀ k, StdMap.find? m₁ k = StdMap.find? m₂ k) : m₁ = m₂ := by
  induction m₁ generalizing m₂ with
  | nil =>
    cases m₂ with
    | nil => rfl
    | cons p m =>
      have := h p.1
      simp [StdMap.find?] at this
  | cons p m ih =>
    obtain ⟨k, v⟩ := p
    cases m₂ with
    | nil =>
      have := h k
      simp [StdMap.find?] at this
    | cons p' m' =>
      obtain ⟨k', v'⟩ := p'
      rw [StdMap.WF_cons] at h₁ h₂
      have hk : k = k' := by
        rcases lt_trichotomy k k' with hlt | heq | hgt
        · exfalso
          have h1 := h k
          simp only [StdMap.find?, if_true, ne_of_lt hlt, if_false] at h1
          have : k ∈ StdMap.keys m' := by
            rw [← StdMap.find?_isSome, ← h1]; rfl
          exact absurd (h₂.1 k this) (not_lt_of_gt hlt)
        · exact heq
        · exfalso
          have h1 := h k'
          simp only [StdMap.find?, if_true, ne_of_lt hgt, if_false] at h1
          have : k' ∈ StdMap.keys m := by
            rw [← StdMap.find?_isSome, h1]; rfl
          exact absurd (h₁.1 k' this) (not_lt_of_gt hgt)
      subst hk
      have hv : v = v' := by
        have h1 := h k
        simpa [StdMap.find?] using h1
      subst hv
      have hrest : ∀ x, StdMap.find? m x = StdMap.find? m' x := by
        intro x
        by_cases hx : x = k
        · subst hx
          have a1 : StdMap.find? m x = none := by
            rw [StdMap.find?_eq_none]
            exact fun hm => lt_irrefl _ (h₁.1 x hm)
          have a2 : StdMap.find? m' x = none := by
            rw [StdMap.find?_eq_none]
            exact fun hm => lt_irrefl _ (h₂.1 x hm)
          rw [a1, a2]
        · have h1 := h x
          simpa [StdMap.find?, hx] using h1
      rw [ih h₁.2 h₂.2 hrest]

theorem ParseQuery_mem_foldl (srv : SearchServer R) (words : List Str) (query : Query)
    (w : Str) :
    (w ∈ (words.foldl (ParseQuery.step srv) query).plus_words ↔
        w ∈ query.plus_words ∨
          ∃ word ∈ words, srv.ParseQueryWord word = ⟨w, false, false⟩) ∧
      (w ∈ (words.foldl (ParseQuery.step srv) query).minus_words ↔
        w ∈ query.minus_words ∨
          ∃ word ∈ words, srv.ParseQueryWord word = ⟨w, true, false⟩) := by
  induction words generalizing query with
  | nil => simp
  | cons a l ih =>
    rw [List.foldl_cons]
    obtain ⟨ih1, ih2⟩ := ih (ParseQuery.step srv query a)
    rw [ih1, ih2]
    have hstep : (w ∈ (ParseQuery.step srv query a).plus_words ↔
          w ∈ query.plus_words ∨ srv.ParseQueryWord a = ⟨w, false, false⟩) ∧
        (w ∈ (ParseQuery.step srv query a).minus_words ↔
          w ∈ query.minus_words ∨ srv.ParseQueryWord a = ⟨w, true, false⟩) := by
      unfold ParseQuery.step
      rcases hq : srv.ParseQueryWord a with ⟨d, m, s⟩
      cases m <;> cases s <;> simp [StdSet.mem_insert, eq_comm, or_comm]
    rw [hstep.1, hstep.2]
    simp only [List.mem_cons, exists_eq_or_imp]
    exact ⟨or_assoc, or_assoc⟩

theorem ParseQuery_congr (srv : SearchServer R) (q q' : Str)
    (h : ∀ w, w ∈ SplitIntoWords q ↔ w ∈ SplitIntoWords q') :
    srv.ParseQuery q = srv.ParseQuery q' := by
  have hs := ParseQuery_sorted srv q
  have hs' := ParseQuery_sorted srv q'
  have hplus : (srv.ParseQuery q).plus_words = (srv.ParseQuery q').plus_words := by
    apply sorted_ext hs.1 hs'.1
    intro w
    unfold ParseQuery
    rw [(ParseQuery_mem_foldl srv _ _ w).1, (ParseQuery_mem_foldl srv _ _ w).1]
    simp only [h]
  have hminus : (srv.ParseQuery q).minus_words = (srv.ParseQuery q').minus_words := by
    apply sorted_ext hs.2 hs'.2
    intro w
    unfold ParseQuery
    rw [(ParseQuery_mem_foldl srv _ _ w).2, (ParseQuery_mem_foldl srv _ _ w).2]
    simp only [h]
  cases hq : srv.ParseQuery q
  cases hq' : srv.ParseQuery q'
  rw [hq, hq'] at hplus hminus
  simp only at hplus hminus
  rw [hplus, hminus]

theorem MatchDocument_congr (srv : SearchServer R) (q q' : Str) (document_id : Int)
    (h : srv.ParseQuery q = srv.ParseQuery q') :
    MatchDocument srv q document_id = MatchDocument srv q' document_id := by
  simp only [MatchDocument, h]

end SearchServer

namespace SearchServer

variable {R : Type} [LinearOrderedField R]

/-! ## Words of the index, single-term queries and the empty minus term -/

theorem keys_addPosting_foldl (document_id : Int) (inv_word_count : R) (l : List Str)
    (freqs : List (Str × List (Int × R))) (k : Str) :
    k ∈ StdMap.keys (l.foldl (addPosting document_id inv_word_count) freqs) ↔
      k ∈ StdMap.keys freqs ∨ k ∈ l := by
  induction l generalizing freqs with
  | nil => simp
  | cons w l ih =>
    rw [List.foldl_cons, ih]
    unfold addPosting
    rw [StdMap.keys_upsert, List.mem_cons]
    tauto

theorem SplitIntoWordsNoStop_mem (srv : SearchServer R) (text : Str) (w : Str) :
    w ∈ srv.SplitIntoWordsNoStop text ↔ w ∈ SplitIntoWords text ∧ w ∉ srv.stop_words_ := by
  unfold SplitIntoWordsNoStop
  rw [SplitIntoWordsNoStop_foldl, List.nil_append, List.mem_filter, ← IsStopWord_iff]
  simp

theorem freqs_keys_ne_foldl (calls : List Call) (srv : SearchServer R)
    (h : ∀ k ∈ StdMap.keys srv.word_to_document_freqs_, k ≠ []) :
    ∀ k ∈ StdMap.keys (calls.foldl step srv).word_to_document_freqs_, k ≠ [] := by
  induction calls generalizing srv with
  | nil => exact h
  | cons c cs ih =>
    rw [List.foldl_cons]
    apply ih
    cases c with
    | SetStopWords text => exact h
    | AddDocument document_id document status ratings =>
      intro k hk
      simp only [step, AddDocument] at hk
      rw [keys_addPosting_foldl] at hk
      rcases hk with hk | hk
      · exact h k hk
      · exact (SplitIntoWords_mem document k ((SplitIntoWordsNoStop_mem srv document k).1 hk).1).1

theorem hasPosting_nil_run (calls : List Call) (x : Int) :
    hasPosting (run calls : SearchServer R) [] x = false := by
  have hk : ([] : Str) ∉ StdMap.keys (run calls : SearchServer R).word_to_document_freqs_ :=
    fun h => freqs_keys_ne_foldl calls empty (by simp [empty, StdMap.keys]) [] h rfl
  unfold hasPosting
  rw [StdMap.find?_eq_none.2 hk]

theorem stop_words_mono (calls : List Call) (srv : SearchServer R) (w : Str)
    (h : w ∈ srv.stop_words_) : w ∈ (calls.foldl step srv).stop_words_ := by
  induction calls generalizing srv with
  | nil => exact h
  | cons c cs ih =>
    rw [List.foldl_cons]
    apply ih
    cases c with
    | SetStopWords text =>
      simp only [step, SetStopWords, mem_foldl_insert]
      exact Or.inl h
    | AddDocument document_id document status ratings => exact h

theorem hasPosting_foldl (calls : List Call) {srv : SearchServer R} (hinv : Inv srv) (w : Str)
    (x : Int) (h : hasPosting srv w x = true) :
    hasPosting (calls.foldl step srv) w x = true := by
  induction calls generalizing srv with
  | nil => exact h
  | cons c cs ih =>
    rw [List.foldl_cons]
    apply ih (Inv_step hinv c)
    cases c with
    | SetStopWords text => exact h
    | AddDocument document_id document status ratings =>
      simp only [step]
      rw [hasPosting_AddDocument hinv, h]
      rfl

theorem ParseQuery_single (srv : SearchServer R) (t : Str) (hne : t ≠ []) (hsp : ' ' ∉ t)
    (hdash : t.head? ≠ some '-') (hstop : t ∉ srv.stop_words_) :
    srv.ParseQuery t = ⟨[t], []⟩ := by
  have hsplit : SplitIntoWords t = [t] := by
    unfold SplitIntoWords
    rw [SplitIntoWords_loop_word t hsp []]
    simp [hne]
  have hword : srv.ParseQueryWord t = ⟨t, false, false⟩ := by
    have hs : srv.IsStopWord t = false := by
      rw [← Bool.not_eq_true, IsStopWord_iff]
      exact hstop
    unfold ParseQueryWord
    split
    · simp at hdash
    · rw [hs]
  unfold ParseQuery
  rw [hsplit]
  simp [ParseQuery.step, hword, StdSet.insert]

theorem FindTopDocuments_complete (S : StdSort (Document R)) (log : R → R)
    (srv : SearchServer R) (hinv : Inv srv) (raw_query : Str) (pred : DocumentPredicate)
    (hlen : (matchingDocuments srv (srv.ParseQuery raw_query) pred).length ≤ 5) :
    ∃ result, FindTopDocuments S log srv raw_query pred = .ok result ∧
      ∀ p ∈ matchingDocuments srv (srv.ParseQuery raw_query) pred,
        ∃ d ∈ result, d.id = p.1 ∧ d.rating = p.2.rating := by
  obtain ⟨r, hwf, hfind, _, htop⟩ := FindTopDocuments_spec S log srv hinv raw_query pred
  refine ⟨_, htop, ?_⟩
  intro p hp
  obtain ⟨hp1, hp2⟩ := List.mem_filter.1 hp
  have hq : StdMap.find? srv.documents_ p.1 = some p.2 :=
    StdMap.find?_of_mem hinv.documents_wf hp1
  rw [← isMatch_iff log _ _ _ _ _ hq, ← hfind p.1] at hp2
  obtain ⟨rel, hrel⟩ := Option.isSome_iff_exists.1 hp2
  have hmem : toDocument srv (p.1, rel) ∈ r.map (toDocument srv) :=
    List.mem_map.2 ⟨(p.1, rel), StdMap.mem_of_find? hrel, rfl⟩
  have hl : (S.sort comparator (r.map (toDocument srv))).length ≤
      MAX_RESULT_DOCUMENT_COUNT := by
    rw [(S.perm comparator _).length_eq, List.length_map,
      entries_length log _ hinv _ _ hwf hfind]
    exact hlen
  refine ⟨toDocument srv (p.1, rel), ?_, rfl, ?_⟩
  · rw [List.take_of_length_le hl]
    exact (S.perm comparator _).symm.subset hmem
  · simp [toDocument, storedRating, hq]

theorem FindTopDocuments_congr_relevance (S : StdSort (Document R)) (log : R → R)
    (srv : SearchServer R) (hinv : Inv srv) (q q' : Str) (pred : DocumentPredicate)
    (h : ∀ x, relevance? log srv (srv.ParseQuery q) pred x =
      relevance? log srv (srv.ParseQuery q') pred x) :
    FindTopDocuments S log srv q pred = FindTopDocuments S log srv q' pred := by
  obtain ⟨r, hwf, hfind, _, htop⟩ := FindTopDocuments_spec S log srv hinv q pred
  obtain ⟨r', hwf', hfind', _, htop'⟩ := FindTopDocuments_spec S log srv hinv q' pred
  have hr : r = r' := StdMap.ext_find? hwf hwf' (fun k => by rw [hfind k, hfind' k, h k])
  rw [htop, htop', hr]

end SearchServer

namespace SearchServer

variable {R : Type} [LinearOrderedField R]

/-! ## The term frequencies of one document -/

theorem sum_filterMap_eq (l : List (Str × List (Int × R))) (x : Int) :
    (l.filterMap (fun p => StdMap.find? p.2 x)).sum =
      (l.map (fun p => (StdMap.find? p.2 x).getD 0)).sum := by
  induction l with
  | nil => rfl
  | cons p l ih =>
    rw [List.filterMap_cons, List.map_cons, List.sum_cons]
    cases h : StdMap.find? p.2 x with
    | none => simp [ih]
    | some v => simp [ih]

theorem sum_map_cast_div (l : List Str) (f : Str → Nat) (c : R) :
    (l.map (fun k => (f k : R) / c)).sum = (((l.map f).sum : Nat) : R) / c := by
  induction l with
  | nil => simp
  | cons a l ih =>
    simp only [List.map_cons, List.sum_cons, ih, Nat.cast_add, add_div]

theorem tf_sum_run (calls : List Call) (hnodup : (insertedIds calls).Nodup) (x : Int)
    (words : List Str) (hdoc : (x, words) ∈ insertedDocs [] calls) (hne : words ≠ []) :
    ((run calls : SearchServer R).word_to_document_freqs_.filterMap
      (fun p => StdMap.find? p.2 x)).sum = 1 := by
  have hinv : Inv (run calls : SearchServer R) := Inv_run calls
  have hD : (StdMap.keys (insertedDocs [] calls)).Nodup := by
    rw [keys_insertedDocs]; exact hnodup
  have hfD : StdMap.find? (insertedDocs [] calls) x = some words :=
    StdMap.find?_of_mem_nodup hD hdoc
  have htf : ∀ w, termFreq? (run calls : SearchServer R) w x =
      if w ∈ words then some (tfSpec R w words) else none := by
    intro w
    rw [termFreq?_run calls hnodup, hfD]
  rw [sum_filterMap_eq]
  have hmap : (run calls : SearchServer R).word_to_document_freqs_.map
      (fun p => (StdMap.find? p.2 x).getD 0) =
      (StdMap.keys (run calls : SearchServer R).word_to_document_freqs_).map
        (fun k => if k ∈ words then tfSpec R k words else 0) := by
    unfold StdMap.keys
    rw [List.map_map]
    apply List.map_congr_left
    intro p hp
    have h1 : StdMap.find? (run calls : SearchServer R).word_to_document_freqs_ p.1 = some p.2 :=
      StdMap.find?_of_mem hinv.freqs_wf hp
    have h2 := htf p.1
    simp only [termFreq?, postingAt, h1] at h2
    simp only [Function.comp, h2]
    by_cases hw : p.1 ∈ words <;> simp [hw]
  rw [hmap, sum_map_ite_eq_filter]
  have hperm : ((StdMap.keys (run calls : SearchServer R).word_to_document_freqs_).filter
      (fun w => decide (w ∈ words))).Perm words.dedup := by
    rw [List.perm_ext_iff_of_nodup
      (List.Nodup.filter _ (StdMap.nodup_keys hinv.freqs_wf)) (List.nodup_dedup _)]
    intro k
    rw [List.mem_filter, List.mem_dedup]
    constructor
    · intro h
      simpa using h.2
    · intro hk
      refine ⟨?_, by simpa using hk⟩
      have h2 := htf k
      simp only [hk, if_true] at h2
      rw [← StdMap.find?_isSome]
      unfold termFreq? postingAt at h2
      cases hf : StdMap.find? (run calls : SearchServer R).word_to_document_freqs_ k with
      | none => rw [hf] at h2; exact absurd h2 (by simp)
      | some ps => rfl
  rw [(hperm.map _).sum_eq]
  unfold tfSpec
  rw [sum_map_cast_div]
  have hcount : (List.map (fun k => List.count k words) words.dedup).sum = words.length := by
    have := List.sum_map_count_dedup_eq_length words
    convert this
  rw [hcount]
  have hlen : ((words.length : Nat) : R) ≠ 0 :=
    Nat.cast_ne_zero.2 (fun h => hne (List.length_eq_zero.1 h))
  exact div_self hlen

theorem no_posting_of_no_words (calls : List Call) (hnodup : (insertedIds calls).Nodup)
    (x : Int) (hdoc : (x, ([] : List Str)) ∈ insertedDocs [] calls) (w : Str) :
    hasPosting (run calls : SearchServer R) w x = false := by
  have hD : (StdMap.keys (insertedDocs [] calls)).Nodup := by
    rw [keys_insertedDocs]; exact hnodup
  rw [hasPosting_eq_isSome, termFreq?_run calls hnodup,
    StdMap.find?_of_mem_nodup hD hdoc]
  simp

end SearchServer

namespace SearchServer

variable {R : Type} [LinearOrderedField R]

/-! ## The example of the specification -/

theorem comparator_asymm (a b : Document R) (h : comparator a b = true) :
    comparator b a = false := by
  unfold comparator at h ⊢
  by_cases t : |a.relevance - b.relevance| < 1 / 1000000
  · have t' : |b.relevance - a.relevance| < 1 / 1000000 := by rwa [abs_sub_comm]
    simp only [t, t', if_true, decide_eq_true_eq, decide_eq_false_iff_not] at h ⊢
    exact not_lt.2 (le_of_lt h)
  · have t' : ¬ |b.relevance - a.relevance| < 1 / 1000000 := by rwa [abs_sub_comm]
    simp only [t, t', if_false, decide_eq_true_eq, decide_eq_false_iff_not] at h ⊢
    exact not_lt.2 (le_of_lt h)

theorem sorted_perm_unique {α : Type} (comp : α → α → Bool)
    (hasymm : ∀ a b, comp a b = true → comp b a = false) {l l' : List α}
    (hperm : l.Perm l') (hl : l.Pairwise (fun a b => comp b a = false))
    (hl' : l'.Pairwise (fun a b => comp a b = true)) : l = l' := by
  have hsym : Symmetric (fun a b : α => comp a b = true ∨ comp b a = true) :=
    fun _ _ h => h.symm
  have hcmp := List.Pairwise.forall hsym (List.Pairwise.imp (fun h => Or.inl h) hl')
  haveI : IsAntisymm α (fun a b => comp b a = false ∧ a ∈ l' ∧ b ∈ l') :=
    ⟨fun a b hab hba => by
      by_contra hne
      rcases hcmp hab.2.1 hab.2.2 hne with h | h
      · rw [hba.1] at h; exact Bool.noConfusion h
      · rw [hab.1] at h; exact Bool.noConfusion h⟩
  have s1 : l.Pairwise (fun a b => comp b a = false ∧ a ∈ l' ∧ b ∈ l') :=
    List.Pairwise.imp_of_mem (fun ha hb h => ⟨h, hperm.subset ha, hperm.subset hb⟩) hl
  have s2 : l'.Pairwise (fun a b => comp b a = false ∧ a ∈ l' ∧ b ∈ l') :=
    List.Pairwise.imp_of_mem (fun ha hb h => ⟨hasymm _ _ h, ha, hb⟩) hl'
  exact List.eq_of_perm_of_sorted hperm s1 s2

theorem insertedIds_append (a b : List Call) :
    insertedIds (a ++ b) = insertedIds a ++ insertedIds b := by
  induction a with
  | nil => rfl
  | cons c cs ih =>
    cases c with
    | SetStopWords text => simpa [insertedIds] using ih
    | AddDocument document_id document status ratings => simp [insertedIds, ih]

theorem insertedIds_singleWordCalls (others : List (Int × Str)) :
    insertedIds (singleWordCalls others) = others.map Prod.fst := by
  induction others with
  | nil => rfl
  | cons p ps ih =>
    simp only [singleWordCalls, List.map_cons, insertedIds] at ih ⊢
    rw [ih]

theorem insertedDocs_singleWordCalls (others : List (Int × Str))
    (hwords : ∀ p ∈ others, p.2 ≠ [] ∧ ' ' ∉ p.2) :
    insertedDocs [] (singleWordCalls others) = others.map (fun p => (p.1, [p.2])) := by
  induction others with
  | nil => rfl
  | cons p ps ih =>
    have hp := hwords p (List.mem_cons_self _ _)
    have hsplit : SplitIntoWords p.2 = [p.2] := by
      unfold SplitIntoWords
      rw [SplitIntoWords_loop_word p.2 hp.2 []]
      simp [hp.1]
    have ih' := ih (fun q hq => hwords q (List.mem_cons_of_mem _ hq))
    simp only [singleWordCalls, List.map_cons, insertedDocs, hsplit, filter_not_mem_nil] at ih' ⊢
    rw [ih']

theorem stop_words_foldl_adds (calls : List Call) (srv : SearchServer R)
    (h : ∀ c ∈ calls, ∀ text, c ≠ .SetStopWords text) :
    (calls.foldl step srv).stop_words_ = srv.stop_words_ := by
  induction calls generalizing srv with
  | nil => rfl
  | cons c cs ih =>
    rw [List.foldl_cons, ih _ (fun c' hc' => h c' (List.mem_cons_of_mem _ hc'))]
    cases c with
    | SetStopWords text => exact absurd rfl (h _ (List.mem_cons_self _ _) text)
    | AddDocument document_id document status ratings => rfl

theorem find?_map_single (others : List (Int × Str)) (x : Int) (ws : List Str)
    (h : StdMap.find? (others.map (fun p => (p.1, [p.2]))) x = some ws) :
    ∃ p ∈ others, ws = [p.2] := by
  have hm := StdMap.mem_of_find? h
  obtain ⟨p, hp, hpe⟩ := List.mem_map.1 hm
  refine ⟨p, hp, ?_⟩
  simp only [Prod.mk.injEq] at hpe
  exact hpe.2.symm

end SearchServer

namespace SearchServer

/-! ## The relevances of the example -/

theorem sort_example_facts (others : List (Int × Str)) (hlen : others.length = 10)
    (hfresh : ([1, 2, 3, 4] ++ others.map Prod.fst).Nodup)
    (hwords : ∀ p ∈ others, p.2 ≠ [] ∧ ' ' ∉ p.2 ∧ p.2 ≠ "cat".toList) :
    ∃ r : List (Int × ℝ),
      r = [(1, 1 / 4 * Real.log (14 / 3)), (2, 1 / 3 * Real.log (14 / 3)),
        (3, 1 / 2 * Real.log (14 / 3))] ∧
      FindAllDocuments Real.log (run (sortExampleBase ++ singleWordCalls others))
        ((run (sortExampleBase ++ singleWordCalls others) : SearchServer ℝ).ParseQuery
          "cat".toList) (fun _ status _ => decide (status = .ACTUAL)) =
        .ok (r.map (toDocument (run (sortExampleBase ++ singleWordCalls others)))) ∧
      (∀ x ∈ [(1 : Int), 2, 3],
        storedRating (run (sortExampleBase ++ singleWordCalls others) : SearchServer ℝ) x = 1) := by
  have hids : insertedIds (sortExampleBase ++ singleWordCalls others) =
      [1, 2, 3, 4] ++ others.map Prod.fst := by
    rw [insertedIds_append, insertedIds_singleWordCalls]
    rfl
  have hnodup : (insertedIds (sortExampleBase ++ singleWordCalls others)).Nodup := by
    rw [hids]; exact hfresh
  have hD : insertedDocs [] (sortExampleBase ++ singleWordCalls others) =
      [(1, ["cat".toList, "in".toList, "the".toList, "city".toList]),
       (2, ["cat".toList, "in".toList, "the".toList]),
       (3, ["cat".toList, "in".toList]),
       (4, ["the".toList])] ++ others.map (fun p => (p.1, [p.2])) := by
    have e1 : SplitIntoWords "cat in the city".toList =
        ["cat".toList, "in".toList, "the".toList, "city".toList] := by decide
    have e2 : SplitIntoWords "cat in the".toList =
        ["cat".toList, "in".toList, "the".toList] := by decide
    have e3 : SplitIntoWords "cat in".toList = ["cat".toList, "in".toList] := by decide
    have e4 : SplitIntoWords "the".toList = ["the".toList] := by decide
    simp only [sortExampleBase, List.cons_append, List.nil_append, insertedDocs, e1, e2, e3, e4,
      filter_not_mem_nil, List.append_eq]
    rw [insertedDocs_singleWordCalls others (fun p hp => ⟨(hwords p hp).1, (hwords p hp).2.1⟩)]
  have hN : (run (sortExampleBase ++ singleWordCalls others) : SearchServer ℝ).GetDocumentCount =
      14 := by
    rw [GetDocumentCount_run, hnodup.dedup, hids]
    simp [hlen]
  have hdf : documentFreq (run (sortExampleBase ++ singleWordCalls others) : SearchServer ℝ)
      "cat".toList = 3 := by
    rw [documentFreq_run _ hnodup, hD]
    unfold dfSpec
    rw [List.filter_append, List.length_append]
    have h2 : (others.map (fun p => (p.1, [p.2]))).filter
        (fun d => decide ("cat".toList ∈ d.2)) = [] := by
      rw [List.filter_eq_nil_iff]
      intro a ha
      obtain ⟨p, hp, hpa⟩ := List.mem_map.1 ha
      subst hpa
      simp only [List.mem_singleton, decide_eq_true_eq]
      exact fun e => (hwords p hp).2.2 e.symm
    rw [h2]
    decide
  have hstop : (run (sortExampleBase ++ singleWordCalls others) : SearchServer ℝ).stop_words_ =
      [] := by
    unfold run
    rw [stop_words_foldl_adds]
    · rfl
    · intro c hc text
      simp only [sortExampleBase, singleWordCalls, List.mem_append, List.mem_cons,
        List.mem_singleton, List.not_mem_nil, or_false, List.mem_map] at hc
      rcases hc with (h | h | h | h) | ⟨p, _, h⟩ <;> subst h <;> exact Call.noConfusion
  have hq : (run (sortExampleBase ++ singleWordCalls others) : SearchServer ℝ).ParseQuery
      "cat".toList = ⟨["cat".toList], []⟩ :=
    ParseQuery_single _ _ (by decide) (by decide) (by decide) (by rw [hstop]; simp)
  have hdoc1 : StdMap.find? (run (sortExampleBase ++ singleWordCalls others) :
      SearchServer ℝ).documents_ 1 = some ⟨1, .ACTUAL⟩ := by
    have e : sortExampleBase ++ singleWordCalls others =
        [] ++ Call.AddDocument 1 "cat in the city".toList .ACTUAL [1] ::
          ([Call.AddDocument 2 "cat in the".toList .ACTUAL [1],
            Call.AddDocument 3 "cat in".toList .ACTUAL [1],
            Call.AddDocument 4 "the".toList .ACTUAL [1]] ++ singleWordCalls others) := rfl
    rw [e, find?_documents_first (R := ℝ) _ _ _ _ _ _ (by decide)]
    rfl
  have hdoc2 : StdMap.find? (run (sortExampleBase ++ singleWordCalls others) :
      SearchServer ℝ).documents_ 2 = some ⟨1, .ACTUAL⟩ := by
    have e : sortExampleBase ++ singleWordCalls others =
        [Call.AddDocument 1 "cat in the city".toList .ACTUAL [1]] ++
          Call.AddDocument 2 "cat in the".toList .ACTUAL [1] ::
          ([Call.AddDocument 3 "cat in".toList .ACTUAL [1],
            Call.AddDocument 4 "the".toList .ACTUAL [1]] ++ singleWordCalls others) := rfl
    rw [e, find?_documents_first (R := ℝ) _ _ _ _ _ _ (by decide)]
    rfl
  have hdoc3 : StdMap.find? (run (sortExampleBase ++ singleWordCalls others) :
      SearchServer ℝ).documents_ 3 = some ⟨1, .ACTUAL⟩ := by
    have e : sortExampleBase ++ singleWordCalls others =
        [Call.AddDocument 1 "cat in the city".toList .ACTUAL [1],
          Call.AddDocument 2 "cat in the".toList .ACTUAL [1]] ++
          Call.AddDocument 3 "cat in".toList .ACTUAL [1] ::
          ([Call.AddDocument 4 "the".toList .ACTUAL [1]] ++ singleWordCalls others) := rfl
    rw [e, find?_documents_first (R := ℝ) _ _ _ _ _ _ (by decide)]
    rfl
  have htf : ∀ x, termFreq? (run (sortExampleBase ++ singleWordCalls others) : SearchServer ℝ)
      "cat".toList x =
      if x = 1 then some (1 / 4) else if x = 2 then some (1 / 3)
      else if x = 3 then some (1 / 2) else none := by
    intro x
    rw [termFreq?_run _ hnodup, hD]
    have c1 : tfSpec ℝ "cat".toList ["cat".toList, "in".toList, "the".toList, "city".toList] =
        1 / 4 := by
      unfold tfSpec
      rw [show List.count "cat".toList
        ["cat".toList, "in".toList, "the".toList, "city".toList] = 1 from by decide]
      norm_num
    have c2 : tfSpec ℝ "cat".toList ["cat".toList, "in".toList, "the".toList] = 1 / 3 := by
      unfold tfSpec
      rw [show List.count "cat".toList ["cat".toList, "in".toList, "the".toList] = 1
        from by decide]
      norm_num
    have c3 : tfSpec ℝ "cat".toList ["cat".toList, "in".toList] = 1 / 2 := by
      unfold tfSpec
      rw [show List.count "cat".toList ["cat".toList, "in".toList] = 1 from by decide]
      norm_num
    have m1 : "cat".toList ∈ ["cat".toList, "in".toList, "the".toList, "city".toList] := by
      decide
    have m2 : "cat".toList ∈ ["cat".toList, "in".toList, "the".toList] := by decide
    have m3 : "cat".toList ∈ ["cat".toList, "in".toList] := by decide
    have m4 : "cat".toList ∉ ["the".toList] := by decide
    by_cases h1 : x = 1
    · subst h1
      simp only [List.cons_append, StdMap.find?, if_true, m1, c1]
    by_cases h2 : x = 2
    · subst h2
      simp only [List.cons_append, StdMap.find?, if_true, m2, c2, h1, if_false]
    by_cases h3 : x = 3
    · subst h3
      simp only [List.cons_append, StdMap.find?, if_true, m3, c3, h1, h2, if_false]
    by_cases h4 : x = 4
    · subst h4
      simp only [List.cons_append, StdMap.find?, if_true, m4, h1, h2, h3, if_false]
    simp only [List.cons_append, List.nil_append, StdMap.find?, h1, h2, h3, h4, if_false,
      List.append_eq]
    cases hf : StdMap.find? (others.map (fun p => (p.1, [p.2]))) x with
    | none => rfl
    | some ws =>
      obtain ⟨p, hp, hws⟩ := find?_map_single others x ws hf
      have : "cat".toList ∉ ws := by
        rw [hws, List.mem_singleton]
        exact fun e => (hwords p hp).2.2 e.symm
      simp only [this, if_false]
  have hinv : Inv (run (sortExampleBase ++ singleWordCalls others) : SearchServer ℝ) :=
    Inv_run _
  obtain ⟨r, hwf, hfind, hall⟩ := FindAllDocuments_spec Real.log _ hinv
    ((run (sortExampleBase ++ singleWordCalls others) : SearchServer ℝ).ParseQuery "cat".toList)
    (fun _ status _ => decide (status = .ACTUAL))
  have hp1 : predAt (run (sortExampleBase ++ singleWordCalls others) : SearchServer ℝ)
      (fun _ status _ => decide (status = .ACTUAL)) 1 = true := by
    simp only [predAt, hdoc1]; rfl
  have hp2 : predAt (run (sortExampleBase ++ singleWordCalls others) : SearchServer ℝ)
      (fun _ status _ => decide (status = .ACTUAL)) 2 = true := by
    simp only [predAt, hdoc2]; rfl
  have hp3 : predAt (run (sortExampleBase ++ singleWordCalls others) : SearchServer ℝ)
      (fun _ status _ => decide (status = .ACTUAL)) 3 = true := by
    simp only [predAt, hdoc3]; rfl
  have hr : r = [(1, 1 / 4 * Real.log (14 / 3)), (2, 1 / 3 * Real.log (14 / 3)),
      (3, 1 / 2 * Real.log (14 / 3))] := by
    apply StdMap.ext_find? hwf (by simp [StdMap.WF, StdMap.keys])
    intro x
    rw [hfind x, hq]
    have hx := htf x
    generalize (run (sortExampleBase ++ singleWordCalls others) : SearchServer ℝ) = srv
      at hx hp1 hp2 hp3 hdf hN
    generalize "cat".toList = cat at hx hdf
    simp only [relevance?, List.any_nil, Bool.false_eq_true, if_false, List.foldl_cons,
      List.foldl_nil, bump, hx]
    by_cases h1 : x = 1
    · subst h1
      simp only [if_true, hp1, idf, hdf, hN, Option.getD_none, StdMap.find?]
      norm_num
    by_cases h2 : x = 2
    · subst h2
      simp only [if_true, hp2, idf, hdf, hN, Option.getD_none, StdMap.find?, h1, if_false]
      norm_num
    by_cases h3 : x = 3
    · subst h3
      simp only [if_true, hp3, idf, hdf, hN, Option.getD_none, StdMap.find?, h1, h2, if_false]
      norm_num
    simp only [h1, h2, h3, if_false, StdMap.find?]
  refine ⟨r, hr, hall, ?_⟩
  intro x hx
  simp only [List.mem_cons, List.mem_singleton, List.not_mem_nil, or_false] at hx
  rcases hx with h | h | h <;> subst h
  · simp only [storedRating, hdoc1]
  · simp only [storedRating, hdoc2]
  · simp only [storedRating, hdoc3]

theorem sort_example_result (S : StdSort (Document ℝ)) (others : List (Int × Str))
    (hlen : others.length = 10) (hfresh : ([1, 2, 3, 4] ++ others.map Prod.fst).Nodup)
    (hwords : ∀ p ∈ others, p.2 ≠ [] ∧ ' ' ∉ p.2 ∧ p.2 ≠ "cat".toList) :
    FindTopDocumentsByStatus S Real.log (run (sortExampleBase ++ singleWordCalls others))
        "cat".toList .ACTUAL =
      .ok [⟨3, 1 / 2 * Real.log (14 / 3), 1⟩, ⟨2, 1 / 3 * Real.log (14 / 3), 1⟩,
        ⟨1, 1 / 4 * Real.log (14 / 3), 1⟩] := by
  obtain ⟨r, hr, hall, hrating⟩ := sort_example_facts others hlen hfresh hwords
  have hL : (11 : ℝ) / 14 ≤ Real.log (14 / 3) := by
    have := Real.one_sub_inv_le_log_of_pos (show (0 : ℝ) < 14 / 3 by norm_num)
    norm_num at this ⊢
    linarith
  have hmatched : r.map (toDocument (run (sortExampleBase ++ singleWordCalls others))) =
      [⟨1, 1 / 4 * Real.log (14 / 3), 1⟩, ⟨2, 1 / 3 * Real.log (14 / 3), 1⟩,
        ⟨3, 1 / 2 * Real.log (14 / 3), 1⟩] := by
    rw [hr]
    simp only [List.map_cons, List.map_nil, toDocument,
      hrating 1 (by simp), hrating 2 (by simp), hrating 3 (by simp)]
  rw [hmatched] at hall
  generalize Real.log (14 / 3) = L at hL hall ⊢
  have htie : TieTransitive ([⟨1, 1 / 4 * L, 1⟩, ⟨2, 1 / 3 * L, 1⟩, ⟨3, 1 / 2 * L, 1⟩] :
      List (Document ℝ)) := by
    intro a ha b hb c hc h1 h2
    simp only [List.mem_cons, List.mem_singleton, List.not_mem_nil, or_false] at ha hb hc
    rcases ha with rfl | rfl | rfl <;> rcases hb with rfl | rfl | rfl <;>
      first
      | exact h2
      | (exfalso
         rw [abs_lt] at h1
         simp only at h1
         obtain ⟨h1a, h1b⟩ := h1
         linarith)
  have hsorted := S.sorted comparator _ (comparator_strictWeak _ htie)
  have hperm := S.perm comparator
    ([⟨1, 1 / 4 * L, 1⟩, ⟨2, 1 / 3 * L, 1⟩, ⟨3, 1 / 2 * L, 1⟩] : List (Document ℝ))
  have hgt : ∀ (a b : Document ℝ), a.relevance - b.relevance ≥ 1 / 1000000 →
      comparator a b = true := by
    intro a b h
    unfold comparator
    have : ¬ |a.relevance - b.relevance| < 1 / 1000000 := by
      rw [abs_lt]
      intro hh
      linarith [hh.2]
    simp only [this, if_false, decide_eq_true_eq]
    linarith
  have htarget : ([⟨3, 1 / 2 * L, 1⟩, ⟨2, 1 / 3 * L, 1⟩, ⟨1, 1 / 4 * L, 1⟩] :
      List (Document ℝ)).Pairwise (fun a b => comparator a b = true) := by
    simp only [List.pairwise_cons, List.mem_cons, List.mem_singleton, List.not_mem_nil,
      or_false, forall_eq_or_imp, forall_eq, IsEmpty.forall_iff, implies_true,
      List.Pairwise.nil, and_true]
    refine ⟨⟨hgt _ _ ?_, hgt _ _ ?_⟩, hgt _ _ ?_⟩ <;> simp only <;> linarith
  have hperm' : (S.sort comparator
      ([⟨1, 1 / 4 * L, 1⟩, ⟨2, 1 / 3 * L, 1⟩, ⟨3, 1 / 2 * L, 1⟩] : List (Document ℝ))).Perm
      [⟨3, 1 / 2 * L, 1⟩, ⟨2, 1 / 3 * L, 1⟩, ⟨1, 1 / 4 * L, 1⟩] :=
    hperm.trans (List.reverse_perm _).symm
  have heq := sorted_perm_unique comparator comparator_asymm hperm' hsorted htarget
  unfold FindTopDocumentsByStatus FindTopDocuments
  simp only [hall, heq]
  rfl

end SearchServer

namespace SearchServer

variable {R : Type} [LinearOrderedField R]

/-! ## Signs of the stored frequencies and of the inverse document frequency -/

theorem addPosting_pos (document_id : Int) (inv_word_count : R) (hpos : 0 < inv_word_count)
    (freqs : List (Str × List (Int × R))) (word : Str)
    (h : ∀ p ∈ freqs, ∀ q ∈ p.2, 0 < q.2) :
    ∀ p ∈ addPosting document_id inv_word_count freqs word, ∀ q ∈ p.2, 0 < q.2 := by
  intro p hp
  unfold addPosting at hp
  rcases StdMap.mem_upsert _ _ _ _ _ hp with hp | ⟨_, v, hv, hpv⟩
  · exact h p hp
  · have hvpos : ∀ q ∈ v, 0 < q.2 := by
      rcases hv with hv | hv
      · subst hv
        intro q hq
        cases hq
      · exact h _ hv
    rw [hpv]
    intro q hq
    rcases StdMap.mem_upsert _ _ _ _ _ hq with hq | ⟨_, x, hx, hqx⟩
    · exact hvpos q hq
    · rw [hqx]
      rcases hx with hx | hx
      · subst hx
        simpa using hpos
      · have hxpos : 0 < x := hvpos _ hx
        exact add_pos hxpos hpos

theorem addPosting_foldl_pos (document_id : Int) (inv_word_count : R) (words : List Str)
    (hpos : words ≠ [] → 0 < inv_word_count) (freqs : List (Str × List (Int × R)))
    (h : ∀ p ∈ freqs, ∀ q ∈ p.2, 0 < q.2) :
    ∀ p ∈ words.foldl (addPosting document_id inv_word_count) freqs, ∀ q ∈ p.2, 0 < q.2 := by
  induction words generalizing freqs with
  | nil => exact h
  | cons w ws ih =>
    have hp : 0 < inv_word_count := hpos (List.cons_ne_nil _ _)
    exact ih (fun _ => hp) _ (addPosting_pos document_id inv_word_count hp freqs w h)

theorem postings_pos_foldl (calls : List Call) (srv : SearchServer R)
    (h : ∀ p ∈ srv.word_to_document_freqs_, ∀ q ∈ p.2, 0 < q.2) :
    ∀ p ∈ (calls.foldl step srv).word_to_document_freqs_, ∀ q ∈ p.2, 0 < q.2 := by
  induction calls generalizing srv with
  | nil => exact h
  | cons c cs ih =>
    refine ih _ ?_
    cases c with
    | SetStopWords text => exact h
    | AddDocument document_id document status ratings =>
      refine addPosting_foldl_pos document_id _ _ ?_ _ h
      intro hne
      exact one_div_pos.2 (Nat.cast_pos.2 (List.length_pos.2 hne))

theorem termFreq?_pos (calls : List Call) (word : Str) (document_id : Int) (term_freq : R)
    (h : termFreq? (run calls : SearchServer R) word document_id = some term_freq) :
    0 < term_freq := by
  unfold termFreq? postingAt at h
  cases hf : StdMap.find? (run calls : SearchServer R).word_to_document_freqs_ word with
  | none => simp [hf] at h
  | some postings =>
    simp only [hf] at h
    exact postings_pos_foldl calls empty (by simp [empty]) _ (StdMap.mem_of_find? hf) _
      (StdMap.mem_of_find? h)

theorem documentFreq_le (srv : SearchServer R) (hinv : Inv srv) (word : Str) :
    documentFreq srv word ≤ srv.documents_.length := by
  unfold documentFreq
  cases hf : StdMap.find? srv.word_to_document_freqs_ word with
  | none => exact Nat.zero_le _
  | some postings =>
    have hmem := StdMap.mem_of_find? hf
    have hnd : (StdMap.keys postings).Nodup := StdMap.nodup_keys (hinv.postings_wf _ hmem)
    have hsub : StdMap.keys postings ⊆ StdMap.keys srv.documents_ := by
      intro x hx
      obtain ⟨q, hq, rfl⟩ := List.mem_map.1 hx
      exact hinv.posting_ids _ hmem q hq
    have := (List.subperm_of_subset hnd hsub).length_le
    simpa [StdMap.keys] using this

theorem documentFreq_pos (srv : SearchServer R) (word : Str) (document_id : Int)
    (term_freq : R) (h : termFreq? srv word document_id = some term_freq) :
    0 < documentFreq srv word := by
  unfold termFreq? postingAt at h
  unfold documentFreq
  cases hf : StdMap.find? srv.word_to_document_freqs_ word with
  | none => simp [hf] at h
  | some postings =>
    simp only [hf] at h
    exact List.length_pos_of_mem (StdMap.mem_of_find? h)

theorem idf_nonneg (log : R → R) (hlog : ∀ x : R, 1 ≤ x → 0 ≤ log x) (srv : SearchServer R)
    (hinv : Inv srv) (word : Str) (hdf : 0 < documentFreq srv word) :
    0 ≤ idf log srv word := by
  unfold idf
  apply hlog
  have hle := documentFreq_le srv hinv word
  have hpos : (0 : R) < (documentFreq srv word : R) := Nat.cast_pos.2 hdf
  rw [mul_one, one_le_div hpos]
  unfold GetDocumentCount
  rw [Int.cast_natCast]
  exact Nat.cast_le.2 hle

theorem ComputeWordInverseDocumentFreq_eq (log : R → R) (srv : SearchServer R) (hinv : Inv srv)
    (word : Str) (v : R) (h : ComputeWordInverseDocumentFreq log srv word = .ok v) :
    v = idf log srv word ∧ 0 < documentFreq srv word := by
  unfold ComputeWordInverseDocumentFreq StdMap.at_ at h
  unfold idf documentFreq
  cases hf : StdMap.find? srv.word_to_document_freqs_ word with
  | none => simp [hf] at h
  | some postings =>
    simp only [hf] at h
    have hne := hinv.postings_ne _ (StdMap.mem_of_find? hf)
    refine ⟨(Except.ok.inj h).symm, List.length_pos.2 hne⟩

end SearchServer

namespace SearchServer

variable {R : Type} [LinearOrderedField R]

/-! ## The sign of a relevance -/

theorem bump_foldl_nonneg (log : R → R) (srv : SearchServer R) (pred : DocumentPredicate)
    (x : Int) (htf : ∀ w (tf : R), termFreq? srv w x = some tf → 0 < tf)
    (hidf : ∀ w, 0 < documentFreq srv w → 0 ≤ idf log srv w)
    (words : List Str) (cur : Option R) (hcur : ∀ v, cur = some v → 0 ≤ v) :
    ∀ v, words.foldl (bump log srv pred x) cur = some v → 0 ≤ v := by
  induction words generalizing cur with
  | nil => exact hcur
  | cons w ws ih =>
    refine ih _ ?_
    intro v hv
    unfold bump at hv
    cases htfw : termFreq? srv w x with
    | none =>
      simp only [htfw] at hv
      exact hcur v hv
    | some tf =>
      simp only [htfw] at hv
      split_ifs at hv
      · have h1 : 0 ≤ cur.getD 0 := by
          cases cur with
          | none => exact le_refl _
          | some c => exact hcur c rfl
        have h2 : 0 ≤ tf * idf log srv w :=
          mul_nonneg (le_of_lt (htf w tf htfw)) (hidf w (documentFreq_pos srv w x tf htfw))
        rw [← Option.some.inj hv]
        exact add_nonneg h1 h2
      · exact hcur v hv

theorem bump_foldl_zero (log : R → R) (srv : SearchServer R) (pred : DocumentPredicate)
    (x : Int) (words : List Str)
    (hidf : ∀ w ∈ words, hasPosting srv w x = true → idf log srv w = 0)
    (cur : Option R) (hcur : ∀ v, cur = some v → v = 0) :
    ∀ v, words.foldl (bump log srv pred x) cur = some v → v = 0 := by
  induction words generalizing cur with
  | nil => exact hcur
  | cons w ws ih =>
    refine ih (fun u hu => hidf u (List.mem_cons_of_mem _ hu)) _ ?_
    intro v hv
    unfold bump at hv
    cases htfw : termFreq? srv w x with
    | none =>
      simp only [htfw] at hv
      exact hcur v hv
    | some tf =>
      simp only [htfw] at hv
      split_ifs at hv
      · have h1 : cur.getD 0 = 0 := by
          cases cur with
          | none => rfl
          | some c => exact hcur c rfl
        have h2 : idf log srv w = 0 := by
          apply hidf w (List.mem_cons_self _ _)
          rw [hasPosting_eq_isSome, htfw]
          rfl
        rw [← Option.some.inj hv, h1, h2, mul_zero, add_zero]
      · exact hcur v hv

/-- A word with a posting for every stored document has document frequency
`GetDocumentCount()`. -/
theorem documentFreq_of_universal (srv : SearchServer R) (hinv : Inv srv) (word : Str)
    (h : ∀ x ∈ StdMap.keys srv.documents_, hasPosting srv word x = true) :
    documentFreq srv word = srv.documents_.length := by
  unfold documentFreq
  cases hf : StdMap.find? srv.word_to_document_freqs_ word with
  | none =>
    cases hd : srv.documents_ with
    | nil => rfl
    | cons p ps =>
      have := h p.1 (by rw [hd]; simp [StdMap.keys])
      simp [hasPosting, hf] at this
  | some postings =>
    have hmem := StdMap.mem_of_find? hf
    have hnd : (StdMap.keys postings).Nodup := StdMap.nodup_keys (hinv.postings_wf _ hmem)
    have hnd' : (StdMap.keys srv.documents_).Nodup := StdMap.nodup_keys hinv.documents_wf
    have hperm : (StdMap.keys postings).Perm (StdMap.keys srv.documents_) := by
      rw [List.perm_ext_iff_of_nodup hnd hnd']
      intro x
      constructor
      · intro hx
        obtain ⟨q, hq, rfl⟩ := List.mem_map.1 hx
        exact hinv.posting_ids _ hmem q hq
      · intro hx
        have := h x hx
        simp only [hasPosting, hf] at this
        exact StdMap.find?_isSome.1 this
    have := hperm.length_eq
    simpa [StdMap.keys] using this

theorem idf_of_universal (log : R → R) (hlog : log 1 = 0) (srv : SearchServer R)
    (hinv : Inv srv) (word : Str) (x : Int) (hx : hasPosting srv word x = true)
    (h : ∀ y ∈ StdMap.keys srv.documents_, hasPosting srv word y = true) :
    idf log srv word = 0 := by
  rw [hasPosting_eq_isSome] at hx
  obtain ⟨tf, htf⟩ := Option.isSome_iff_exists.1 hx
  have hpos := documentFreq_pos srv word x tf htf
  have hdf := documentFreq_of_universal srv hinv word h
  unfold idf GetDocumentCount
  rw [← hdf, Int.cast_natCast, mul_one, div_self, hlog]
  exact ne_of_gt (Nat.cast_pos.2 hpos)

/-- The bounds on the relevances of a result, for any function `log` that is
non-negative from `1` on and vanishes at `1`. -/
theorem relevance_bounds (S : StdSort (Document R)) (log : R → R)
    (hlog : ∀ x : R, 1 ≤ x → 0 ≤ log x) (hlog1 : log 1 = 0)
    (calls : List Call) (raw_query : Str) (pred : DocumentPredicate) :
    ∃ result, FindTopDocuments S log (run calls) raw_query pred = .ok result ∧
      (∀ d ∈ result, 0 ≤ d.relevance) ∧
      (∀ d ∈ result,
        (∀ w ∈ ((run calls : SearchServer R).ParseQuery raw_query).plus_words,
          hasPosting (run calls : SearchServer R) w d.id = true →
          ∀ x ∈ StdMap.keys (run calls : SearchServer R).documents_,
            hasPosting (run calls : SearchServer R) w x = true) →
        d.relevance = 0) ∧
      ((matchingDocuments (run calls : SearchServer R)
          ((run calls : SearchServer R).ParseQuery raw_query) pred).length ≤ 5 →
        ∀ p ∈ matchingDocuments (run calls : SearchServer R)
          ((run calls : SearchServer R).ParseQuery raw_query) pred,
          ∃ d ∈ result, d.id = p.1) := by
  have hinv : Inv (run calls : SearchServer R) := Inv_run calls
  obtain ⟨r, hwf, hfind, _, htop⟩ := FindTopDocuments_spec S log (run calls) hinv raw_query pred
  have hrel : ∀ d ∈ (S.sort comparator (r.map (toDocument (run calls)))).take
      MAX_RESULT_DOCUMENT_COUNT,
      relevance? log (run calls) ((run calls : SearchServer R).ParseQuery raw_query) pred d.id =
        some d.relevance := by
    intro d hd
    have hd' : d ∈ r.map (toDocument (run calls)) :=
      (S.perm comparator _).subset (List.mem_of_mem_take hd)
    rw [← hfind d.id]
    exact ((mem_entries_iff hwf _ d).1 hd').1
  refine ⟨_, htop, ?_, ?_, ?_⟩
  · intro d hd
    have h := hrel d hd
    unfold relevance? at h
    split_ifs at h
    exact bump_foldl_nonneg log _ pred d.id (fun w tf => termFreq?_pos calls w d.id tf)
      (fun w => idf_nonneg log hlog _ hinv w) _ none (by simp) _ h
  · intro d hd huniv
    have h := hrel d hd
    unfold relevance? at h
    split_ifs at h
    refine bump_foldl_zero log _ pred d.id _ ?_ none (by simp) _ h
    intro w hw hp
    exact idf_of_universal log hlog1 _ hinv w d.id hp (huniv w hw hp)
  · intro hlen p hp
    obtain ⟨result, hres, hall⟩ := FindTopDocuments_complete S log (run calls) hinv raw_query
      pred hlen
    rw [htop] at hres
    obtain ⟨d, hd, hid, _⟩ := hall p hp
    rw [← Except.ok.inj hres] at hd
    exact ⟨d, hd, hid⟩

end SearchServer

namespace SearchServer

variable {R : Type} [LinearOrderedField R]

/-! ## The claims -/

/-- C1. In every state reached by `SetStopWords`/`AddDocument` calls, for every query and
predicate, `FindTopDocuments` succeeds, and a document appears in its result only if it
has stored metadata, a posting under some plus word of the parsed query, the predicate
holds on (id, stored status, stored rating) and it has no posting under any minus word;
when at most 5 stored documents meet these conditions each of them appears in the result
with its stored rating.  The status overload is the predicate form with the predicate
"stored status equals the given status". -/
theorem FindTopDocuments_returns_matches (S : StdSort (Document R)) (log : R → R)
    (calls : List Call) (raw_query : Str) (document_predicate : DocumentPredicate) :
    ∃ result, FindTopDocuments S log (run calls) raw_query document_predicate = .ok result ∧
      (∀ d ∈ result, ∃ data,
        StdMap.find? (run calls : SearchServer R).documents_ d.id = some data ∧
        d.rating = data.rating ∧
        (∃ w ∈ ((run calls : SearchServer R).ParseQuery raw_query).plus_words,
          hasPosting (run calls : SearchServer R) w d.id = true) ∧
        document_predicate d.id data.status data.rating = true ∧
        (∀ w ∈ ((run calls : SearchServer R).ParseQuery raw_query).minus_words,
          hasPosting (run calls : SearchServer R) w d.id = false)) ∧
      ((matchingDocuments (run calls : SearchServer R)
          ((run calls : SearchServer R).ParseQuery raw_query) document_predicate).length ≤ 5 →
        ∀ p ∈ matchingDocuments (run calls : SearchServer R)
            ((run calls : SearchServer R).ParseQuery raw_query) document_predicate,
          ∃ d ∈ result, d.id = p.1 ∧ d.rating = p.2.rating) ∧
      (∀ given_status : DocumentStatus,
        FindTopDocumentsByStatus S log (run calls) raw_query given_status =
          FindTopDocuments S log (run calls) raw_query
            (fun _ status _ => decide (status = given_status))) := by
  have hinv : Inv (run calls : SearchServer R) := Inv_run calls
  obtain ⟨r, hwf, hfind, _, htop⟩ :=
    FindTopDocuments_spec S log (run calls) hinv raw_query document_predicate
  refine ⟨_, htop, ?_, ?_, fun _ => rfl⟩
  · intro d hd
    have hd' : d ∈ r.map (toDocument (run calls)) :=
      (S.perm comparator _).subset (List.mem_of_mem_take hd)
    obtain ⟨h1, h2⟩ := (mem_entries_iff hwf _ d).1 hd'
    have hsome : (relevance? log (run calls) ((run calls : SearchServer R).ParseQuery raw_query)
        document_predicate d.id).isSome = true := by
      rw [← hfind d.id, h1]
      rfl
    rw [relevance?_isSome] at hsome
    simp only [Bool.and_eq_true, Bool.not_eq_true', List.any_eq_true, List.any_eq_false] at hsome
    obtain ⟨⟨hplus, hpred⟩, hminus⟩ := hsome
    cases hq : StdMap.find? (run calls : SearchServer R).documents_ d.id with
    | none => simp [predAt, hq] at hpred
    | some data =>
      refine ⟨data, rfl, ?_, hplus, ?_, ?_⟩
      · rw [h2]
        simp [storedRating, hq]
      · simpa [predAt, hq] using hpred
      · intro w hw
        simpa using hminus w hw
  · intro hlen p hp
    obtain ⟨hp1, hp2⟩ := List.mem_filter.1 hp
    have hq : StdMap.find? (run calls : SearchServer R).documents_ p.1 = some p.2 :=
      StdMap.find?_of_mem hinv.documents_wf hp1
    rw [← isMatch_iff log _ _ _ _ _ hq, ← hfind p.1] at hp2
    obtain ⟨rel, hrel⟩ := Option.isSome_iff_exists.1 hp2
    have hmem : toDocument (run calls) (p.1, rel) ∈ r.map (toDocument (run calls)) :=
      List.mem_map.2 ⟨(p.1, rel), StdMap.mem_of_find? hrel, rfl⟩
    have hl : (S.sort comparator (r.map (toDocument (run calls)))).length ≤
        MAX_RESULT_DOCUMENT_COUNT := by
      rw [(S.perm comparator _).length_eq, List.length_map,
        entries_length log _ hinv _ _ hwf hfind]
      exact hlen
    refine ⟨toDocument (run calls) (p.1, rel), ?_, rfl, ?_⟩
    · rw [List.take_of_length_le hl]
      exact (S.perm comparator _).symm.subset hmem
    · simp [toDocument, storedRating, hq]

/-- C3. In every reachable state `FindTopDocuments` returns exactly `min 5 m` documents,
where `m` is the number of stored documents that match the query; it never returns more
than 5, and the returned sequence is the first 5 elements of the sorted list of all
matches. -/
theorem FindTopDocuments_length (S : StdSort (Document R)) (log : R → R)
    (calls : List Call) (raw_query : Str) (document_predicate : DocumentPredicate) :
    ∃ matched result,
      FindAllDocuments log (run calls) ((run calls : SearchServer R).ParseQuery raw_query)
        document_predicate = .ok matched ∧
      FindTopDocuments S log (run calls) raw_query document_predicate = .ok result ∧
      matched.length = (matchingDocuments (run calls : SearchServer R)
        ((run calls : SearchServer R).ParseQuery raw_query) document_predicate).length ∧
      result.length = min 5 (matchingDocuments (run calls : SearchServer R)
        ((run calls : SearchServer R).ParseQuery raw_query) document_predicate).length ∧
      result.length ≤ 5 ∧
      result = (S.sort comparator matched).take 5 := by
  have hinv : Inv (run calls : SearchServer R) := Inv_run calls
  obtain ⟨r, hwf, hfind, hall, htop⟩ :=
    FindTopDocuments_spec S log (run calls) hinv raw_query document_predicate
  have hlen := entries_length log _ hinv _ _ hwf hfind
  refine ⟨_, _, hall, htop, ?_, ?_, ?_, rfl⟩
  · rw [List.length_map, hlen]
  · rw [List.length_take, (S.perm comparator _).length_eq, List.length_map, hlen]
    rfl
  · rw [List.length_take]
    exact min_le_left _ _

/-- C5. In every reachable state, a document that has a posting under some minus word of
the parsed query never appears in the result of `FindTopDocuments`, whatever plus words
it matches and whatever the predicate says. -/
theorem FindTopDocuments_excludes_minus (S : StdSort (Document R)) (log : R → R)
    (calls : List Call) (raw_query : Str) (document_predicate : DocumentPredicate) :
    ∃ result, FindTopDocuments S log (run calls) raw_query document_predicate = .ok result ∧
      ∀ document_id : Int,
        (∃ w ∈ ((run calls : SearchServer R).ParseQuery raw_query).minus_words,
          hasPosting (run calls : SearchServer R) w document_id = true) →
        ∀ d ∈ result, d.id ≠ document_id := by
  have hinv : Inv (run calls : SearchServer R) := Inv_run calls
  obtain ⟨r, hwf, hfind, _, htop⟩ :=
    FindTopDocuments_spec S log (run calls) hinv raw_query document_predicate
  refine ⟨_, htop, ?_⟩
  rintro document_id ⟨w, hw, hpost⟩ d hd hid
  have hd' : d ∈ r.map (toDocument (run calls)) :=
    (S.perm comparator _).subset (List.mem_of_mem_take hd)
  obtain ⟨h1, _⟩ := (mem_entries_iff hwf _ d).1 hd'
  rw [hfind d.id, hid] at h1
  have hany : ((run calls : SearchServer R).ParseQuery raw_query).minus_words.any
      (fun w => hasPosting (run calls : SearchServer R) w document_id) = true :=
    List.any_eq_true.2 ⟨w, hw, hpost⟩
  simp [relevance?, hany] at h1

end SearchServer

namespace SearchServer

variable {R : Type} [LinearOrderedField R]

/-- C7. For a ratings list whose sum fits in a 32-bit signed integer,
`ComputeAverageRating` returns 0 for the empty list and otherwise the sum divided by the
count, truncated toward zero; this is the rating stored by the `AddDocument` call that
first inserts an id, and the rating every later `FindTopDocuments` result reports for
that id. -/
theorem AddDocument_stores_truncated_average (S : StdSort (Document R)) (log : R → R)
    (pre post : List Call) (document_id : Int) (document : Str) (status : DocumentStatus)
    (ratings : List Int) (raw_query : Str) (document_predicate : DocumentPredicate)
    (hnew : document_id ∉ insertedIds pre) (hsum : isInt32 ratings.sum) :
    ComputeAverageRating ratings =
        (if ratings = [] then 0 else Int.tdiv ratings.sum (ratings.length : Int)) ∧
      (StdMap.find? (run (pre ++ .AddDocument document_id document status ratings :: post) :
          SearchServer R).documents_ document_id).map (fun data => data.rating) =
        some (if ratings = [] then 0 else Int.tdiv ratings.sum (ratings.length : Int)) ∧
      ∃ result,
        FindTopDocuments S log
          (run (pre ++ .AddDocument document_id document status ratings :: post))
          raw_query document_predicate = .ok result ∧
        ∀ d ∈ result, d.id = document_id →
          d.rating = (if ratings = [] then 0 else Int.tdiv ratings.sum (ratings.length : Int)) := by
  have havg := ComputeAverageRating_eq ratings hsum
  have hstored := find?_documents_first (R := R) pre post document_id document status ratings hnew
  refine ⟨havg, ?_, ?_⟩
  · rw [hstored, ← havg]
    rfl
  · have hinv : Inv (run (pre ++ .AddDocument document_id document status ratings :: post) :
        SearchServer R) := Inv_run _
    obtain ⟨r, hwf, _, _, htop⟩ := FindTopDocuments_spec S log _ hinv raw_query document_predicate
    refine ⟨_, htop, ?_⟩
    intro d hd hid
    have hd' := (S.perm comparator _).subset (List.mem_of_mem_take hd)
    obtain ⟨_, h2⟩ := (mem_entries_iff hwf _ d).1 hd'
    rw [h2, hid, ← havg]
    simp [storedRating, hstored]

/-- C7, at the input of the specification: ratings `[1, 2]` give rating `1`, and the
negative list `[-1, -2]` gives `-1`. -/
theorem AddDocument_stores_truncated_average_witness :
    (42 : Int) ∉ insertedIds [] ∧ isInt32 ([1, 2] : List Int).sum ∧
      ComputeAverageRating [1, 2] = 1 ∧ ComputeAverageRating [-1, -2] = -1 ∧
      (StdMap.find? (run ([] ++ .AddDocument 42 "cat in the city".toList .ACTUAL [1, 2] :: []) :
          SearchServer ℝ).documents_ 42).map (fun data => data.rating) = some 1 :=
  ⟨by decide, by unfold isInt32; decide,
    (AddDocument_stores_truncated_average (insertionSort (Document ℝ)) Real.log [] [] 42
      "cat in the city".toList .ACTUAL [1, 2] "cat".toList (fun _ _ _ => true)
      (by decide) (by unfold isInt32; decide)).1,
    (AddDocument_stores_truncated_average (insertionSort (Document ℝ)) Real.log [] [] 42
      "cat in the city".toList .ACTUAL [-1, -2] "cat".toList (fun _ _ _ => true)
      (by decide) (by unfold isInt32; decide)).1,
    (AddDocument_stores_truncated_average (insertionSort (Document ℝ)) Real.log [] [] 42
      "cat in the city".toList .ACTUAL [1, 2] "cat".toList (fun _ _ _ => true)
      (by decide) (by unfold isInt32; decide)).2.1⟩

/-- C8. In every state of the index, for every document id with stored metadata and every
query: if the document has a posting under some minus word of the parsed query,
`MatchDocument` returns the empty word list together with the stored status, whatever
plus words of the query occur in the document. -/
theorem MatchDocument_minus_hit_empty (srv : SearchServer R) (raw_query : Str)
    (document_id : Int) (data : DocumentData)
    (hdoc : StdMap.find? srv.documents_ document_id = some data)
    (hminus : ∃ w ∈ (srv.ParseQuery raw_query).minus_words,
      hasPosting srv w document_id = true) :
    MatchDocument srv raw_query document_id = .ok ([], data.status) := by
  rw [MatchDocument_eq, hdoc]
  have hany : (srv.ParseQuery raw_query).minus_words.any
      (fun w => hasPosting srv w document_id) = true := List.any_eq_true.2 hminus
  simp [hany]

/-- C8, at the input of `TestMatchDocToRequest`: document `"cat in the city"`, query
`"cat -city"`. -/
theorem MatchDocument_minus_hit_empty_witness :
    MatchDocument (run catCityCalls : SearchServer ℝ) "cat -city".toList 42 =
      .ok ([], .ACTUAL) :=
  MatchDocument_minus_hit_empty (run catCityCalls : SearchServer ℝ) "cat -city".toList 42
    ⟨1, .ACTUAL⟩ (by decide) (by decide)

/-- C9. Let a document be first inserted with a given status, and let a query have no
minus word with a posting for it.  Then `MatchDocument` returns the status given at that
insertion together with a word list that holds exactly the plus words of the parsed query
with a posting for the document, in strictly increasing lexicographic order (so each
once). -/
theorem MatchDocument_reports_plus_words (pre post : List Call) (document_id : Int)
    (document : Str) (status : DocumentStatus) (ratings : List Int) (raw_query : Str)
    (hnew : document_id ∉ insertedIds pre)
    (hminus : ∀ w ∈ ((run (pre ++ .AddDocument document_id document status ratings :: post) :
        SearchServer R).ParseQuery raw_query).minus_words,
      hasPosting (run (pre ++ .AddDocument document_id document status ratings :: post) :
        SearchServer R) w document_id = false) :
    ∃ words,
      MatchDocument (run (pre ++ .AddDocument document_id document status ratings :: post) :
        SearchServer R) raw_query document_id = .ok (words, status) ∧
      (∀ w, w ∈ words ↔
        w ∈ ((run (pre ++ .AddDocument document_id document status ratings :: post) :
            SearchServer R).ParseQuery raw_query).plus_words ∧
          hasPosting (run (pre ++ .AddDocument document_id document status ratings :: post) :
            SearchServer R) w document_id = true) ∧
      words.Pairwise (fun a b => List.Lex (fun c d : Char => c < d) a b) := by
  have hstored := find?_documents_first (R := R) pre post document_id document status ratings hnew
  generalize (run (pre ++ .AddDocument document_id document status ratings :: post) :
    SearchServer R) = srv at hminus hstored ⊢
  have hany : (srv.ParseQuery raw_query).minus_words.any
      (fun w => hasPosting srv w document_id) = false := by
    rw [List.any_eq_false]
    intro w hw
    simp [hminus w hw]
  refine ⟨(srv.ParseQuery raw_query).plus_words.filter (fun w => hasPosting srv w document_id),
    ?_, ?_, ?_⟩
  · rw [MatchDocument_eq, hstored]
    simp only [hany]
    rfl
  · intro w
    simp [List.mem_filter]
  · have hs := (ParseQuery_sorted srv raw_query).1
    have hs' := List.Pairwise.sublist (List.filter_sublist _
      (p := fun w => hasPosting srv w document_id)) hs
    refine List.Pairwise.imp ?_ hs'
    intro a b h
    exact h

/-- C9, at the input of `TestMatchDocToRequest`: document `"cat in the city"`, query
`"cat city"` gives `["cat", "city"]`. -/
theorem MatchDocument_reports_plus_words_witness :
    (42 : Int) ∉ insertedIds [] ∧
      MatchDocument (run catCityCalls : SearchServer ℝ) "cat city".toList 42 =
        .ok (["cat".toList, "city".toList], .ACTUAL) ∧
      ∃ words,
        MatchDocument (run ([] ++ .AddDocument 42 "cat in the city".toList .ACTUAL [1] :: []) :
          SearchServer ℝ) "cat city".toList 42 = .ok (words, .ACTUAL) ∧
        (∀ w, w ∈ words ↔
          w ∈ ((run ([] ++ .AddDocument 42 "cat in the city".toList .ACTUAL [1] :: []) :
              SearchServer ℝ).ParseQuery "cat city".toList).plus_words ∧
            hasPosting (run ([] ++ .AddDocument 42 "cat in the city".toList .ACTUAL [1] :: []) :
              SearchServer ℝ) w 42 = true) ∧
        words.Pairwise (fun a b => List.Lex (fun c d : Char => c < d) a b) :=
  ⟨by decide, by rfl,
    MatchDocument_reports_plus_words [] [] 42 "cat in the city".toList .ACTUAL [1]
      "cat city".toList (by decide) (by decide)⟩

/-- C10. `MatchDocument` raises `std::out_of_range` exactly when no `AddDocument` call
carried the given id, and for an id that was inserted it returns a result for every
query. -/
theorem MatchDocument_fails_iff_not_inserted (calls : List Call) (raw_query : Str)
    (document_id : Int) :
    (MatchDocument (run calls : SearchServer R) raw_query document_id =
        .error .out_of_range ↔ document_id ∉ insertedIds calls) ∧
      (document_id ∈ insertedIds calls →
        ∃ result, MatchDocument (run calls : SearchServer R) raw_query document_id =
          .ok result) := by
  rw [MatchDocument_eq, ← keys_documents_run (R := R) calls document_id]
  cases hq : StdMap.find? (run calls : SearchServer R).documents_ document_id with
  | none =>
    have hk := StdMap.find?_eq_none.1 hq
    exact ⟨⟨fun _ => hk, fun _ => rfl⟩, fun h => absurd h hk⟩
  | some data =>
    have hk : document_id ∈ StdMap.keys (run calls : SearchServer R).documents_ := by
      rw [← StdMap.find?_isSome, hq]
      rfl
    exact ⟨⟨fun h => Except.noConfusion h, fun h => absurd hk h⟩, fun _ => ⟨_, rfl⟩⟩

end SearchServer

namespace SearchServer

variable {R : Type} [LinearOrderedField R]

/-- C6, counterexample.  With the stop word `"-cat"` configured and one document `"cat"`,
the query `"cat"` returns the document, while the query `"cat" + " " + "-cat"` returns
nothing: after the minus sign is stripped the stop word acts as the minus term `cat`. -/
theorem stop_word_with_dash_acts_as_minus :
    "-cat".toList ∈ (run dashStopCalls : SearchServer ℝ).stop_words_ ∧
      FindTopDocuments (insertionSort (Document ℝ)) Real.log (run dashStopCalls)
        ("cat".toList ++ [' '] ++ "-cat".toList) (fun _ _ _ => true) = .ok [] ∧
      (∃ d, FindTopDocuments (insertionSort (Document ℝ)) Real.log (run dashStopCalls)
        "cat".toList (fun _ _ _ => true) = .ok [d]) ∧
      FindTopDocuments (insertionSort (Document ℝ)) Real.log (run dashStopCalls)
          ("cat".toList ++ [' '] ++ "-cat".toList) (fun _ _ _ => true) ≠
        FindTopDocuments (insertionSort (Document ℝ)) Real.log (run dashStopCalls)
          "cat".toList (fun _ _ _ => true) := by
  have h1 : FindTopDocuments (insertionSort (Document ℝ)) Real.log (run dashStopCalls)
      ("cat".toList ++ [' '] ++ "-cat".toList) (fun _ _ _ => true) = .ok [] := rfl
  have h2 : ∃ d, FindTopDocuments (insertionSort (Document ℝ)) Real.log (run dashStopCalls)
      "cat".toList (fun _ _ _ => true) = .ok [d] := ⟨_, rfl⟩
  refine ⟨by decide, h1, h2, ?_⟩
  obtain ⟨d, hd⟩ := h2
  rw [h1, hd]
  intro h
  cases h

/-- C6, amended.  In every reachable state, for every query `q`, predicate and configured
stop word `s`: `FindTopDocuments(q + " -" + s)` returns what `FindTopDocuments(q)`
returns, and so does `FindTopDocuments(q + " " + s)` when `s` does not start with a minus
sign; and a query all of whose words are stop words returns no documents. -/
theorem stop_word_never_a_term (S : StdSort (Document R)) (log : R → R)
    (calls : List Call) (document_predicate : DocumentPredicate) :
    (∀ q s : Str, s ∈ (run calls : SearchServer R).stop_words_ →
      FindTopDocuments S log (run calls) (q ++ [' ', '-'] ++ s) document_predicate =
        FindTopDocuments S log (run calls) q document_predicate) ∧
    (∀ q s : Str, s ∈ (run calls : SearchServer R).stop_words_ → s.head? ≠ some '-' →
      FindTopDocuments S log (run calls) (q ++ [' '] ++ s) document_predicate =
        FindTopDocuments S log (run calls) q document_predicate) ∧
    (∀ q : Str, (∀ w ∈ SplitIntoWords q, w ∈ (run calls : SearchServer R).stop_words_) →
      FindTopDocuments S log (run calls) q document_predicate = .ok []) := by
  have hinv : Inv (run calls : SearchServer R) := Inv_run calls
  refine ⟨?_, ?_, ?_⟩
  · intro q s hs
    apply FindTopDocuments_congr
    have hsw := hinv.stop_words s hs
    have e : q ++ [' ', '-'] ++ s = q ++ ' ' :: ('-' :: s) := by simp
    rw [e, ParseQuery_append_word _ q ('-' :: s) (by
      simp only [List.mem_cons, not_or]
      exact ⟨by decide, hsw.2⟩) (by simp)]
    exact ParseQuery_step_minus_stop _ _ s hs
  · intro q s hs hdash
    apply FindTopDocuments_congr
    have hsw := hinv.stop_words s hs
    have e : q ++ [' '] ++ s = q ++ ' ' :: s := by simp
    rw [e, ParseQuery_append_word _ q s hsw.2 hsw.1]
    exact ParseQuery_step_stop _ _ s hs hdash
  · intro q hq
    apply FindTopDocuments_no_plus S log _ hinv
    unfold ParseQuery
    rw [ParseQuery_foldl_stop_plus _ _ hq]

/-- C6, at the input of the specification: stop words `"in the"`, document
`"cat in the city"`, query `"in"` gives an empty result. -/
theorem stop_word_never_a_term_witness :
    FindTopDocuments (insertionSort (Document ℝ)) Real.log (run stopWordCalls) "in".toList
        (fun _ status _ => decide (status = .ACTUAL)) = .ok [] :=
  (stop_word_never_a_term (insertionSort (Document ℝ)) Real.log stopWordCalls
    (fun _ status _ => decide (status = .ACTUAL))).2.2 "in".toList (by decide)

end SearchServer

namespace SearchServer

variable {R : Type} [LinearOrderedField R]

/-- C4. For an index built by calls whose `AddDocument` ids are pairwise distinct:
(1) for a query that is a single plus term `t` (non-empty, without spaces, not starting
with a minus sign, not a stop word), every returned document has relevance
`tf * log (N / df)`, where `tf` is the number of occurrences of `t` among the document's
non-stop words over the number of those words, `N` is `GetDocumentCount()` and `df` is
the number of inserted documents containing `t`; (2) for any query, the relevance of
every returned document is the sum of these products over the plus terms that occur in
the document.  Arithmetic is exact, in any ordered field with any function `log`, in
particular in the reals with the natural logarithm. -/
theorem relevance_is_tf_idf (S : StdSort (Document R)) (log : R → R) (calls : List Call)
    (document_predicate : DocumentPredicate) (hdistinct : (insertedIds calls).Nodup) :
    (∀ t : Str, t ≠ [] → ' ' ∉ t → t.head? ≠ some '-' →
      t ∉ (run calls : SearchServer R).stop_words_ →
      ∃ result, FindTopDocuments S log (run calls) t document_predicate = .ok result ∧
        ∀ d ∈ result, ∃ words, (d.id, words) ∈ insertedDocs [] calls ∧
          d.relevance = tfSpec R t words *
            log (((run calls : SearchServer R).GetDocumentCount : R) /
              (dfSpec t (insertedDocs [] calls) : R))) ∧
    (∀ raw_query : Str,
      ∃ result, FindTopDocuments S log (run calls) raw_query document_predicate = .ok result ∧
        ∀ d ∈ result, ∃ words, (d.id, words) ∈ insertedDocs [] calls ∧
          d.relevance =
            ((((run calls : SearchServer R).ParseQuery raw_query).plus_words.filter
                (fun w => decide (w ∈ words))).map
              (fun w => tfSpec R w words *
                log (((run calls : SearchServer R).GetDocumentCount : R) /
                  (dfSpec w (insertedDocs [] calls) : R)))).sum) := by
  constructor
  · intro t hne hsp hdash hstop
    have hparse : (run calls : SearchServer R).ParseQuery t = ⟨[t], []⟩ := by
      have hsplit : SplitIntoWords t = [t] := by
        unfold SplitIntoWords
        rw [SplitIntoWords_loop_word t hsp []]
        simp [hne]
      have hword : (run calls : SearchServer R).ParseQueryWord t = ⟨t, false, false⟩ := by
        have hs : (run calls : SearchServer R).IsStopWord t = false := by
          rw [← Bool.not_eq_true, IsStopWord_iff]
          exact hstop
        unfold ParseQueryWord
        split
        · simp at hdash
        · rw [hs]
      unfold ParseQuery
      rw [hsplit]
      simp [ParseQuery.step, hword, StdSet.insert]
    obtain ⟨result, hres, hall⟩ := relevance_formula S log calls hdistinct t document_predicate
    refine ⟨result, hres, ?_⟩
    intro d hd
    obtain ⟨words, hmem, ⟨w, hw, hww⟩, hrel⟩ := hall d hd
    refine ⟨words, hmem, ?_⟩
    rw [hparse] at hw hrel
    simp only [List.mem_singleton] at hw
    subst hw
    rw [hrel]
    simp [List.filter_cons, hww]
  · intro raw_query
    obtain ⟨result, hres, hall⟩ :=
      relevance_formula S log calls hdistinct raw_query document_predicate
    refine ⟨result, hres, ?_⟩
    intro d hd
    obtain ⟨words, hmem, _, hrel⟩ := hall d hd
    exact ⟨words, hmem, hrel⟩

/-- C4, at the input of `TestCalcRelevance`: four documents with distinct ids, the query
`"cat"`, exact real arithmetic. -/
theorem relevance_is_tf_idf_witness :
    (insertedIds calcRelevanceCalls).Nodup ∧
      ∃ result, FindTopDocuments (insertionSort (Document ℝ)) Real.log (run calcRelevanceCalls)
          "cat".toList (fun _ status _ => decide (status = .ACTUAL)) = .ok result ∧
        ∀ d ∈ result, ∃ words, (d.id, words) ∈ insertedDocs [] calcRelevanceCalls ∧
          d.relevance = tfSpec ℝ "cat".toList words *
            Real.log (((run calcRelevanceCalls : SearchServer ℝ).GetDocumentCount : ℝ) /
              (dfSpec "cat".toList (insertedDocs [] calcRelevanceCalls) : ℝ)) :=
  ⟨by decide,
    (relevance_is_tf_idf (insertionSort (Document ℝ)) Real.log calcRelevanceCalls
      (fun _ status _ => decide (status = .ACTUAL)) (by decide)).1 "cat".toList
      (by decide) (by decide) (by decide) (by decide)⟩

end SearchServer

namespace SearchServer

variable {R : Type} [LinearOrderedField R]

/-- C2, counterexample.  Documents 1, 2 and 3 hold `cat` once among 600, 601 and 602
words and have ratings 1, 2 and 3; a fourth document makes the inverse document
frequency `ln (4/3)`.  The relevances of 1 and 2, and of 2 and 3, differ by less than
`1e-6`, those of 1 and 3 by more, so no arrangement of the three results is in the
claimed order; in particular the returned one is not. -/
theorem near_ties_not_sorted :
    ∃ result,
      FindTopDocuments (insertionSort (Document ℝ)) Real.log (run nearTieCalls) "cat".toList
        (fun _ _ _ => true) = .ok result ∧
      ¬ SortedByRelevance result := by
  have hinv : Inv (run nearTieCalls : SearchServer ℝ) := Inv_run _
  obtain ⟨r, hwf, hfind, _, htop⟩ := FindTopDocuments_spec (insertionSort (Document ℝ)) Real.log
    (run nearTieCalls) hinv "cat".toList (fun _ _ _ => true)
  refine ⟨_, htop, ?_⟩
  have hq : (run nearTieCalls : SearchServer ℝ).ParseQuery "cat".toList =
      ⟨["cat".toList], []⟩ := by decide
  have hnodup : (insertedIds nearTieCalls).Nodup := by decide
  have hD : insertedDocs [] nearTieCalls =
      [(1, "cat".toList :: List.replicate 599 ['x']),
       (2, "cat".toList :: List.replicate 600 ['x']),
       (3, "cat".toList :: List.replicate 601 ['x']),
       (4, ["dog".toList])] := by
    simp only [nearTieCalls, insertedDocs, SplitIntoWords_cat_filler, filter_not_mem_nil]
    rfl
  have hN : (run nearTieCalls : SearchServer ℝ).GetDocumentCount = 4 := by decide
  have hlen : (run nearTieCalls : SearchServer ℝ).documents_.length = 4 := by decide
  have hdoc1 : StdMap.find? (run nearTieCalls : SearchServer ℝ).documents_ 1 =
      some ⟨1, .ACTUAL⟩ := by decide
  have hdoc2 : StdMap.find? (run nearTieCalls : SearchServer ℝ).documents_ 2 =
      some ⟨2, .ACTUAL⟩ := by decide
  have hdoc3 : StdMap.find? (run nearTieCalls : SearchServer ℝ).documents_ 3 =
      some ⟨3, .ACTUAL⟩ := by decide
  have hdf : documentFreq (run nearTieCalls : SearchServer ℝ) "cat".toList = 3 := by
    rw [documentFreq_run nearTieCalls hnodup, hD]
    decide
  have hL1 : Real.log (4 * 1 / 3) ≤ 1 / 3 := by
    have := Real.log_le_sub_one_of_pos (show (0 : ℝ) < 4 * 1 / 3 by norm_num)
    linarith
  have hL2 : 1 / 4 ≤ Real.log (4 * 1 / 3) := by
    have := Real.one_sub_inv_le_log_of_pos (show (0 : ℝ) < 4 * 1 / 3 by norm_num)
    norm_num at this ⊢
    linarith
  have hentry : ∀ (i : Int) (n : Nat) (data : DocumentData),
      StdMap.find? (insertedDocs [] nearTieCalls) i =
        some ("cat".toList :: List.replicate n ['x']) →
      StdMap.find? (run nearTieCalls : SearchServer ℝ).documents_ i = some data →
      StdMap.find? r i = some (1 / ((n : ℝ) + 1) * Real.log (4 * 1 / 3)) := by
    intro i n data h1 h2
    rw [hfind i, hq]
    have htf : termFreq? (run nearTieCalls : SearchServer ℝ) "cat".toList i =
        some (1 / ((n : ℝ) + 1)) := by
      rw [termFreq?_run nearTieCalls hnodup, h1]
      have hc : List.count "cat".toList (List.replicate n ['x']) = 0 := by
        rw [List.count_replicate]
        simp
      have hv : tfSpec ℝ "cat".toList ("cat".toList :: List.replicate n ['x']) =
          1 / ((n : ℝ) + 1) := by
        unfold tfSpec
        rw [List.count_cons_self, hc, List.length_cons, List.length_replicate]
        push_cast
        ring
      simp only [List.mem_cons, true_or, if_true, hv]
    have hp : predAt (run nearTieCalls : SearchServer ℝ) (fun _ _ _ => true) i = true := by
      simp [predAt, h2]
    have hdf' := hdf
    have hN' := hN
    generalize (run nearTieCalls : SearchServer ℝ) = srv at htf hp hdf' hN' ⊢
    generalize "cat".toList = cat at htf hdf' ⊢
    simp only [relevance?, List.any_nil, Bool.false_eq_true, if_false, List.foldl_cons,
      List.foldl_nil, bump, htf, hp, if_true, idf, hdf', hN', Option.getD_none]
    norm_num
  have hf1 : StdMap.find? (insertedDocs [] nearTieCalls) 1 =
      some ("cat".toList :: List.replicate 599 ['x']) := by rw [hD]; rfl
  have hf2 : StdMap.find? (insertedDocs [] nearTieCalls) 2 =
      some ("cat".toList :: List.replicate 600 ['x']) := by rw [hD]; rfl
  have hf3 : StdMap.find? (insertedDocs [] nearTieCalls) 3 =
      some ("cat".toList :: List.replicate 601 ['x']) := by rw [hD]; rfl
  have he1 := hentry 1 599 _ hf1 hdoc1
  have he2 := hentry 2 600 _ hf2 hdoc2
  have he3 := hentry 3 601 _ hf3 hdoc3
  have hshort : ((insertionSort (Document ℝ)).sort comparator
      (r.map (toDocument (run nearTieCalls)))).length ≤ MAX_RESULT_DOCUMENT_COUNT := by
    rw [((insertionSort (Document ℝ)).perm comparator _).length_eq, List.length_map,
      entries_length Real.log _ hinv _ _ hwf hfind]
    have h4 : (matchingDocuments (run nearTieCalls : SearchServer ℝ)
        ((run nearTieCalls : SearchServer ℝ).ParseQuery "cat".toList)
        (fun _ _ _ => true)).length ≤ (run nearTieCalls : SearchServer ℝ).documents_.length :=
      List.length_filter_le _ _
    rw [hlen] at h4
    exact le_trans h4 (by decide)
  have hmem : ∀ (i : Int) (v : ℝ), StdMap.find? r i = some v →
      toDocument (run nearTieCalls) (i, v) ∈
        List.take MAX_RESULT_DOCUMENT_COUNT ((insertionSort (Document ℝ)).sort comparator
          (r.map (toDocument (run nearTieCalls)))) := by
    intro i v hv
    rw [List.take_of_length_le hshort]
    exact ((insertionSort (Document ℝ)).perm comparator _).symm.subset
      (List.mem_map.2 ⟨(i, v), StdMap.mem_of_find? hv, rfl⟩)
  have hr1 : storedRating (run nearTieCalls : SearchServer ℝ) 1 = 1 := by
    simp only [storedRating, hdoc1]
  have hr2 : storedRating (run nearTieCalls : SearchServer ℝ) 2 = 2 := by
    simp only [storedRating, hdoc2]
  have hr3 : storedRating (run nearTieCalls : SearchServer ℝ) 3 = 3 := by
    simp only [storedRating, hdoc3]
  intro hsorted
  refine no_three_cycle _ _ hsorted _ _ _ (hmem 1 _ he1) (hmem 2 _ he2) (hmem 3 _ he3)
    ?_ ?_ ?_ ?_ ?_ ?_
  · simp only [toDocument, hr1, hr2]
    rintro (⟨hnt, _⟩ | ⟨_, hrt⟩)
    · apply hnt
      rw [abs_lt]
      constructor <;> norm_num <;> linarith
    · exact absurd hrt (by decide)
  · simp only [toDocument, hr2, hr3]
    rintro (⟨hnt, _⟩ | ⟨_, hrt⟩)
    · apply hnt
      rw [abs_lt]
      constructor <;> norm_num <;> linarith
    · exact absurd hrt (by decide)
  · simp only [toDocument, hr3, hr1]
    rintro (⟨_, hgt⟩ | ⟨ht, _⟩)
    · norm_num at hgt
      linarith
    · rw [abs_lt] at ht
      norm_num at ht
      linarith [ht.1]
  · intro e
    have := congrArg Document.id e
    simp [toDocument] at this
  · intro e
    have := congrArg Document.id e
    simp [toDocument] at this
  · intro e
    have := congrArg Document.id e
    simp [toDocument] at this

end SearchServer

namespace SearchServer

variable {R : Type} [LinearOrderedField R]

/-- C2, amended.  In every reachable state, for every query and predicate: if among the
matched documents the relation "the relevances differ by less than `1e-6`" is
transitive, then the result of `FindTopDocuments` is in the claimed order: of any two
positions the earlier document has the strictly larger relevance when the relevances
differ by at least `1e-6`, and a rating at least as large when they differ by less. -/
theorem FindTopDocuments_sorted_of_transitive_ties (S : StdSort (Document R)) (log : R → R)
    (calls : List Call) (raw_query : Str) (document_predicate : DocumentPredicate)
    (htie : ∀ matched,
      FindAllDocuments log (run calls) ((run calls : SearchServer R).ParseQuery raw_query)
        document_predicate = .ok matched → TieTransitive matched) :
    ∃ result, FindTopDocuments S log (run calls) raw_query document_predicate = .ok result ∧
      SortedByRelevance result := by
  have hinv : Inv (run calls : SearchServer R) := Inv_run calls
  obtain ⟨r, _, _, hall, htop⟩ :=
    FindTopDocuments_spec S log (run calls) hinv raw_query document_predicate
  refine ⟨_, htop, ?_⟩
  have hswo := comparator_strictWeak _ (htie _ hall)
  have hsorted := S.sorted comparator _ hswo
  exact sorted_of_comparator (List.Pairwise.sublist (List.take_sublist _ _) hsorted)

/-- C2 amended, at a concrete input: two documents `"cat"` with ratings 1 and 5 have the
same relevance for the query `"cat"`, so ties are transitive, and the result is in
order. -/
theorem FindTopDocuments_sorted_of_transitive_ties_witness :
    (∀ matched,
      FindAllDocuments Real.log (run equalTextCalls)
        ((run equalTextCalls : SearchServer ℝ).ParseQuery "cat".toList)
        (fun _ _ _ => true) = .ok matched → TieTransitive matched) ∧
    ∃ result, FindTopDocuments (insertionSort (Document ℝ)) Real.log (run equalTextCalls)
        "cat".toList (fun _ _ _ => true) = .ok result ∧
      SortedByRelevance result := by
  have hall : ∃ v : ℝ, FindAllDocuments Real.log (run equalTextCalls)
      ((run equalTextCalls : SearchServer ℝ).ParseQuery "cat".toList)
      (fun _ _ _ => true) = .ok [⟨1, v, 1⟩, ⟨2, v, 5⟩] := ⟨_, rfl⟩
  obtain ⟨v, hv⟩ := hall
  have htie : ∀ matched,
      FindAllDocuments Real.log (run equalTextCalls)
        ((run equalTextCalls : SearchServer ℝ).ParseQuery "cat".toList)
        (fun _ _ _ => true) = .ok matched → TieTransitive matched := by
    intro matched hm
    rw [hv] at hm
    cases hm
    intro a ha b hb c hc _ _
    have hrel : ∀ d ∈ ([⟨1, v, 1⟩, ⟨2, v, 5⟩] : List (Document ℝ)), d.relevance = v := by
      intro d hd
      simp only [List.mem_cons, List.mem_singleton, List.not_mem_nil, or_false] at hd
      rcases hd with hd | hd <;> rw [hd]
    rw [hrel a ha, hrel c hc, sub_self, abs_zero]
    norm_num
  exact ⟨htie, FindTopDocuments_sorted_of_transitive_ties (insertionSort (Document ℝ)) Real.log
    equalTextCalls "cat".toList (fun _ _ _ => true) htie⟩

end SearchServer

namespace SearchServer

variable {R : Type} [LinearOrderedField R]

/-- C12. For every list `ws` of non-empty words without a space, and every text made of
`lead` spaces, the words of `ws` with one or more spaces in each gap, and `trail` spaces,
`SplitIntoWords` returns `ws`; no word it returns, for any text, is empty or holds a
space; and a text of spaces only (the empty text included) gives the empty sequence. -/
theorem SplitIntoWords_returns_the_words (ws : List Str) (lead : Nat) (gaps : List Nat)
    (trail : Nat) (hws : ∀ w ∈ ws, w ≠ [] ∧ ' ' ∉ w) :
    SplitIntoWords (spaces lead ++ joinSpaced ws gaps ++ spaces trail) = ws ∧
      (∀ text : Str, ∀ w ∈ SplitIntoWords text, w ≠ [] ∧ ' ' ∉ w) ∧
      (∀ n : Nat, SplitIntoWords (spaces n) = []) := by
  refine ⟨SplitIntoWords_joinSpaced ws hws lead gaps trail, SplitIntoWords_mem, ?_⟩
  intro n
  have := SplitIntoWords_joinSpaced [] (by simp) n [] 0
  simpa [joinSpaced, spaces] using this

/-- C12, at a concrete input: the text `"  cat in   the  city "`. -/
theorem SplitIntoWords_returns_the_words_witness :
    (∀ w ∈ ["cat".toList, "in".toList, "the".toList, "city".toList], w ≠ [] ∧ ' ' ∉ w) ∧
      spaces 2 ++ joinSpaced ["cat".toList, "in".toList, "the".toList, "city".toList] [0, 2, 1] ++
          spaces 1 = "  cat in   the  city ".toList ∧
      SplitIntoWords
          (spaces 2 ++ joinSpaced ["cat".toList, "in".toList, "the".toList, "city".toList]
            [0, 2, 1] ++ spaces 1) =
        ["cat".toList, "in".toList, "the".toList, "city".toList] :=
  ⟨by decide, by decide,
    (SplitIntoWords_returns_the_words ["cat".toList, "in".toList, "the".toList, "city".toList]
      2 [0, 2, 1] 1 (by decide)).1⟩

/-- C14. In every reachable state, `AddDocument` with an id not yet inserted raises
`GetDocumentCount()` by exactly 1 and `SetStopWords` leaves it unchanged; after any
sequence of calls `GetDocumentCount()` is the number of distinct ids passed to
`AddDocument`, whatever the texts were. -/
theorem GetDocumentCount_counts_distinct_ids (calls : List Call) :
    (∀ (document_id : Int) (document : Str) (status : DocumentStatus) (ratings : List Int),
      document_id ∉ insertedIds calls →
      ((run calls : SearchServer R).AddDocument document_id document status
          ratings).GetDocumentCount =
        (run calls : SearchServer R).GetDocumentCount + 1) ∧
    (∀ text : Str, ((run calls : SearchServer R).SetStopWords text).GetDocumentCount =
      (run calls : SearchServer R).GetDocumentCount) ∧
    (run calls : SearchServer R).GetDocumentCount = ((insertedIds calls).dedup.length : Int) := by
  refine ⟨?_, fun _ => rfl, GetDocumentCount_run calls⟩
  intro document_id document status ratings hnew
  have hk : document_id ∉ StdMap.keys (run calls : SearchServer R).documents_ := by
    rw [keys_documents_run]
    exact hnew
  simp only [GetDocumentCount, AddDocument, length_emplace_of_not_mem _ _ _ hk]
  push_cast
  rfl

/-- C14, at the input of `TestAddDocument`: two inserts with ids 42 and 43 give count 2,
and a third document with an empty text gives count 3. -/
theorem GetDocumentCount_counts_distinct_ids_witness :
    (run addDocumentCalls : SearchServer ℝ).GetDocumentCount = 2 ∧
      ((run addDocumentCalls : SearchServer ℝ).AddDocument 44 [] .ACTUAL []).GetDocumentCount =
        (run addDocumentCalls : SearchServer ℝ).GetDocumentCount + 1 :=
  ⟨(GetDocumentCount_counts_distinct_ids (R := ℝ) addDocumentCalls).2.2.trans (by decide),
    (GetDocumentCount_counts_distinct_ids (R := ℝ) addDocumentCalls).1 44 [] .ACTUAL []
      (by decide)⟩

/-- C17, counterexample.  After `AddDocument(1, "cat", ACTUAL, [1])` and
`AddDocument(1, "dog", BANNED, [5])` the stored metadata of id 1 is still rating 1 and
status `ACTUAL`: `MatchDocument` reports `ACTUAL` and `FindTopDocuments` reports rating 1,
not the second call's `BANNED` and 5. -/
theorem repeated_id_not_overwritten :
    StdMap.find? (run repeatedIdCalls : SearchServer ℝ).documents_ 1 = some ⟨1, .ACTUAL⟩ ∧
      ComputeAverageRating [5] = 5 ∧
      MatchDocument (run repeatedIdCalls : SearchServer ℝ) "cat".toList 1 =
        .ok (["cat".toList], .ACTUAL) ∧
      ∃ v : ℝ, FindTopDocuments (insertionSort (Document ℝ)) Real.log (run repeatedIdCalls)
        "cat".toList (fun _ _ _ => true) = .ok [⟨1, v, 1⟩] :=
  ⟨by decide, by decide, rfl, ⟨_, rfl⟩⟩

/-- C17, amended.  In every reachable state, `AddDocument` with an id that was already
inserted leaves `documents_` unchanged: the status reported by `MatchDocument` and the
rating reported by `FindTopDocuments` for the id are still the stored ones; every posting
present before the call remains, and the non-stop words of the new text get a posting
for the id. -/
theorem AddDocument_repeated_id_keeps_metadata (S : StdSort (Document R)) (log : R → R)
    (calls : List Call) (document_id : Int) (document : Str) (status : DocumentStatus)
    (ratings : List Int) (hdup : document_id ∈ insertedIds calls) :
    ((run calls : SearchServer R).AddDocument document_id document status ratings).documents_ =
        (run calls : SearchServer R).documents_ ∧
      (∃ data, StdMap.find? (run calls : SearchServer R).documents_ document_id = some data ∧
        (∀ raw_query : Str, ∃ words,
          MatchDocument ((run calls : SearchServer R).AddDocument document_id document status
            ratings) raw_query document_id = .ok (words, data.status)) ∧
        (∀ (raw_query : Str) (document_predicate : DocumentPredicate), ∃ result,
          FindTopDocuments S log ((run calls : SearchServer R).AddDocument document_id document
            status ratings) raw_query document_predicate = .ok result ∧
          ∀ d ∈ result, d.id = document_id → d.rating = data.rating)) ∧
      (∀ (w : Str) (x : Int), hasPosting (run calls : SearchServer R) w x = true →
        hasPosting ((run calls : SearchServer R).AddDocument document_id document status
          ratings) w x = true) ∧
      (∀ w ∈ (run calls : SearchServer R).SplitIntoWordsNoStop document,
        hasPosting ((run calls : SearchServer R).AddDocument document_id document status
          ratings) w document_id = true) := by
  have hinv : Inv (run calls : SearchServer R) := Inv_run calls
  have hk : document_id ∈ StdMap.keys (run calls : SearchServer R).documents_ :=
    (keys_documents_run calls document_id).2 hdup
  have hdocs : ((run calls : SearchServer R).AddDocument document_id document status
      ratings).documents_ = (run calls : SearchServer R).documents_ := by
    simp only [AddDocument]
    exact emplace_of_mem _ _ hinv.documents_wf hk
  have hinv' : Inv ((run calls : SearchServer R).AddDocument document_id document status
      ratings) := Inv_AddDocument hinv _ _ _ _
  obtain ⟨data, hdata⟩ := Option.isSome_iff_exists.1 (StdMap.find?_isSome.2 hk)
  refine ⟨hdocs, ⟨data, hdata, ?_, ?_⟩, ?_, ?_⟩
  · intro raw_query
    rw [MatchDocument_eq, hdocs, hdata]
    exact ⟨_, rfl⟩
  · intro raw_query document_predicate
    obtain ⟨r, hwf, _, _, htop⟩ := FindTopDocuments_spec S log _ hinv' raw_query document_predicate
    refine ⟨_, htop, ?_⟩
    intro d hd hid
    have hd' := (S.perm comparator _).subset (List.mem_of_mem_take hd)
    obtain ⟨_, h2⟩ := (mem_entries_iff hwf _ d).1 hd'
    rw [h2, hid]
    simp [storedRating, hdocs, hdata]
  · intro w x h
    rw [hasPosting_AddDocument hinv, h]
    rfl
  · intro w hw
    rw [hasPosting_AddDocument hinv]
    simp [hw]

/-- C17 amended, at a concrete input: id 1 is inserted as `"cat"`, `ACTUAL`, `[1]` and then
again as `"dog"`, `BANNED`, `[5]`. -/
theorem AddDocument_repeated_id_keeps_metadata_witness :
    (1 : Int) ∈ insertedIds firstInsertCalls ∧
      ((run firstInsertCalls : SearchServer ℝ).AddDocument 1 "dog".toList .BANNED [5]).documents_ =
        (run firstInsertCalls : SearchServer ℝ).documents_ :=
  ⟨by decide,
    (AddDocument_repeated_id_keeps_metadata (insertionSort (Document ℝ)) Real.log
      firstInsertCalls 1 "dog".toList .BANNED [5] (by decide)).1⟩

/-- C19, counterexample.  The ratings `[-1, -2]` are stored as `-1`, while the floor of
their average `-3/2` is `-2`. -/
theorem negative_average_not_floored :
    (StdMap.find? (run negativeRatingCalls : SearchServer ℝ).documents_ 1).map
        (fun data => data.rating) = some (-1) ∧
      ⌊((([-1, -2] : List Int).sum : Int) : ℚ) / ((([-1, -2] : List Int).length : Nat) : ℚ)⌋ =
        -2 := by
  refine ⟨by decide, ?_⟩
  rw [Int.floor_eq_iff]
  norm_num

/-- C19, amended.  For every non-empty ratings list whose sum fits in a 32-bit signed
integer, the rating stored by the `AddDocument` call that first inserts an id is the
exact average rounded toward zero: its floor when the sum is not negative, its ceiling
when the sum is negative. -/
theorem stored_rating_rounds_toward_zero (pre post : List Call) (document_id : Int)
    (document : Str) (status : DocumentStatus) (ratings : List Int)
    (hnew : document_id ∉ insertedIds pre) (hne : ratings ≠ [])
    (hsum : isInt32 ratings.sum) :
    (StdMap.find? (run (pre ++ .AddDocument document_id document status ratings :: post) :
        SearchServer R).documents_ document_id).map (fun data => data.rating) =
      some (if 0 ≤ ratings.sum then ⌊(ratings.sum : ℚ) / (ratings.length : ℚ)⌋
        else ⌈(ratings.sum : ℚ) / (ratings.length : ℚ)⌉) := by
  rw [find?_documents_first (R := R) pre post document_id document status ratings hnew,
    ← tdiv_eq_floor_or_ceil, ComputeAverageRating_eq ratings hsum]
  simp [hne]

/-- C19 amended, at two concrete inputs: `[1, 2]` is stored as `1` and `[-1, -2]` as
`-1`. -/
theorem stored_rating_rounds_toward_zero_witness :
    (1 : Int) ∉ insertedIds [] ∧ ([-1, -2] : List Int) ≠ [] ∧
      isInt32 ([-1, -2] : List Int).sum ∧
      (StdMap.find? (run ([] ++ .AddDocument 1 "cat".toList .ACTUAL [-1, -2] :: []) :
          SearchServer ℝ).documents_ 1).map (fun data => data.rating) =
        some (if 0 ≤ ([-1, -2] : List Int).sum
          then ⌊(([-1, -2] : List Int).sum : ℚ) / (([-1, -2] : List Int).length : ℚ)⌋
          else ⌈(([-1, -2] : List Int).sum : ℚ) / (([-1, -2] : List Int).length : ℚ)⌉) :=
  ⟨by decide, by decide, by unfold isInt32; decide,
    stored_rating_rounds_toward_zero [] [] 1 "cat".toList .ACTUAL [-1, -2] (by decide)
      (by decide) (by unfold isInt32; decide)⟩

/-- C20. In every state reached from a fresh server by `SetStopWords` and `AddDocument`
calls (repeated ids and empty texts included), every document id in a posting has a
metadata entry and every word of the postings map has at least one posting; hence
`FindTopDocuments` returns a result for every query and predicate, and the divisor of
every inverse document frequency it computes is not zero. -/
theorem FindTopDocuments_never_fails (calls : List Call) :
    (∀ p ∈ (run calls : SearchServer R).word_to_document_freqs_, ∀ q ∈ p.2,
      q.1 ∈ StdMap.keys (run calls : SearchServer R).documents_) ∧
    (∀ p ∈ (run calls : SearchServer R).word_to_document_freqs_, p.2 ≠ []) ∧
    (∀ (S : StdSort (Document R)) (log : R → R) (raw_query : Str)
      (document_predicate : DocumentPredicate),
      ∃ result, FindTopDocuments S log (run calls) raw_query document_predicate = .ok result) ∧
    (∀ word : Str, StdMap.count (run calls : SearchServer R).word_to_document_freqs_ word ≠ 0 →
      ∃ postings, StdMap.at_ (run calls : SearchServer R).word_to_document_freqs_ word =
          .ok postings ∧ postings.length ≠ 0 ∧
        ((postings.length : Nat) : R) ≠ 0) := by
  have hinv : Inv (run calls : SearchServer R) := Inv_run calls
  refine ⟨hinv.posting_ids, hinv.postings_ne, ?_, ?_⟩
  · intro S log raw_query document_predicate
    obtain ⟨r, _, _, _, htop⟩ := FindTopDocuments_spec S log _ hinv raw_query document_predicate
    exact ⟨_, htop⟩
  · intro word hcount
    rw [StdMap.count_ne_zero, ← StdMap.find?_isSome] at hcount
    obtain ⟨postings, hp⟩ := Option.isSome_iff_exists.1 hcount
    have hne := hinv.postings_ne _ (StdMap.mem_of_find? hp)
    have hlen : postings.length ≠ 0 := fun h => hne (List.length_eq_zero.1 h)
    exact ⟨postings, StdMap.at_eq_ok.2 hp, hlen, Nat.cast_ne_zero.2 hlen⟩

end SearchServer

namespace SearchServer

variable {R : Type} [LinearOrderedField R]

/-- C13. In every state of the index, two queries whose whitespace-separated terms form
the same set have the same parsed query, hence give the same `FindTopDocuments` result
(the same documents in the same order with the same relevances and ratings), for the
predicate form and the status form, and the same `MatchDocument` result. -/
theorem queries_with_equal_term_sets_agree (S : StdSort (Document R)) (log : R → R)
    (srv : SearchServer R) (q q' : Str) (document_predicate : DocumentPredicate)
    (h : ∀ w, w ∈ SplitIntoWords q ↔ w ∈ SplitIntoWords q') :
    srv.ParseQuery q = srv.ParseQuery q' ∧
      FindTopDocuments S log srv q document_predicate =
        FindTopDocuments S log srv q' document_predicate ∧
      (∀ given_status : DocumentStatus,
        FindTopDocumentsByStatus S log srv q given_status =
          FindTopDocumentsByStatus S log srv q' given_status) ∧
      (∀ document_id : Int,
        MatchDocument srv q document_id = MatchDocument srv q' document_id) := by
  have hp := ParseQuery_congr srv q q' h
  exact ⟨hp, FindTopDocuments_congr S log srv q q' _ hp,
    fun _ => FindTopDocuments_congr S log srv q q' _ hp,
    fun document_id => MatchDocument_congr srv q q' document_id hp⟩

/-- C13, at the inputs of the claim: `"cat dog"` and `"dog cat cat"` on the index of
`TestAddDocument`. -/
theorem queries_with_equal_term_sets_agree_witness :
    (∀ w, w ∈ SplitIntoWords "cat dog".toList ↔ w ∈ SplitIntoWords "dog cat cat".toList) ∧
      FindTopDocuments (insertionSort (Document ℝ)) Real.log (run addDocumentCalls)
          "cat dog".toList (fun _ _ _ => true) =
        FindTopDocuments (insertionSort (Document ℝ)) Real.log (run addDocumentCalls)
          "dog cat cat".toList (fun _ _ _ => true) := by
  have h : ∀ w, w ∈ SplitIntoWords "cat dog".toList ↔
      w ∈ SplitIntoWords "dog cat cat".toList := by
    intro w
    have e1 : SplitIntoWords "cat dog".toList = ["cat".toList, "dog".toList] := by decide
    have e2 : SplitIntoWords "dog cat cat".toList =
        ["dog".toList, "cat".toList, "cat".toList] := by decide
    rw [e1, e2]
    simp only [List.mem_cons, List.mem_singleton, List.not_mem_nil, or_false]
    tauto
  exact ⟨h, (queries_with_equal_term_sets_agree (insertionSort (Document ℝ)) Real.log
    (run addDocumentCalls) "cat dog".toList "dog cat cat".toList (fun _ _ _ => true) h).2.1⟩

/-- C18, counterexample.  On the index holding `"cat in the city"`, the query `"cat -"`
holds a lone `"-"`, and both `FindTopDocuments` and `MatchDocument` return a result. -/
theorem lone_minus_returns_a_result :
    ['-'] ∈ SplitIntoWords "cat -".toList ∧
      (∃ d, FindTopDocuments (insertionSort (Document ℝ)) Real.log (run catCityCalls)
        "cat -".toList (fun _ _ _ => true) = .ok [d]) ∧
      MatchDocument (run catCityCalls : SearchServer ℝ) "cat -".toList 42 =
        .ok (["cat".toList], .ACTUAL) :=
  ⟨by decide, ⟨_, rfl⟩, rfl⟩

/-- C18, amended.  In every reachable state, for a query that holds a lone `"-"` among
its whitespace-separated terms: the `"-"` is parsed as the minus term `""`, under which
no document has a posting; `FindTopDocuments` returns a result, and so does
`MatchDocument` for every inserted id; and both return what they return for a query with
the same terms without the `"-"`. -/
theorem lone_minus_is_the_empty_minus_term (S : StdSort (Document R)) (log : R → R)
    (calls : List Call) (q : Str) (document_predicate : DocumentPredicate)
    (hq : ['-'] ∈ SplitIntoWords q) :
    ([] : Str) ∈ ((run calls : SearchServer R).ParseQuery q).minus_words ∧
      (∀ x : Int, hasPosting (run calls : SearchServer R) [] x = false) ∧
      (∃ result, FindTopDocuments S log (run calls) q document_predicate = .ok result) ∧
      (∀ document_id ∈ insertedIds calls,
        ∃ result, MatchDocument (run calls : SearchServer R) q document_id = .ok result) ∧
      (∀ q' : Str, (∀ w, w ∈ SplitIntoWords q' ↔ w ∈ SplitIntoWords q ∧ w ≠ ['-']) →
        FindTopDocuments S log (run calls) q document_predicate =
            FindTopDocuments S log (run calls) q' document_predicate ∧
          ∀ document_id : Int,
            MatchDocument (run calls : SearchServer R) q document_id =
              MatchDocument (run calls : SearchServer R) q' document_id) := by
  have hinv : Inv (run calls : SearchServer R) := Inv_run calls
  have hnil : ∀ x : Int, hasPosting (run calls : SearchServer R) [] x = false :=
    hasPosting_nil_run calls
  have hword : (run calls : SearchServer R).ParseQueryWord ['-'] = ⟨[], true, false⟩ := by
    have hs : (run calls : SearchServer R).IsStopWord [] = false := by
      rw [← Bool.not_eq_true, IsStopWord_iff]
      exact fun h => (hinv.stop_words [] h).1 rfl
    simp [ParseQueryWord, hs]
  generalize hsrv : (run calls : SearchServer R) = srv at hinv hnil hword ⊢
  have hmem : ([] : Str) ∈ (srv.ParseQuery q).minus_words := by
    unfold ParseQuery
    rw [(ParseQuery_mem_foldl srv _ _ []).2]
    exact Or.inr ⟨['-'], hq, hword⟩
  refine ⟨hmem, hnil, ?_, ?_, ?_⟩
  · obtain ⟨r, _, _, _, htop⟩ := FindTopDocuments_spec S log srv hinv q document_predicate
    exact ⟨_, htop⟩
  · intro document_id hid
    have hk : document_id ∈ StdMap.keys srv.documents_ := by
      rw [← hsrv]
      exact (keys_documents_run calls document_id).2 hid
    obtain ⟨data, hdata⟩ := Option.isSome_iff_exists.1 (StdMap.find?_isSome.2 hk)
    rw [MatchDocument_eq, hdata]
    exact ⟨_, rfl⟩
  · intro q' hq'
    have hplus : (srv.ParseQuery q).plus_words = (srv.ParseQuery q').plus_words := by
      apply sorted_ext (ParseQuery_sorted srv q).1 (ParseQuery_sorted srv q').1
      intro w
      unfold ParseQuery
      rw [(ParseQuery_mem_foldl srv _ _ w).1, (ParseQuery_mem_foldl srv _ _ w).1]
      simp only [List.not_mem_nil, false_or]
      constructor
      · rintro ⟨word, hw, hpw⟩
        refine ⟨word, (hq' word).2 ⟨hw, ?_⟩, hpw⟩
        intro e
        rw [e, hword] at hpw
        simp at hpw
      · rintro ⟨word, hw, hpw⟩
        exact ⟨word, ((hq' word).1 hw).1, hpw⟩
    have hminus : ∀ w, w ∈ (srv.ParseQuery q).minus_words ↔
        w ∈ (srv.ParseQuery q').minus_words ∨ w = [] := by
      intro w
      unfold ParseQuery
      rw [(ParseQuery_mem_foldl srv _ _ w).2, (ParseQuery_mem_foldl srv _ _ w).2]
      simp only [List.not_mem_nil, false_or]
      constructor
      · rintro ⟨word, hw, hpw⟩
        by_cases e : word = ['-']
        · rw [e, hword] at hpw
          simp only [QueryWord.mk.injEq, and_true] at hpw
          exact Or.inr hpw.symm
        · exact Or.inl ⟨word, (hq' word).2 ⟨hw, e⟩, hpw⟩
      · rintro (⟨word, hw, hpw⟩ | e)
        · exact ⟨word, ((hq' word).1 hw).1, hpw⟩
        · rw [e]
          exact ⟨['-'], hq, hword⟩
    have hany : ∀ x : Int, (srv.ParseQuery q).minus_words.any (fun w => hasPosting srv w x) =
        (srv.ParseQuery q').minus_words.any (fun w => hasPosting srv w x) := by
      intro x
      rw [Bool.eq_iff_iff, List.any_eq_true, List.any_eq_true]
      constructor
      · rintro ⟨w, hw, hp⟩
        rcases (hminus w).1 hw with h | h
        · exact ⟨w, h, hp⟩
        · rw [h, hnil x] at hp
          exact absurd hp (by simp)
      · rintro ⟨w, hw, hp⟩
        exact ⟨w, (hminus w).2 (Or.inl hw), hp⟩
    constructor
    · apply FindTopDocuments_congr_relevance S log srv hinv
      intro x
      simp only [relevance?, hplus, hany x]
    · intro document_id
      rw [MatchDocument_eq, MatchDocument_eq, hplus, hany document_id]

/-- C18 amended, at a concrete input: the query `"cat -"` on the index holding
`"cat in the city"`. -/
theorem lone_minus_is_the_empty_minus_term_witness :
    ['-'] ∈ SplitIntoWords "cat -".toList ∧
      ([] : Str) ∈ ((run catCityCalls : SearchServer ℝ).ParseQuery "cat -".toList).minus_words :=
  ⟨by decide,
    (lone_minus_is_the_empty_minus_term (insertionSort (Document ℝ)) Real.log catCityCalls
      "cat -".toList (fun _ _ _ => true) (by decide)).1⟩

/-- C11, counterexample.  (1) The document `"cat -dog"` is inserted with status `ACTUAL`;
its word `"-dog"` is not a stop word, yet the query `"-dog"` returns nothing, because the
query parser reads it as the minus term `dog`.  (2) The id 1 is inserted as `"dog"` with
status `BANNED` and again as `"cat"` with status `ACTUAL`; the query `"cat"` returns
nothing, because the metadata of the first insertion is kept. -/
theorem verbatim_term_not_found :
    ("-dog".toList ∈ SplitIntoWords "cat -dog".toList ∧
      "-dog".toList ∉ (run dashTermCalls : SearchServer ℝ).stop_words_ ∧
      (run dashTermCalls : SearchServer ℝ).GetDocumentCount ≤ 5 ∧
      FindTopDocumentsByStatus (insertionSort (Document ℝ)) Real.log (run dashTermCalls)
        "-dog".toList .ACTUAL = .ok []) ∧
    ("cat".toList ∈ SplitIntoWords "cat".toList ∧
      "cat".toList ∉ (run bannedThenActualCalls : SearchServer ℝ).stop_words_ ∧
      (run bannedThenActualCalls : SearchServer ℝ).GetDocumentCount ≤ 5 ∧
      FindTopDocumentsByStatus (insertionSort (Document ℝ)) Real.log
        (run bannedThenActualCalls) "cat".toList .ACTUAL = .ok []) :=
  ⟨⟨by decide, by decide, by decide, rfl⟩, ⟨by decide, by decide, by decide, rfl⟩⟩

/-- C11, amended.  Let an index hold at most 5 documents, and let a document be inserted
with status `ACTUAL` under an id not used before.  For every word of its text that is not
a stop word and does not start with a minus sign, `FindTopDocuments(word)` with the
default status contains the document's id. -/
theorem FindTopDocuments_finds_verbatim_term (S : StdSort (Document R)) (log : R → R)
    (pre post : List Call) (document_id : Int) (document : Str) (ratings : List Int)
    (term : Str) (hnew : document_id ∉ insertedIds pre)
    (hsmall : (run (pre ++ .AddDocument document_id document .ACTUAL ratings :: post) :
      SearchServer R).GetDocumentCount ≤ 5)
    (hterm : term ∈ SplitIntoWords document)
    (hstop : term ∉ (run (pre ++ .AddDocument document_id document .ACTUAL ratings :: post) :
      SearchServer R).stop_words_)
    (hdash : term.head? ≠ some '-') :
    ∃ result,
      FindTopDocumentsByStatus S log
        (run (pre ++ .AddDocument document_id document .ACTUAL ratings :: post)) term
        .ACTUAL = .ok result ∧
      ∃ d ∈ result, d.id = document_id := by
  have hinv : Inv (run (pre ++ .AddDocument document_id document .ACTUAL ratings :: post) :
      SearchServer R) := Inv_run _
  have hstored := find?_documents_first (R := R) pre post document_id document .ACTUAL ratings hnew
  have hrun : (run (pre ++ .AddDocument document_id document .ACTUAL ratings :: post) :
      SearchServer R) =
      post.foldl step (step (run pre) (.AddDocument document_id document .ACTUAL ratings)) := by
    unfold run
    rw [List.foldl_append, List.foldl_cons]
  have hpre : Inv (run pre : SearchServer R) := Inv_run pre
  have hstop' : term ∉ (run pre : SearchServer R).stop_words_ := by
    intro h
    apply hstop
    rw [hrun]
    exact stop_words_mono post _ term h
  have hpost : hasPosting (run (pre ++ .AddDocument document_id document .ACTUAL ratings ::
      post) : SearchServer R) term document_id = true := by
    rw [hrun]
    apply hasPosting_foldl post (Inv_step hpre _)
    simp only [step]
    rw [hasPosting_AddDocument hpre]
    have : term ∈ (run pre : SearchServer R).SplitIntoWordsNoStop document :=
      (SplitIntoWordsNoStop_mem _ _ _).2 ⟨hterm, hstop'⟩
    simp [this]
  have hw := SplitIntoWords_mem document term hterm
  generalize (run (pre ++ .AddDocument document_id document .ACTUAL ratings :: post) :
    SearchServer R) = srv at hinv hstored hsmall hstop hpost ⊢
  have hq := ParseQuery_single srv term hw.1 hw.2 hdash hstop
  have hmatch : (document_id, (⟨ComputeAverageRating ratings, .ACTUAL⟩ : DocumentData)) ∈
      matchingDocuments srv (srv.ParseQuery term)
        (fun _ status _ => decide (status = .ACTUAL)) := by
    refine List.mem_filter.2 ⟨StdMap.mem_of_find? hstored, ?_⟩
    rw [hq]
    simp [isMatch, hpost]
  have hlen : (matchingDocuments srv (srv.ParseQuery term)
      (fun _ status _ => decide (status = .ACTUAL))).length ≤ 5 := by
    have h1 : (matchingDocuments srv (srv.ParseQuery term)
        (fun _ status _ => decide (status = .ACTUAL))).length ≤ srv.documents_.length :=
      List.length_filter_le _ _
    unfold GetDocumentCount at hsmall
    omega
  obtain ⟨result, hres, hall⟩ := FindTopDocuments_complete S log srv hinv term
    (fun _ status _ => decide (status = .ACTUAL)) hlen
  obtain ⟨d, hd, hid, _⟩ := hall _ hmatch
  exact ⟨result, hres, d, hd, hid⟩

/-- C11 amended, at the input of `TestAddDocument`: the word `"city"` of the document
with id 42. -/
theorem FindTopDocuments_finds_verbatim_term_witness :
    (42 : Int) ∉ insertedIds [] ∧
      (run ([] ++ .AddDocument 42 "cat in the city".toList .ACTUAL [1] ::
        [.AddDocument 43 "dog was found".toList .ACTUAL [1]]) :
        SearchServer ℝ).GetDocumentCount ≤ 5 ∧
      "city".toList ∈ SplitIntoWords "cat in the city".toList ∧
      ∃ result,
        FindTopDocumentsByStatus (insertionSort (Document ℝ)) Real.log
          (run ([] ++ .AddDocument 42 "cat in the city".toList .ACTUAL [1] ::
            [.AddDocument 43 "dog was found".toList .ACTUAL [1]])) "city".toList
          .ACTUAL = .ok result ∧
        ∃ d ∈ result, d.id = 42 :=
  ⟨by decide, by decide, by decide,
    FindTopDocuments_finds_verbatim_term (insertionSort (Document ℝ)) Real.log []
      [.AddDocument 43 "dog was found".toList .ACTUAL [1]] 42 "cat in the city".toList [1]
      "city".toList (by decide) (by decide) (by decide) (by decide) (by decide)⟩

end SearchServer

namespace SearchServer

variable {R : Type} [LinearOrderedField R]

/-- C15. In every state reached by calls whose `AddDocument` ids are pairwise distinct
(with `SetStopWords` calls anywhere between them), for every inserted document: if its
text had a non-stop word when it was inserted, the term frequencies stored for it, summed
over all words that have a posting for it, give exactly 1; if it had none, no word has a
posting for it and no query returns it. -/
theorem term_frequencies_sum_to_one (S : StdSort (Document R)) (log : R → R)
    (calls : List Call) (document_id : Int) (words : List Str)
    (hdistinct : (insertedIds calls).Nodup)
    (hdoc : (document_id, words) ∈ insertedDocs [] calls) :
    (words ≠ [] →
      ((run calls : SearchServer R).word_to_document_freqs_.filterMap
        (fun p => StdMap.find? p.2 document_id)).sum = 1) ∧
    (words = [] →
      (∀ w : Str, hasPosting (run calls : SearchServer R) w document_id = false) ∧
      ∀ (raw_query : Str) (document_predicate : DocumentPredicate),
        ∃ result, FindTopDocuments S log (run calls) raw_query document_predicate = .ok result ∧
          ∀ d ∈ result, d.id ≠ document_id) := by
  refine ⟨tf_sum_run calls hdistinct document_id words hdoc, ?_⟩
  intro hnil
  subst hnil
  have hno := no_posting_of_no_words (R := R) calls hdistinct document_id hdoc
  refine ⟨hno, ?_⟩
  intro raw_query document_predicate
  have hinv : Inv (run calls : SearchServer R) := Inv_run calls
  obtain ⟨r, hwf, hfind, _, htop⟩ :=
    FindTopDocuments_spec S log (run calls) hinv raw_query document_predicate
  refine ⟨_, htop, ?_⟩
  intro d hd hid
  have hd' : d ∈ r.map (toDocument (run calls)) :=
    (S.perm comparator _).subset (List.mem_of_mem_take hd)
  obtain ⟨h1, _⟩ := (mem_entries_iff hwf _ d).1 hd'
  have hsome : (relevance? log (run calls) ((run calls : SearchServer R).ParseQuery raw_query)
      document_predicate d.id).isSome = true := by
    rw [← hfind d.id, h1]
    rfl
  rw [relevance?_isSome] at hsome
  simp only [Bool.and_eq_true, List.any_eq_true] at hsome
  obtain ⟨⟨⟨w, _, hw⟩, _⟩, _⟩ := hsome
  rw [hid, hno w] at hw
  exact absurd hw (by simp)

/-- C15, at a concrete input: with stop words `"in the"`, the document
`"cat in the city"` has the non-stop words `cat` and `city`, and the document `"in the"`
has none. -/
theorem term_frequencies_sum_to_one_witness :
    (insertedIds onlyStopWordsCalls).Nodup ∧
      ((42 : Int), ["cat".toList, "city".toList]) ∈ insertedDocs [] onlyStopWordsCalls ∧
      ((43 : Int), ([] : List Str)) ∈ insertedDocs [] onlyStopWordsCalls ∧
      ((run onlyStopWordsCalls : SearchServer ℝ).word_to_document_freqs_.filterMap
        (fun p => StdMap.find? p.2 42)).sum = 1 ∧
      (∀ w : Str, hasPosting (run onlyStopWordsCalls : SearchServer ℝ) w 43 = false) :=
  ⟨by decide, by decide, by decide,
    (term_frequencies_sum_to_one (insertionSort (Document ℝ)) Real.log onlyStopWordsCalls 42
      ["cat".toList, "city".toList] (by decide) (by decide)).1 (by decide),
    ((term_frequencies_sum_to_one (insertionSort (Document ℝ)) Real.log onlyStopWordsCalls 43
      [] (by decide) (by decide)).2 rfl).1⟩

end SearchServer

namespace SearchServer

/-- C16, counterexample.  With the four documents of the example and the ten single-word
documents of `TestSortByRelevance` (ids 5 to 14), the document with id 1,
`"cat in the city"`, is returned for the query `"cat"` with relevance `(1/4) * ln(14/3)`:
its text has four words, not five, so the relevance is not `(1/5) * ln(14/3)`. -/
theorem example_relevance_is_not_a_fifth :
    ∃ result,
      FindTopDocumentsByStatus (insertionSort (Document ℝ)) Real.log
        (run (sortExampleBase ++ singleWordCalls sortExampleOthers)) "cat".toList .ACTUAL =
        .ok result ∧
      ∃ d ∈ result, d.id = 1 ∧ d.relevance = 1 / 4 * Real.log (14 / 3) ∧
        d.relevance ≠ 1 / 5 * Real.log (14 / 3) := by
  refine ⟨_, sort_example_result (insertionSort (Document ℝ)) sortExampleOthers
    (by decide) (by decide) (by decide), ⟨1, 1 / 4 * Real.log (14 / 3), 1⟩, by simp, rfl, rfl, ?_⟩
  have hL : (0 : ℝ) < Real.log (14 / 3) := Real.log_pos (by norm_num)
  simp only
  intro h
  linarith

/-- C16, amended.  With no stop words configured, after inserting the documents
1: `"cat in the city"`, 2: `"cat in the"`, 3: `"cat in"`, 4: `"the"` and ten further
documents with fresh, pairwise distinct ids, each a single word other than `cat`, all
with status `ACTUAL` and ratings `[1]`, `FindTopDocuments("cat")` returns exactly three
results: ids 3, 2 and 1 in this order, with relevances `(1/2) * ln(14/3)`,
`(1/3) * ln(14/3)` and `(1/4) * ln(14/3)` and rating 1 each. -/
theorem example_relevances (S : StdSort (Document ℝ)) (others : List (Int × Str))
    (hlen : others.length = 10) (hfresh : ([1, 2, 3, 4] ++ others.map Prod.fst).Nodup)
    (hwords : ∀ p ∈ others, p.2 ≠ [] ∧ ' ' ∉ p.2 ∧ p.2 ≠ "cat".toList) :
    FindTopDocumentsByStatus S Real.log (run (sortExampleBase ++ singleWordCalls others))
        "cat".toList .ACTUAL =
      .ok [⟨3, 1 / 2 * Real.log (14 / 3), 1⟩, ⟨2, 1 / 3 * Real.log (14 / 3), 1⟩,
        ⟨1, 1 / 4 * Real.log (14 / 3), 1⟩] :=
  sort_example_result S others hlen hfresh hwords

/-- C16 amended, at the ten single-word documents of `TestSortByRelevance`. -/
theorem example_relevances_witness :
    sortExampleOthers.length = 10 ∧
      ([1, 2, 3, 4] ++ sortExampleOthers.map Prod.fst).Nodup ∧
      (∀ p ∈ sortExampleOthers, p.2 ≠ [] ∧ ' ' ∉ p.2 ∧ p.2 ≠ "cat".toList) ∧
      FindTopDocumentsByStatus (insertionSort (Document ℝ)) Real.log
          (run (sortExampleBase ++ singleWordCalls sortExampleOthers)) "cat".toList .ACTUAL =
        .ok [⟨3, 1 / 2 * Real.log (14 / 3), 1⟩, ⟨2, 1 / 3 * Real.log (14 / 3), 1⟩,
          ⟨1, 1 / 4 * Real.log (14 / 3), 1⟩] :=
  ⟨by decide, by decide, by decide,
    example_relevances (insertionSort (Document ℝ)) sortExampleOthers (by decide) (by decide)
      (by decide)⟩

end SearchServer

namespace SearchServer

variable {R : Type} [LinearOrderedField R]

/-- C21.  The lambda handed to `sort` in `FindTopDocuments` is not a strict weak ordering.
For the documents `a`, `b`, `c` with relevances `0`, `0.6e-6`, `1.2e-6` and ratings `3`,
`2`, `1` it ranks `a` before `b`, `b` before `c` and `c` before `a`: the relevances of `a`
and `b`, and of `b` and `c`, differ by less than `1e-6` while those of `a` and `c` do not,
so "the relevances differ by less than `1e-6`" is not transitive, and the comparator is
not transitive on the three documents. -/
theorem comparator_is_not_a_strict_weak_ordering :
    comparator (⟨1, 0, 3⟩ : Document R) ⟨2, 6 / 10000000, 2⟩ = true ∧
    comparator (⟨2, 6 / 10000000, 2⟩ : Document R) ⟨3, 12 / 10000000, 1⟩ = true ∧
    comparator (⟨3, 12 / 10000000, 1⟩ : Document R) ⟨1, 0, 3⟩ = true ∧
    comparator (⟨1, 0, 3⟩ : Document R) ⟨3, 12 / 10000000, 1⟩ = false ∧
    ¬ TieTransitive
      [(⟨1, 0, 3⟩ : Document R), ⟨2, 6 / 10000000, 2⟩, ⟨3, 12 / 10000000, 1⟩] ∧
    ¬ StrictWeakOn comparator
      [(⟨1, 0, 3⟩ : Document R), ⟨2, 6 / 10000000, 2⟩, ⟨3, 12 / 10000000, 1⟩] := by
  have t1 : |(0 : R) - 6 / 10000000| < 1 / 1000000 := by
    rw [abs_lt]; constructor <;> norm_num
  have t2 : |(6 / 10000000 : R) - 12 / 10000000| < 1 / 1000000 := by
    rw [abs_lt]; constructor <;> norm_num
  have t3 : ¬ |(12 / 10000000 : R) - 0| < 1 / 1000000 := by
    rw [abs_lt]; rintro ⟨_, h⟩; norm_num at h
  have t4 : ¬ |(0 : R) - 12 / 10000000| < 1 / 1000000 := by
    rw [abs_lt]; rintro ⟨h, _⟩; norm_num at h
  have hab : comparator (⟨1, 0, 3⟩ : Document R) ⟨2, 6 / 10000000, 2⟩ = true := by
    simp only [comparator, t1, if_true, decide_eq_true_eq]
    norm_num
  have hbc : comparator (⟨2, 6 / 10000000, 2⟩ : Document R) ⟨3, 12 / 10000000, 1⟩ = true := by
    simp only [comparator, t2, if_true, decide_eq_true_eq]
    norm_num
  have hca : comparator (⟨3, 12 / 10000000, 1⟩ : Document R) ⟨1, 0, 3⟩ = true := by
    simp only [comparator, t3, if_false, decide_eq_true_eq]
    norm_num
  have hac : comparator (⟨1, 0, 3⟩ : Document R) ⟨3, 12 / 10000000, 1⟩ = false := by
    simp only [comparator, t4, if_false, decide_eq_false_iff_not, not_lt]
    norm_num
  refine ⟨hab, hbc, hca, hac, ?_, ?_⟩
  · intro h
    exact t4 (h _ (List.mem_cons_self _ _) _ (List.mem_cons_of_mem _ (List.mem_cons_self _ _)) _
      (List.mem_cons_of_mem _ (List.mem_cons_of_mem _ (List.mem_cons_self _ _))) t1 t2)
  · rintro ⟨_, htrans, _⟩
    have := htrans _ (List.mem_cons_self _ _) _
      (List.mem_cons_of_mem _ (List.mem_cons_self _ _)) _
      (List.mem_cons_of_mem _ (List.mem_cons_of_mem _ (List.mem_cons_self _ _))) hab hbc
    rw [hac] at this
    exact Bool.false_ne_true this

end SearchServer

namespace SearchServer

/-- C22.  In every state reached by `SetStopWords` and `AddDocument` calls, in exact real
arithmetic: the document frequency of every word is at most `GetDocumentCount()`, every
value of `ComputeWordInverseDocumentFreq` is non-negative, every stored term frequency is
positive, and for every query and predicate `FindTopDocuments` returns a result in which
every document has relevance `>= 0`.  A returned document whose matched plus terms all have
a posting for every stored document has relevance exactly `0`, and every matching document
is in the result when at most 5 documents match. -/
theorem relevance_is_never_negative (S : StdSort (Document ℝ)) (calls : List Call)
    (raw_query : Str) (document_predicate : DocumentPredicate) :
    (∀ word, (documentFreq (run calls : SearchServer ℝ) word : Int) ≤
      (run calls : SearchServer ℝ).GetDocumentCount) ∧
    (∀ word v, ComputeWordInverseDocumentFreq Real.log (run calls) word = .ok v → 0 ≤ v) ∧
    (∀ word document_id term_freq,
      termFreq? (run calls : SearchServer ℝ) word document_id = some term_freq →
        0 < term_freq) ∧
    ∃ result,
      FindTopDocuments S Real.log (run calls) raw_query document_predicate = .ok result ∧
      (∀ d ∈ result, 0 ≤ d.relevance) ∧
      (∀ d ∈ result,
        (∀ w ∈ ((run calls : SearchServer ℝ).ParseQuery raw_query).plus_words,
          hasPosting (run calls : SearchServer ℝ) w d.id = true →
          ∀ x ∈ StdMap.keys (run calls : SearchServer ℝ).documents_,
            hasPosting (run calls : SearchServer ℝ) w x = true) →
        d.relevance = 0) ∧
      ((matchingDocuments (run calls : SearchServer ℝ)
          ((run calls : SearchServer ℝ).ParseQuery raw_query) document_predicate).length ≤ 5 →
        ∀ p ∈ matchingDocuments (run calls : SearchServer ℝ)
          ((run calls : SearchServer ℝ).ParseQuery raw_query) document_predicate,
          ∃ d ∈ result, d.id = p.1) := by
  have hinv : Inv (run calls : SearchServer ℝ) := Inv_run calls
  refine ⟨?_, ?_, ?_, ?_⟩
  · intro word
    unfold GetDocumentCount
    exact Int.ofNat_le.2 (documentFreq_le _ hinv word)
  · intro word v hv
    obtain ⟨hv1, hv2⟩ := ComputeWordInverseDocumentFreq_eq Real.log _ hinv word v hv
    rw [hv1]
    exact idf_nonneg Real.log (fun x hx => Real.log_nonneg hx) _ hinv word hv2
  · intro word document_id term_freq h
    exact termFreq?_pos calls word document_id term_freq h
  · exact relevance_bounds S Real.log (fun x hx => Real.log_nonneg hx) Real.log_one calls
      raw_query document_predicate

/-- C22, an instance.  With the documents `"cat"` and `"cat dog"` in the index the query
`cat` returns both documents, each with relevance exactly `0`. -/
theorem relevance_is_never_negative_witness :
    ∃ result,
      FindTopDocuments (insertionSort (Document ℝ)) Real.log (run sharedTermCalls)
        "cat".toList (fun _ _ _ => true) = .ok result ∧
      (∀ d ∈ result, d.relevance = 0) ∧ (∃ d ∈ result, d.id = 1) ∧ ∃ d ∈ result, d.id = 2 := by
  obtain ⟨_, _, _, result, hres, _, hzero, hall⟩ :=
    relevance_is_never_negative (insertionSort (Document ℝ)) sharedTermCalls "cat".toList
      (fun _ _ _ => true)
  have huniv : ∀ w ∈ ((run sharedTermCalls : SearchServer ℝ).ParseQuery "cat".toList).plus_words,
      ∀ x ∈ StdMap.keys (run sharedTermCalls : SearchServer ℝ).documents_,
        hasPosting (run sharedTermCalls : SearchServer ℝ) w x = true := by decide
  have hlen : (matchingDocuments (run sharedTermCalls : SearchServer ℝ)
      ((run sharedTermCalls : SearchServer ℝ).ParseQuery "cat".toList)
      (fun _ _ _ => true)).length ≤ 5 := by decide
  have h1 : ((1 : Int), (⟨1, .ACTUAL⟩ : DocumentData)) ∈
      matchingDocuments (run sharedTermCalls : SearchServer ℝ)
        ((run sharedTermCalls : SearchServer ℝ).ParseQuery "cat".toList)
        (fun _ _ _ => true) := by decide
  have h2 : ((2 : Int), (⟨2, .ACTUAL⟩ : DocumentData)) ∈
      matchingDocuments (run sharedTermCalls : SearchServer ℝ)
        ((run sharedTermCalls : SearchServer ℝ).ParseQuery "cat".toList)
        (fun _ _ _ => true) := by decide
  exact ⟨result, hres, fun d hd => hzero d hd (fun w hw _ => huniv w hw),
    hall hlen _ h1, hall hlen _ h2⟩

end SearchServer
